import Mathlib

/-!
# A verified model of the augmented B-tree (`lassemoldrup/b-tree`)

This file gives a shallow embedding, in Lean, of the Rust sources
`src/lib.rs` and `src/augments.rs` of the `b-tree` crate: an in-memory
ordered map implemented as a CLRS-style top-down B-tree with minimum degree
`t = 6`, extended with a pluggable augmentation (per-subtree summary)
protocol.  The embedding follows the source function by function:

* Rust's `struct Node` stores the live keys in the first `n` slots of a
  fixed `[MaybeUninit<(K, V)>; 2t-1]` array; the embedding keeps exactly the
  live prefix as a `List (K × V)` (the spec's sanctioned modelling of the
  uninitialized tail).  `n` is the length of that list.
* `&mut self` methods become functions `Node → Node` (possibly paired with
  the Rust return value).
* Out-of-contract accesses (`unsafe` preconditions, slice indexing that
  would panic) are modelled with `List.getD` junk defaults; all theorems
  are proved on states where the real code stays in contract.
* `slice::binary_search_by_key` is std-library code, modelled through its
  contract on a sorted slice (exact hit index, or insertion point).

After the definitions, the file proves the spec-level claims: search/delete
return values agree with a sorted association-list model, `augment_search`
computes prefix sums for the `SumAugment` augmentation, the B-tree shape
and summary invariants hold in every reachable state, and the
idempotence/round-trip laws (corrected where the code preemptively
restructures the tree).
-/

set_option linter.unusedSectionVars false
set_option linter.unnecessarySimpa false
set_option linter.unnecessarySeqFocus false

namespace BT

/-- Minimum degree of the B-tree (`const MIN_DEGREE: usize = 6`). -/
def MIN_DEGREE : Nat := 6

/-- The augmentation contract (`trait Augment<K, V>`).  Child-summary
iterators are passed as lists.  `Value` is `β`, `Output` is `γ`. -/
structure Aug (K V β γ : Type) where
  initial_value : β
  initial_output : γ
  inserted_sub_tree : K → V → β → β
  deleted_sub_tree : K → V → β → β
  split : List (K × V) → List (K × V) → (K × V) → List β → List β → β → β × β
  split_root : (K × V) → β → β → β
  merge : (K × V) → β → β → β
  steal : (K × V) → (K × V) → Option β → β → β → β × β
  visit : Bool → Nat → List (K × V) → List β → β → γ → γ

/-- The trivial augmentation (`impl<K, V> Augment<K, V> for ()`). -/
def UnitAugment (K V : Type) : Aug K V Unit Unit where
  initial_value := ()
  initial_output := ()
  inserted_sub_tree := fun _ _ _ => ()
  deleted_sub_tree := fun _ _ _ => ()
  split := fun _ _ _ _ _ _ => ((), ())
  split_root := fun _ _ _ => ()
  merge := fun _ _ _ => ()
  steal := fun _ _ _ _ _ => ((), ())
  visit := fun _ _ _ _ _ _ => ()

/-- The prefix-sum augmentation (`struct SumAugment`); `V::default()` is `0`
and `&V: Add/Sub` are the group operations. -/
def SumAugment (K V : Type) [AddCommGroup V] [Inhabited K] [Inhabited V] : Aug K V V V where
  initial_value := 0
  initial_output := 0
  inserted_sub_tree := fun _ v old => old + v
  deleted_sub_tree := fun _ v old => old - v
  split := fun leftKeys _ median leftChildSums _ old =>
    let l0 := (leftKeys.map Prod.snd).foldl (· + ·) 0
    let left := leftChildSums.foldl (· + ·) l0
    (left, old - median.2 - left)
  split_root := fun rootPair l r => rootPair.2 + l + r
  merge := fun parentPair l r => l + r + parentPair.2
  steal := fun parentPair victimPair stolenChild thief victim =>
    match stolenChild with
    | some c => (thief + parentPair.2 + c, victim - victimPair.2 - c)
    | none => (thief + parentPair.2, victim - victimPair.2)
  visit := fun found idx keys childSums _ acc =>
    let acc1 := ((keys.take idx).map Prod.snd).foldl (· + ·) acc
    let accNum : V × Nat :=
      if found then (acc1 + (keys.getD idx default).2, idx + 1) else (acc1, idx)
    (childSums.take accNum.2).foldl (· + ·) accNum.1

/-- A B-tree node (`struct Node<K, V, A>`): the live key prefix, the child
vector and the cached augmentation summary. -/
inductive Node (K V β : Type) : Type where
  | mk (keys : List (K × V)) (children : List (Node K V β)) (aug_val : β)

variable {K V β γ : Type}

def Node.keys : Node K V β → List (K × V)
  | ⟨ks, _, _⟩ => ks

def Node.children : Node K V β → List (Node K V β)
  | ⟨_, cs, _⟩ => cs

def Node.aug_val : Node K V β → β
  | ⟨_, _, a⟩ => a

@[simp]
theorem Node.keys_mk (ks : List (K × V)) (cs : List (Node K V β)) (a : β) :
    (Node.mk ks cs a).keys = ks := rfl

@[simp]
theorem Node.children_mk (ks : List (K × V)) (cs : List (Node K V β)) (a : β) :
    (Node.mk ks cs a).children = cs := rfl

@[simp]
theorem Node.aug_val_mk (ks : List (K × V)) (cs : List (Node K V β)) (a : β) :
    (Node.mk ks cs a).aug_val = a := rfl

instance [Inhabited β] : Inhabited (Node K V β) := ⟨⟨[], [], default⟩⟩

/-- Number of keys plus number of nodes in a forest; used as the
termination measure of the recursive tree operations. -/
def nsizeL : List (Node K V β) → Nat
  | [] => 0
  | ⟨ks, cs, _⟩ :: rest => 1 + ks.length + nsizeL cs + nsizeL rest

/-- Number of keys plus number of nodes in a tree. -/
def Node.nsize (nd : Node K V β) : Nat := nsizeL [nd]

@[simp]
theorem Node.nsize_mk (ks : List (K × V)) (cs : List (Node K V β)) (a : β) :
    (Node.mk ks cs a).nsize = 1 + ks.length + nsizeL cs := by
  simp [Node.nsize, nsizeL]

@[simp]
theorem nsizeL_nil : nsizeL ([] : List (Node K V β)) = 0 := by
  simp [nsizeL]

theorem nsizeL_cons (c : Node K V β) (cs : List (Node K V β)) :
    nsizeL (c :: cs) = c.nsize + nsizeL cs := by
  cases c with
  | mk ks cs' a => simp [nsizeL]

theorem Node.nsize_pos (nd : Node K V β) : 1 ≤ nd.nsize := by
  cases nd with
  | mk ks cs a => simp; omega

theorem nsizeL_append (cs ds : List (Node K V β)) :
    nsizeL (cs ++ ds) = nsizeL cs + nsizeL ds := by
  induction cs with
  | nil => simp
  | cons c cs ih => simp [nsizeL_cons, ih]; omega

theorem nsize_mem_le {c : Node K V β} {cs : List (Node K V β)} (h : c ∈ cs) :
    c.nsize ≤ nsizeL cs := by
  induction cs with
  | nil => cases h
  | cons d ds ih =>
    rcases List.mem_cons.1 h with rfl | h'
    · rw [nsizeL_cons]; omega
    · rw [nsizeL_cons]; have := ih h'; omega

variable [Inhabited K] [Inhabited V] [Inhabited β]

def Node.is_min (nd : Node K V β) : Bool := nd.keys.length < MIN_DEGREE

def Node.is_full (nd : Node K V β) : Bool := nd.keys.length = 2 * MIN_DEGREE - 1

def Node.is_leaf (nd : Node K V β) : Bool := nd.children.isEmpty

/-- `Node::new_root`. -/
def Node.new_root (au : Aug K V β γ) : Node K V β := ⟨[], [], au.initial_value⟩

/-- `Node::split` (self becomes the left half; returns the median and the
new right sibling). -/
def Node.split (au : Aug K V β γ) : Node K V β → (K × V) × Node K V β × Node K V β
  | ⟨ks, cs, a⟩ =>
    let median := ks.getD (MIN_DEGREE - 1) default
    let leftKeys := ks.take (MIN_DEGREE - 1)
    let rightKeys := ks.drop MIN_DEGREE
    let leftChildren := if cs.isEmpty then cs else cs.take MIN_DEGREE
    let rightChildren := if cs.isEmpty then [] else cs.drop MIN_DEGREE
    let augPair := au.split leftKeys rightKeys median
      (leftChildren.map Node.aug_val) (rightChildren.map Node.aug_val) a
    (median, ⟨leftKeys, leftChildren, augPair.1⟩, ⟨rightKeys, rightChildren, augPair.2⟩)

/-- `Node::insert_pair` (right-shift the tail, place the pair, bump `n`). -/
def Node.insert_pair (idx : Nat) (pair : K × V) : Node K V β → Node K V β
  | ⟨ks, cs, a⟩ => ⟨ks.insertIdx idx pair, cs, a⟩

/-- `Node::insert_child`. -/
def Node.insert_child : Node K V β → Nat → Node K V β → Node K V β
  | ⟨ks, cs, a⟩, idx, child => ⟨ks, cs.insertIdx idx child, a⟩

/-- `Node::remove_pair` (move the pair out, left-shift the tail). -/
def Node.remove_pair (idx : Nat) : Node K V β → (K × V) × Node K V β
  | ⟨ks, cs, a⟩ => (ks.getD idx default, ⟨ks.eraseIdx idx, cs, a⟩)

/-- `Node::split_child`. -/
def Node.split_child (au : Aug K V β γ) (idx : Nat) : Node K V β → Node K V β
  | ⟨ks, cs, a⟩ =>
    let res := (cs.getD idx default).split au
    let nd1 : Node K V β := ⟨ks, cs.set idx res.2.1, a⟩
    (nd1.insert_pair idx res.1).insert_child (idx + 1) res.2.2

/-- `Node::merge_children` (merge children `idx` and `idx+1` around the
parent pair `keys[idx]`).  The callers guarantee that the pair `keys[idx]`
and both children exist; outside that contract the code panics
(out-of-bounds `children.remove`) or reads uninitialized keys, modelled
here by returning the node unchanged. -/
def Node.merge_children (au : Aug K V β γ) (idx : Nat) : Node K V β → Node K V β
  | ⟨ks, cs, a⟩ =>
    if idx + 1 < cs.length ∧ idx < ks.length then
      let parentPair := ks.getD idx default
      let ks' := ks.eraseIdx idx
      let rightChild := cs.getD (idx + 1) default
      let cs' := cs.eraseIdx (idx + 1)
      let leftChild := cs.getD idx default
      let mergedAug := au.merge parentPair leftChild.aug_val rightChild.aug_val
      let newKeys := leftChild.keys.take (MIN_DEGREE - 1) ++
        parentPair :: rightChild.keys.take (MIN_DEGREE - 1)
      let newChildren :=
        if leftChild.children.isEmpty then leftChild.children
        else leftChild.children ++ rightChild.children
      ⟨ks', cs'.set idx ⟨newKeys, newChildren, mergedAug⟩, a⟩
    else ⟨ks, cs, a⟩

/-- `Node::make_space` (restore `children[idx].n ≥ t` by a steal or a merge;
returns the possibly decremented descent index together with the node). -/
def Node.make_space (au : Aug K V β γ) (idx : Nat) : Node K V β → Nat × Node K V β
  | ⟨ks, cs, a⟩ =>
    if 0 < idx ∧ ¬(cs.getD (idx - 1) default).is_min then
      -- steal a key from the left sibling (through the parent)
      let thief := cs.getD idx default
      let victim := cs.getD (idx - 1) default
      let parentPair := ks.getD (idx - 1) default
      let rp := victim.remove_pair (victim.keys.length - 1)
      let sibPair := rp.1
      let victim1 := rp.2
      let stolenPop : Option (Node K V β) × Node K V β :=
        if victim1.children.isEmpty then (none, victim1)
        else (some (victim1.children.getD (victim1.children.length - 1) default),
          ⟨victim1.keys, victim1.children.dropLast, victim1.aug_val⟩)
      let stolenChild := stolenPop.1
      let victim2 := stolenPop.2
      let augPair := au.steal parentPair sibPair (stolenChild.map Node.aug_val)
        thief.aug_val victim.aug_val
      let thief1 := Node.mk thief.keys thief.children augPair.1
      let victim3 := Node.mk victim2.keys victim2.children augPair.2
      let thief2 := thief1.insert_pair 0 parentPair
      let thief3 :=
        match stolenChild with
        | some c => Node.mk thief2.keys (c :: thief2.children) thief2.aug_val
        | none => thief2
      (idx, ⟨ks.set (idx - 1) sibPair, (cs.set (idx - 1) victim3).set idx thief3, a⟩)
    else if idx < ks.length ∧ ¬(cs.getD (idx + 1) default).is_min then
      -- steal a key from the right sibling (through the parent)
      let thief := cs.getD idx default
      let victim := cs.getD (idx + 1) default
      let parentPair := ks.getD idx default
      let rp := victim.remove_pair 0
      let sibPair := rp.1
      let victim1 := rp.2
      let stolenPop : Option (Node K V β) × Node K V β :=
        if victim1.children.isEmpty then (none, victim1)
        else (some (victim1.children.getD 0 default),
          ⟨victim1.keys, victim1.children.drop 1, victim1.aug_val⟩)
      let stolenChild := stolenPop.1
      let victim2 := stolenPop.2
      let augPair := au.steal parentPair sibPair (stolenChild.map Node.aug_val)
        thief.aug_val victim.aug_val
      let thief1 := Node.mk thief.keys thief.children augPair.1
      let victim3 := Node.mk victim2.keys victim2.children augPair.2
      let thief2 := thief1.insert_pair thief1.keys.length parentPair
      let thief3 :=
        match stolenChild with
        | some c => Node.mk thief2.keys (thief2.children ++ [c]) thief2.aug_val
        | none => thief2
      (idx, ⟨ks.set idx sibPair, (cs.set (idx + 1) victim3).set idx thief3, a⟩)
    else if 0 < idx then
      -- merge with the left sibling
      (idx - 1, Node.merge_children au (idx - 1) ⟨ks, cs, a⟩)
    else
      -- merge with the right sibling
      (idx, Node.merge_children au idx ⟨ks, cs, a⟩)

/-! ### Projection lemmas for the node primitives -/

@[simp]
theorem Node.default_keys : (default : Node K V β).keys = [] := rfl

@[simp]
theorem Node.default_children : (default : Node K V β).children = [] := rfl

@[simp]
theorem Node.remove_pair_fst (i : Nat) (nd : Node K V β) :
    (nd.remove_pair i).1 = nd.keys.getD i default := by
  cases nd
  rfl

@[simp]
theorem Node.remove_pair_keys (i : Nat) (nd : Node K V β) :
    (nd.remove_pair i).2.keys = nd.keys.eraseIdx i := by
  cases nd
  rfl

@[simp]
theorem Node.remove_pair_children (i : Nat) (nd : Node K V β) :
    (nd.remove_pair i).2.children = nd.children := by
  cases nd
  rfl

@[simp]
theorem Node.remove_pair_aug (i : Nat) (nd : Node K V β) :
    (nd.remove_pair i).2.aug_val = nd.aug_val := by
  cases nd
  rfl

@[simp]
theorem Node.insert_pair_keys (i : Nat) (p : K × V) (nd : Node K V β) :
    (nd.insert_pair i p).keys = nd.keys.insertIdx i p := by
  cases nd
  rfl

@[simp]
theorem Node.insert_pair_children (i : Nat) (p : K × V) (nd : Node K V β) :
    (nd.insert_pair i p).children = nd.children := by
  cases nd
  rfl

@[simp]
theorem Node.insert_pair_aug (i : Nat) (p : K × V) (nd : Node K V β) :
    (nd.insert_pair i p).aug_val = nd.aug_val := by
  cases nd
  rfl

@[simp]
theorem Node.mk_keys_children_aug (nd : Node K V β) :
    Node.mk nd.keys nd.children nd.aug_val = nd := by
  cases nd
  rfl

theorem Node.is_min_iff_not (nd : Node K V β) :
    ¬nd.is_min = true ↔ MIN_DEGREE ≤ nd.keys.length := by
  simp [Node.is_min]

theorem Node.is_leaf_iff (nd : Node K V β) :
    nd.is_leaf = true ↔ nd.children = [] := by
  simp [Node.is_leaf]

theorem Node.is_full_iff (nd : Node K V β) :
    nd.is_full = true ↔ nd.keys.length = 2 * MIN_DEGREE - 1 := by
  simp [Node.is_full]

/-! ### Size bookkeeping for the termination measure -/

omit [Inhabited K] [Inhabited V] in
theorem nsizeL_take_le (cs : List (Node K V β)) (n : Nat) :
    nsizeL (cs.take n) ≤ nsizeL cs := by
  induction cs generalizing n with
  | nil => simp
  | cons c cs ih =>
    cases n with
    | zero => simp
    | succ m =>
      rw [List.take_succ_cons, nsizeL_cons, nsizeL_cons]
      have := ih m
      omega

omit [Inhabited K] [Inhabited V] in
theorem nsizeL_drop_le (cs : List (Node K V β)) (n : Nat) :
    nsizeL (cs.drop n) ≤ nsizeL cs := by
  induction cs generalizing n with
  | nil => simp
  | cons c cs ih =>
    cases n with
    | zero => simp
    | succ m =>
      rw [List.drop_succ_cons, nsizeL_cons]
      have := ih m
      omega

omit [Inhabited K] [Inhabited V] in
theorem nsizeL_default_nsize : (default : Node K V β).nsize = 1 := by
  show (Node.mk [] [] default : Node K V β).nsize = 1
  simp

omit [Inhabited K] [Inhabited V] in
theorem nsizeL_getD_le (cs : List (Node K V β)) (j : Nat) :
    (cs.getD j default).nsize ≤ max 1 (nsizeL cs) := by
  by_cases h : j < cs.length
  · rw [List.getD_eq_getElem _ _ h]
    have := nsize_mem_le (List.getElem_mem h)
    omega
  · rw [List.getD_eq_default _ _ (by omega)]
    rw [nsizeL_default_nsize]
    omega

omit [Inhabited K] [Inhabited V] in
theorem nsize_getD_lt {cs : List (Node K V β)} {B : Nat}
    (h1 : nsizeL cs < B) (h2 : 2 ≤ B) (j : Nat) :
    (cs.getD j default).nsize < B := by
  have := nsizeL_getD_le cs j
  omega

omit [Inhabited K] [Inhabited V] in
theorem nsizeL_pos_of_ne_nil {cs : List (Node K V β)} (h : cs ≠ []) :
    1 ≤ nsizeL cs := by
  cases cs with
  | nil => exact absurd rfl h
  | cons c cs =>
    rw [nsizeL_cons]
    have := c.nsize_pos
    omega

omit [Inhabited K] [Inhabited V] in
theorem two_le_nsize_of_children {ks : List (K × V)} {cs : List (Node K V β)} {a : β}
    (h : cs ≠ []) : 2 ≤ (Node.mk ks cs a).nsize := by
  have := nsizeL_pos_of_ne_nil h
  simp
  omega

omit [Inhabited K] [Inhabited V] in
omit [Inhabited K] [Inhabited V] in
theorem nsizeL_children_lt_nsize {ks : List (K × V)} {cs : List (Node K V β)} {a : β} :
    nsizeL cs < (Node.mk ks cs a).nsize := by
  have h := Node.nsize_mk ks cs a
  omega

theorem mem_insertIdx_cases {x b : Node K V β} {l : List (Node K V β)} {n : Nat}
    (h : x ∈ l.insertIdx n b) : x = b ∨ x ∈ l := by
  induction l generalizing n with
  | nil =>
    cases n with
    | zero => rw [List.insertIdx_zero] at h; simpa using h
    | succ m => rw [List.insertIdx_succ_nil] at h; simp at h
  | cons c cs ih =>
    cases n with
    | zero =>
      rw [List.insertIdx_zero] at h
      rcases List.mem_cons.1 h with h' | h'
      · exact Or.inl h'
      · exact Or.inr h'
    | succ m =>
      rw [List.insertIdx_succ_cons] at h
      rcases List.mem_cons.1 h with h' | h'
      · exact Or.inr (by simp [h'])
      · rcases ih h' with h'' | h''
        · exact Or.inl h''
        · exact Or.inr (by simp [h''])

theorem nsize_split_left_le (au : Aug K V β γ) (c : Node K V β) :
    (c.split au).2.1.nsize ≤ c.nsize := by
  cases c with
  | mk ks cs a =>
    have h1 : (ks.take (MIN_DEGREE - 1)).length ≤ ks.length := by
      simp
    have h2 : nsizeL (cs.take MIN_DEGREE) ≤ nsizeL cs := nsizeL_take_le cs _
    by_cases hcs : cs.isEmpty
    all_goals simp [Node.split, hcs]
    all_goals omega

theorem nsize_split_right_le (au : Aug K V β γ) (c : Node K V β) :
    (c.split au).2.2.nsize ≤ c.nsize := by
  cases c with
  | mk ks cs a =>
    have h1 : (ks.drop MIN_DEGREE).length ≤ ks.length := by
      simp
    have h2 : nsizeL (cs.drop MIN_DEGREE) ≤ nsizeL cs := nsizeL_drop_le cs _
    by_cases hcs : cs.isEmpty
    all_goals simp [Node.split, hcs]
    all_goals omega

theorem nsize_split_child_getD_lt (au : Aug K V β γ) (i j : Nat)
    {ks : List (K × V)} {cs : List (Node K V β)} {a : β} (h : cs ≠ []) :
    ((Node.split_child au i ⟨ks, cs, a⟩).children.getD j default).nsize
      < (Node.mk ks cs a).nsize := by
  have hB : 2 ≤ (Node.mk ks cs a).nsize := two_le_nsize_of_children h
  have hcslt : nsizeL cs < (Node.mk ks cs a).nsize := nsizeL_children_lt_nsize
  have hc : (cs.getD i default).nsize < (Node.mk ks cs a).nsize :=
    nsize_getD_lt hcslt hB i
  have hch : (Node.split_child au i ⟨ks, cs, a⟩).children
      = (cs.set i ((cs.getD i default).split au).2.1).insertIdx (i + 1)
        ((cs.getD i default).split au).2.2 := by
    simp [Node.split_child, Node.insert_pair, Node.insert_child]
  rw [hch]
  set l := ((cs.getD i default).split au).2.1 with hl
  set r := ((cs.getD i default).split au).2.2 with hr
  by_cases hj : j < ((cs.set i l).insertIdx (i + 1) r).length
  · rw [List.getD_eq_getElem _ _ hj]
    have hmem : ((cs.set i l).insertIdx (i + 1) r)[j] ∈ (cs.set i l).insertIdx (i + 1) r :=
      List.getElem_mem hj
    rcases mem_insertIdx_cases hmem with hx | hx
    · rw [hx]
      calc r.nsize ≤ (cs.getD i default).nsize := nsize_split_right_le au _
        _ < _ := hc
    · rcases List.mem_or_eq_of_mem_set hx with hx' | hx'
      · have := nsize_mem_le hx'
        omega
      · rw [hx']
        calc l.nsize ≤ (cs.getD i default).nsize := nsize_split_left_le au _
          _ < _ := hc
  · rw [List.getD_eq_default _ _ (by omega), nsizeL_default_nsize]
    omega

omit [Inhabited K] [Inhabited V] in
theorem nsizeL_eraseIdx_add {cs : List (Node K V β)} {i : Nat} (h : i < cs.length) :
    nsizeL (cs.eraseIdx i) + (cs.getD i default).nsize = nsizeL cs := by
  induction cs generalizing i with
  | nil => simp at h
  | cons c cs ih =>
    cases i with
    | zero => simp [nsizeL_cons]; omega
    | succ m =>
      simp only [List.eraseIdx_cons_succ, List.getD_cons_succ, nsizeL_cons]
      have := ih (by simpa using Nat.lt_of_succ_lt_succ (by simpa using h))
      omega

omit [Inhabited K] [Inhabited V] in
theorem nsizeL_set_add {cs : List (Node K V β)} {i : Nat} (x : Node K V β)
    (h : i < cs.length) :
    nsizeL (cs.set i x) + (cs.getD i default).nsize = nsizeL cs + x.nsize := by
  induction cs generalizing i with
  | nil => simp at h
  | cons c cs ih =>
    cases i with
    | zero => simp [nsizeL_cons]; omega
    | succ m =>
      simp only [List.set_cons_succ, List.getD_cons_succ, nsizeL_cons]
      have := ih (by simpa using Nat.lt_of_succ_lt_succ (by simpa using h))
      omega

omit [Inhabited K] [Inhabited V] in
theorem nsizeL_dropLast_add {cs : List (Node K V β)} (h : cs ≠ []) :
    nsizeL cs.dropLast + (cs.getD (cs.length - 1) default).nsize = nsizeL cs := by
  have hlen : 0 < cs.length := List.length_pos.2 h
  rw [List.dropLast_eq_eraseIdx (i := cs.length - 1) (by omega)]
  exact nsizeL_eraseIdx_add (by omega)

omit [Inhabited K] [Inhabited V] in
theorem nsizeL_drop_one_add {cs : List (Node K V β)} (h : cs ≠ []) :
    nsizeL (cs.drop 1) + (cs.getD 0 default).nsize = nsizeL cs := by
  cases cs with
  | nil => exact absurd rfl h
  | cons c cs => simp [nsizeL_cons]; omega

theorem getD_set_ne {α : Type _} {l : List α} {i j : Nat} (d x : α) (h : i ≠ j) :
    (l.set i x).getD j d = l.getD j d := by
  rw [List.getD_eq_getElem?_getD, List.getD_eq_getElem?_getD, List.getElem?_set_ne h]

omit [Inhabited K] [Inhabited V] in
theorem Node.nsize_eq (nd : Node K V β) :
    nd.nsize = 1 + nd.keys.length + nsizeL nd.children := by
  cases nd with
  | mk ks cs a => simp

theorem nsize_merge_helper {ks : List (K × V)} {cs : List (Node K V β)} {a : β} {idx : Nat}
    (M : Node K V β) (hcs : idx + 1 < cs.length) (hks : idx < ks.length)
    (hM : M.nsize ≤ (cs.getD idx default).nsize + (cs.getD (idx + 1) default).nsize) :
    (Node.mk (ks.eraseIdx idx) ((cs.eraseIdx (idx + 1)).set idx M) a).nsize
      ≤ (Node.mk ks cs a).nsize := by
  have herase : nsizeL (cs.eraseIdx (idx + 1)) + (cs.getD (idx + 1) default).nsize
      = nsizeL cs := nsizeL_eraseIdx_add hcs
  have hgetd : (cs.eraseIdx (idx + 1)).getD idx default = cs.getD idx default := by
    rw [List.getD_eq_getElem?_getD, List.getElem?_eraseIdx_of_lt _ _ _ (by omega),
      ← List.getD_eq_getElem?_getD]
  have hlen' : idx < (cs.eraseIdx (idx + 1)).length := by
    simp [List.length_eraseIdx, hcs]
    omega
  have hset := nsizeL_set_add M hlen'
  rw [hgetd] at hset
  have hkeyslen : (ks.eraseIdx idx).length = ks.length - 1 := by
    simp [List.length_eraseIdx, hks]
  simp only [Node.nsize_mk]
  omega

theorem nsize_merge_children_le (au : Aug K V β γ) (idx : Nat) (nd : Node K V β) :
    (nd.merge_children au idx).nsize ≤ nd.nsize := by
  cases nd with
  | mk ks cs a =>
    rw [Node.merge_children]
    split
    case isFalse => exact le_refl _
    case isTrue hg =>
      obtain ⟨hcs, hks⟩ := hg
      refine nsize_merge_helper _ hcs hks ?_
      set L := cs.getD idx default with hL
      set R := cs.getD (idx + 1) default with hR
      rw [Node.nsize_eq L, Node.nsize_eq R]
      simp only [Node.nsize_mk, List.length_append, List.length_cons, List.length_nil]
      have h1 : (L.keys.take (MIN_DEGREE - 1)).length ≤ L.keys.length := by simp
      have h2 : (R.keys.take (MIN_DEGREE - 1)).length ≤ R.keys.length := by simp
      have h3 : nsizeL (if L.children.isEmpty then L.children
          else L.children ++ R.children) ≤ nsizeL L.children + nsizeL R.children := by
        by_cases hempty : L.children.isEmpty
        · simp only [hempty, if_pos]
          omega
        · simp only [hempty, Bool.false_eq_true, if_neg, not_false_iff, nsizeL_append]
          omega
      omega

omit [Inhabited K] [Inhabited V] in
theorem nsize_double_set_helper {cs : List (Node K V β)} (p q : Nat) (X Y : Node K V β)
    (hpq : p ≠ q) (hp : p < cs.length)
    (F1 : X.nsize + Y.nsize ≤ (cs.getD p default).nsize + (cs.getD q default).nsize)
    (F2 : X.nsize ≤ (cs.getD p default).nsize) :
    nsizeL ((cs.set p X).set q Y) ≤ nsizeL cs := by
  by_cases hq : q < cs.length
  · have h1 := nsizeL_set_add X hp
    have hq' : q < (cs.set p X).length := by simpa using hq
    have h2 := nsizeL_set_add Y hq'
    rw [getD_set_ne _ _ hpq] at h2
    omega
  · rw [List.set_eq_of_length_le (l := cs.set p X) (by simp; omega)]
    have h1 := nsizeL_set_add X hp
    omega

theorem nsize_make_space_le (au : Aug K V β γ) (idx : Nat) (nd : Node K V β) :
    (nd.make_space au idx).2.nsize ≤ nd.nsize := by
  cases nd with
  | mk ks cs a =>
    rw [Node.make_space]
    split_ifs with h1 h2
    · -- steal from the left sibling
      obtain ⟨hpos, hmin⟩ := h1
      have hMD : MIN_DEGREE = 6 := rfl
      set Vi := cs.getD (idx - 1) default with hVi
      set Ti := cs.getD idx default with hTi
      have hvlen : MIN_DEGREE ≤ Vi.keys.length := (Node.is_min_iff_not Vi).1 hmin
      have hvin : idx - 1 < cs.length := by
        by_contra hcon
        rw [hVi, List.getD_eq_default _ _ (by omega)] at hvlen
        simp [MIN_DEGREE] at hvlen
      have herase : (Vi.keys.eraseIdx (Vi.keys.length - 1)).length = Vi.keys.length - 1 := by
        rw [List.length_eraseIdx, if_pos (show Vi.keys.length - 1 < Vi.keys.length by omega)]
      have hlen2 : ∀ p : K × V, (Ti.keys.insertIdx 0 p).length = Ti.keys.length + 1 := by
        intro p
        simp [List.length_insertIdx]
      simp only [Node.remove_pair_children, Node.remove_pair_keys, Node.remove_pair_fst,
        Node.remove_pair_aug, Node.insert_pair_keys, Node.insert_pair_children,
        Node.insert_pair_aug, Node.keys_mk, Node.children_mk, Node.aug_val_mk,
        Node.nsize_mk, List.length_set]
      have hsuff : ∀ X Y : Node K V β,
          X.nsize + Y.nsize ≤ Vi.nsize + Ti.nsize → X.nsize ≤ Vi.nsize →
          1 + ks.length + nsizeL ((cs.set (idx - 1) X).set idx Y)
            ≤ 1 + ks.length + nsizeL cs := by
        intro X Y f1 f2
        have := nsize_double_set_helper (idx - 1) idx X Y (by omega) hvin
          (by rw [← hVi, ← hTi]; omega) (by rw [← hVi]; omega)
        omega
      refine hsuff _ _ ?_ ?_
      · by_cases hvc : Vi.children.isEmpty
        · simp only [hvc, if_pos, Option.map_none', Node.insert_pair, Node.remove_pair_keys,
            Node.remove_pair_children, Node.remove_pair_aug, Node.remove_pair_fst,
            Node.keys_mk, Node.children_mk, Node.aug_val_mk, Node.nsize_mk]
          rw [Node.nsize_eq Vi, Node.nsize_eq Ti]
          rw [hlen2]
          omega
        · have hvcne : Vi.children ≠ [] := by simpa [List.isEmpty_iff] using hvc
          have hdrop := nsizeL_dropLast_add hvcne
          simp only [hvc, Bool.false_eq_true, if_neg, not_false_iff, Option.map_some',
            Node.insert_pair, Node.remove_pair_keys, Node.remove_pair_children,
            Node.remove_pair_aug, Node.remove_pair_fst,
            Node.keys_mk, Node.children_mk, Node.aug_val_mk,
            Node.nsize_mk, nsizeL_cons]
          rw [Node.nsize_eq Vi, Node.nsize_eq Ti]
          rw [hlen2]
          omega
      · by_cases hvc : Vi.children.isEmpty
        · simp only [hvc, if_pos, Option.map_none', Node.insert_pair, Node.remove_pair_keys,
            Node.remove_pair_children, Node.remove_pair_aug, Node.remove_pair_fst,
            Node.keys_mk, Node.children_mk, Node.aug_val_mk, Node.nsize_mk]
          rw [Node.nsize_eq Vi]
          omega
        · have hvcne : Vi.children ≠ [] := by simpa [List.isEmpty_iff] using hvc
          have hdrop := nsizeL_dropLast_add hvcne
          simp only [hvc, Bool.false_eq_true, if_neg, not_false_iff, Option.map_some',
            Node.insert_pair, Node.remove_pair_keys, Node.remove_pair_children,
            Node.remove_pair_aug, Node.remove_pair_fst,
            Node.keys_mk, Node.children_mk, Node.aug_val_mk,
            Node.nsize_mk]
          rw [Node.nsize_eq Vi]
          omega
    · -- steal from the right sibling
      obtain ⟨hlt, hmin⟩ := h2
      have hMD : MIN_DEGREE = 6 := rfl
      set Vi := cs.getD (idx + 1) default with hVi
      set Ti := cs.getD idx default with hTi
      have hvlen : MIN_DEGREE ≤ Vi.keys.length := (Node.is_min_iff_not Vi).1 hmin
      have hvin : idx + 1 < cs.length := by
        by_contra hcon
        rw [hVi, List.getD_eq_default _ _ (by omega)] at hvlen
        simp [MIN_DEGREE] at hvlen
      have herase : (Vi.keys.eraseIdx 0).length = Vi.keys.length - 1 := by
        rw [List.length_eraseIdx, if_pos (show 0 < Vi.keys.length by omega)]
      have hlen2 : ∀ p : K × V, (Ti.keys.insertIdx Ti.keys.length p).length
          = Ti.keys.length + 1 := by
        intro p
        simp [List.length_insertIdx]
      simp only [Node.remove_pair_children, Node.remove_pair_keys, Node.remove_pair_fst,
        Node.remove_pair_aug, Node.insert_pair_keys, Node.insert_pair_children,
        Node.insert_pair_aug, Node.keys_mk, Node.children_mk, Node.aug_val_mk,
        Node.nsize_mk, List.length_set]
      have hsuff : ∀ X Y : Node K V β,
          X.nsize + Y.nsize ≤ Vi.nsize + Ti.nsize → X.nsize ≤ Vi.nsize →
          1 + ks.length + nsizeL ((cs.set (idx + 1) X).set idx Y)
            ≤ 1 + ks.length + nsizeL cs := by
        intro X Y f1 f2
        have := nsize_double_set_helper (idx + 1) idx X Y (by omega) hvin
          (by rw [← hVi, ← hTi]; omega) (by rw [← hVi]; omega)
        omega
      refine hsuff _ _ ?_ ?_
      · by_cases hvc : Vi.children.isEmpty
        · simp only [hvc, if_pos, Option.map_none', Node.insert_pair, Node.remove_pair_keys,
            Node.remove_pair_children, Node.remove_pair_aug, Node.remove_pair_fst,
            Node.keys_mk, Node.children_mk, Node.aug_val_mk, Node.nsize_mk]
          rw [Node.nsize_eq Vi, Node.nsize_eq Ti]
          rw [hlen2]
          omega
        · have hvcne : Vi.children ≠ [] := by simpa [List.isEmpty_iff] using hvc
          have hdrop := nsizeL_drop_one_add hvcne
          simp only [hvc, Bool.false_eq_true, if_neg, not_false_iff, Option.map_some',
            Node.insert_pair, Node.remove_pair_keys, Node.remove_pair_children,
            Node.remove_pair_aug, Node.remove_pair_fst,
            Node.keys_mk, Node.children_mk, Node.aug_val_mk,
            Node.nsize_mk, nsizeL_append, nsizeL_cons, nsizeL_nil]
          rw [Node.nsize_eq Vi, Node.nsize_eq Ti]
          rw [hlen2]
          omega
      · by_cases hvc : Vi.children.isEmpty
        · simp only [hvc, if_pos, Option.map_none', Node.insert_pair, Node.remove_pair_keys,
            Node.remove_pair_children, Node.remove_pair_aug, Node.remove_pair_fst,
            Node.keys_mk, Node.children_mk, Node.aug_val_mk, Node.nsize_mk]
          rw [Node.nsize_eq Vi]
          omega
        · have hvcne : Vi.children ≠ [] := by simpa [List.isEmpty_iff] using hvc
          have hdrop := nsizeL_drop_one_add hvcne
          simp only [hvc, Bool.false_eq_true, if_neg, not_false_iff, Option.map_some',
            Node.insert_pair, Node.remove_pair_keys, Node.remove_pair_children,
            Node.remove_pair_aug, Node.remove_pair_fst,
            Node.keys_mk, Node.children_mk, Node.aug_val_mk,
            Node.nsize_mk]
          rw [Node.nsize_eq Vi]
          omega
    · -- merge with the left sibling
      simpa using nsize_merge_children_le au (idx - 1) (Node.mk ks cs a)
    · -- merge with the right sibling
      simpa using nsize_merge_children_le au idx (Node.mk ks cs a)

theorem nsizeL_children_lt (nd : Node K V β) : nsizeL nd.children < nd.nsize := by
  cases nd with
  | mk ks cs a => exact nsizeL_children_lt_nsize

/-! ### The recursive operations -/

variable [LinearOrder K]

/-- Models `slice::binary_search_by_key` on the live key prefix through its
contract: `.ok i` when `keys[i].1 = key` (first `i` keys strictly smaller),
`.error i` when `i` is the insertion point.  On the sorted slices the code
maintains, this is exactly the behaviour of the std binary search. -/
def keyIdx (key : K) : List (K × V) → Except Nat Nat
  | [] => .error 0
  | p :: ps =>
    if p.1 = key then .ok 0
    else if key < p.1 then .error 0
    else
      match keyIdx key ps with
      | .ok i => .ok (i + 1)
      | .error i => .error (i + 1)

/-- `Node::find_key_idx`. -/
def Node.find_key_idx (nd : Node K V β) (key : K) : Except Nat Nat :=
  keyIdx key nd.keys


/-- `Node::insert_non_full`.  Returns the updated node and `true` when the
pair was inserted (`Ok(())` in Rust), `false` on a duplicate (the `Err`
carrying the pair back up). -/
def Node.insert_non_full (au : Aug K V β γ) (k : K) (v : V) :
    Node K V β → Node K V β × Bool
  | ⟨ks, cs, a⟩ =>
    match keyIdx k ks with
    | .ok _ => (⟨ks, cs, a⟩, false)
    | .error i =>
      if hleaf : cs.isEmpty then
        (⟨ks.insertIdx i (k, v), cs, au.inserted_sub_tree k v a⟩, true)
      else if (cs.getD i default).is_full then
        let nd1 := Node.split_child au i ⟨ks, cs, a⟩
        let splitKey := (nd1.keys.getD i default).1
        if k = splitKey then (nd1, false)
        else
          let i1 := if splitKey < k then i + 1 else i
          let aug1 := au.inserted_sub_tree k v nd1.aug_val
          let res := (nd1.children.getD i1 default).insert_non_full au k v
          if res.2 then (⟨nd1.keys, nd1.children.set i1 res.1, aug1⟩, true)
          else (⟨nd1.keys, nd1.children.set i1 res.1, au.deleted_sub_tree k v aug1⟩, false)
      else
        let aug1 := au.inserted_sub_tree k v a
        let res := (cs.getD i default).insert_non_full au k v
        if res.2 then (⟨ks, cs.set i res.1, aug1⟩, true)
        else (⟨ks, cs.set i res.1, au.deleted_sub_tree k v aug1⟩, false)
termination_by nd => nd.nsize
decreasing_by
  · exact nsize_split_child_getD_lt au i _ (by simpa [List.isEmpty_iff] using hleaf)
  · refine nsize_getD_lt ?_ ?_ i
    · exact nsizeL_children_lt_nsize
    · exact two_le_nsize_of_children (by simpa [List.isEmpty_iff] using hleaf)

/-- `Node::search` (returns the hit value, if any, together with the folded
augmentation accumulator). -/
def Node.search (au : Aug K V β γ) (key : K) (acc : γ) : Node K V β → Option V × γ
  | ⟨ks, cs, a⟩ =>
    let fi : Bool × Nat :=
      match keyIdx key ks with
      | .ok i => (true, i)
      | .error i => (false, i)
    let acc1 := au.visit fi.1 fi.2 ks (cs.map Node.aug_val) a acc
    if fi.1 then (some (ks.getD fi.2 default).2, acc1)
    else if hleaf : cs.isEmpty then (none, acc1)
    else (cs.getD fi.2 default).search au key acc1
termination_by nd => nd.nsize
decreasing_by
  refine nsize_getD_lt ?_ ?_ _
  · exact nsizeL_children_lt_nsize
  · exact two_le_nsize_of_children (by simpa [List.isEmpty_iff] using hleaf)

/-- `Node::delete_max`. -/
def Node.delete_max (au : Aug K V β γ) : Node K V β → (K × V) × Node K V β
  | ⟨ks, cs, a⟩ =>
    if hleaf : cs.isEmpty then
      let rp := Node.remove_pair (ks.length - 1) ⟨ks, cs, a⟩
      (rp.1, ⟨rp.2.keys, rp.2.children, au.deleted_sub_tree rp.1.1 rp.1.2 a⟩)
    else
      let st :=
        if (cs.getD ks.length default).is_min then
          (Node.make_space au ks.length ⟨ks, cs, a⟩).2
        else ⟨ks, cs, a⟩
      let res := (st.children.getD st.keys.length default).delete_max au
      (res.1, ⟨st.keys, st.children.set st.keys.length res.2,
        au.deleted_sub_tree res.1.1 res.1.2 st.aug_val⟩)
termination_by nd => nd.nsize
decreasing_by
  refine nsize_getD_lt ?_
    (two_le_nsize_of_children (by simpa [List.isEmpty_iff] using hleaf)) _
  split
  · exact lt_of_lt_of_le (nsizeL_children_lt _) (nsize_make_space_le au ks.length _)
  · exact nsizeL_children_lt _

/-- `Node::delete_min`. -/
def Node.delete_min (au : Aug K V β γ) : Node K V β → (K × V) × Node K V β
  | ⟨ks, cs, a⟩ =>
    if hleaf : cs.isEmpty then
      let rp := Node.remove_pair 0 ⟨ks, cs, a⟩
      (rp.1, ⟨rp.2.keys, rp.2.children, au.deleted_sub_tree rp.1.1 rp.1.2 a⟩)
    else
      let st :=
        if (cs.getD 0 default).is_min then
          (Node.make_space au 0 ⟨ks, cs, a⟩).2
        else ⟨ks, cs, a⟩
      let res := (st.children.getD 0 default).delete_min au
      (res.1, ⟨st.keys, st.children.set 0 res.2,
        au.deleted_sub_tree res.1.1 res.1.2 st.aug_val⟩)
termination_by nd => nd.nsize
decreasing_by
  refine nsize_getD_lt ?_
    (two_le_nsize_of_children (by simpa [List.isEmpty_iff] using hleaf)) _
  split
  · exact lt_of_lt_of_le (nsizeL_children_lt _) (nsize_make_space_le au 0 _)
  · exact nsizeL_children_lt _

/-- `Node::delete_own` (the key to delete sits at `keys[idx]` of this node). -/
def Node.delete_own (au : Aug K V β γ) (key : K) (idx : Nat) :
    Node K V β → V × Node K V β
  | ⟨ks, cs, a⟩ =>
    if hleaf : cs.isEmpty then
      let rp := Node.remove_pair idx ⟨ks, cs, a⟩
      (rp.1.2, ⟨rp.2.keys, rp.2.children, au.deleted_sub_tree key rp.1.2 a⟩)
    else if ¬(cs.getD idx default).is_min then
      let dm := (cs.getD idx default).delete_max au
      ((ks.getD idx default).2,
        ⟨ks.set idx dm.1, cs.set idx dm.2,
          au.deleted_sub_tree key (ks.getD idx default).2 a⟩)
    else if ¬(cs.getD (idx + 1) default).is_min then
      let dm := (cs.getD (idx + 1) default).delete_min au
      ((ks.getD idx default).2,
        ⟨ks.set idx dm.1, cs.set (idx + 1) dm.2,
          au.deleted_sub_tree key (ks.getD idx default).2 a⟩)
    else
      let m := Node.merge_children au idx ⟨ks, cs, a⟩
      let r := (m.children.getD idx default).delete_own au key (MIN_DEGREE - 1)
      (r.1, ⟨m.keys, m.children.set idx r.2, au.deleted_sub_tree key r.1 m.aug_val⟩)
termination_by nd => nd.nsize
decreasing_by
  refine nsize_getD_lt ?_
    (two_le_nsize_of_children (by simpa [List.isEmpty_iff] using hleaf)) _
  exact lt_of_lt_of_le (nsizeL_children_lt _) (nsize_merge_children_le au idx _)

/-- `Node::delete` (the body of `Node::delete_in_decendant` is inlined in
the `.error` arm so that the recursion is visibly on a smaller subtree;
`Node.delete_in_decendant` below is the same code factored out). -/
def Node.delete (au : Aug K V β γ) (key : K) : Node K V β → Option V × Node K V β
  | ⟨ks, cs, a⟩ =>
    match keyIdx key ks with
    | .ok idx =>
      let r := Node.delete_own au key idx ⟨ks, cs, a⟩
      (some r.1, r.2)
    | .error idx =>
      if hleaf : cs.isEmpty then (none, ⟨ks, cs, a⟩)
      else
        let st :=
          if (cs.getD idx default).is_min then Node.make_space au idx ⟨ks, cs, a⟩
          else (idx, ⟨ks, cs, a⟩)
        let res := (st.2.children.getD st.1 default).delete au key
        match res.1 with
        | some v =>
          (some v, ⟨st.2.keys, st.2.children.set st.1 res.2,
            au.deleted_sub_tree key v st.2.aug_val⟩)
        | none => (none, ⟨st.2.keys, st.2.children.set st.1 res.2, st.2.aug_val⟩)
termination_by nd => nd.nsize
decreasing_by
  refine nsize_getD_lt ?_
    (two_le_nsize_of_children (by simpa [List.isEmpty_iff] using hleaf)) _
  split
  · exact lt_of_lt_of_le (nsizeL_children_lt _) (nsize_make_space_le au idx _)
  · exact nsizeL_children_lt _

/-- `Node::delete_in_decendant`; `Node.delete` inlines exactly this body in
its `.error` arm. -/
def Node.delete_in_decendant (au : Aug K V β γ) (idx : Nat) (key : K) :
    Node K V β → Option V × Node K V β
  | ⟨ks, cs, a⟩ =>
    if cs.isEmpty then (none, ⟨ks, cs, a⟩)
    else
      let st :=
        if (cs.getD idx default).is_min then Node.make_space au idx ⟨ks, cs, a⟩
        else (idx, ⟨ks, cs, a⟩)
      let res := (st.2.children.getD st.1 default).delete au key
      match res.1 with
      | some v =>
        (some v, ⟨st.2.keys, st.2.children.set st.1 res.2,
          au.deleted_sub_tree key v st.2.aug_val⟩)
      | none => (none, ⟨st.2.keys, st.2.children.set st.1 res.2, st.2.aug_val⟩)

/-! ### The tree facade -/

/-- `pub struct BTree<K, V, A>`. -/
structure BTree (K V β : Type) where
  root : Node K V β

/-- `BTree::new`, `BTree::with_augment` and `Default::default` all build the
tree whose root is `Node::new_root()`. -/
def BTree.new (au : Aug K V β γ) : BTree K V β := ⟨Node.new_root au⟩

/-- `BTree::insert` (preemptive root split, then `insert_non_full`). -/
def BTree.insert (au : Aug K V β γ) (k : K) (v : V) (t : BTree K V β) :
    BTree K V β × Bool :=
  let t1 : BTree K V β :=
    if t.root.is_full then
      let sp := t.root.split au
      ⟨⟨[sp.1], [sp.2.1, sp.2.2], au.split_root sp.1 sp.2.1.aug_val sp.2.2.aug_val⟩⟩
    else t
  let r := t1.root.insert_non_full au k v
  (⟨r.1⟩, r.2)

/-- `BTree::delete` (delete at the root, then shrink a childless-except-one
root). -/
def BTree.delete (au : Aug K V β γ) (key : K) (t : BTree K V β) :
    BTree K V β × Option V :=
  let r := t.root.delete au key
  if r.2.children.length = 1 then (⟨r.2.children.getD 0 default⟩, r.1)
  else (⟨r.2⟩, r.1)

/-- `BTree::search`. -/
def BTree.search (au : Aug K V β γ) (key : K) (t : BTree K V β) : Option V :=
  (t.root.search au key au.initial_output).1

/-- `BTree::augment_search`. -/
def BTree.augment_search (au : Aug K V β γ) (key : K) (t : BTree K V β) : γ :=
  (t.root.search au key au.initial_output).2

/-- One public mutating operation of the tree. -/
inductive Op (K V : Type) : Type where
  | ins (k : K) (v : V)
  | del (k : K)

/-- Apply one operation, discarding the returned flag/value. -/
def BTree.applyOp (au : Aug K V β γ) (t : BTree K V β) : Op K V → BTree K V β
  | .ins k v => (t.insert au k v).1
  | .del k => (t.delete au k).1

/-- The tree reached from the empty tree by a sequence of operations. -/
def runOps (au : Aug K V β γ) (ops : List (Op K V)) : BTree K V β :=
  ops.foldl (BTree.applyOp au) (BTree.new au)

/-! ### The sorted association-list model -/

/-- Sorted-association-list insert; a duplicate key keeps the old value
(duplicate inserts are no-ops). -/
def insertSorted (k : K) (v : V) : List (K × V) → List (K × V)
  | [] => [(k, v)]
  | p :: ps =>
    if k < p.1 then (k, v) :: p :: ps
    else if k = p.1 then p :: ps
    else p :: insertSorted k v ps

/-- Remove the first pair with key `k`. -/
def eraseKey (k : K) : List (K × V) → List (K × V)
  | [] => []
  | p :: ps => if p.1 = k then ps else p :: eraseKey k ps

/-- Association-list lookup (first match). -/
def lookupL (k : K) : List (K × V) → Option V
  | [] => none
  | p :: ps => if p.1 = k then some p.2 else lookupL k ps

/-- One step of the reference model: insert adds the pair only when the key
is absent; delete removes the pair with the key. -/
def modelOp (l : List (K × V)) : Op K V → List (K × V)
  | .ins k v => insertSorted k v l
  | .del k => eraseKey k l

/-- The reference model of a whole operation sequence: the sorted list of
currently live pairs, each key bound to the value of the insert call that
succeeded (returned true) and was not deleted afterwards. -/
def modelList (ops : List (Op K V)) : List (K × V) :=
  ops.foldl modelOp []

@[simp]
theorem lookupL_nil (k : K) : lookupL k ([] : List (K × V)) = none := rfl

@[simp]
theorem lookupL_cons (k : K) (p : K × V) (ps : List (K × V)) :
    lookupL k (p :: ps) = if p.1 = k then some p.2 else lookupL k ps := rfl

theorem lookupL_append (k : K) (A B : List (K × V)) :
    lookupL k (A ++ B) =
      match lookupL k A with
      | some v => some v
      | none => lookupL k B := by
  induction A with
  | nil => simp
  | cons p ps ih =>
    by_cases h : p.1 = k
    · simp [h]
    · simp [h, ih]

theorem lookupL_eq_none_of_forall {k : K} {l : List (K × V)}
    (h : ∀ p ∈ l, p.1 ≠ k) : lookupL k l = none := by
  induction l with
  | nil => rfl
  | cons p ps ih =>
    have hp := h p (List.mem_cons_self _ _)
    simp [hp, ih (fun q hq => h q (List.mem_cons_of_mem _ hq))]

theorem lookupL_append_right {k : K} {A : List (K × V)} (B : List (K × V))
    (h : ∀ p ∈ A, p.1 ≠ k) : lookupL k (A ++ B) = lookupL k B := by
  rw [lookupL_append, lookupL_eq_none_of_forall h]

theorem lookupL_append_left {k : K} {B : List (K × V)} (A : List (K × V))
    (h : ∀ p ∈ B, p.1 ≠ k) :
    lookupL k (A ++ B) = lookupL k A := by
  rw [lookupL_append]
  cases hA : lookupL k A with
  | some v => rfl
  | none => exact lookupL_eq_none_of_forall h

theorem insertSorted_append_left {k : K} (v : V) {A : List (K × V)}
    (B : List (K × V)) (h : ∀ p ∈ A, p.1 < k) :
    insertSorted k v (A ++ B) = A ++ insertSorted k v B := by
  induction A with
  | nil => simp
  | cons p ps ih =>
    have hp := h p (List.mem_cons_self _ _)
    have h1 : ¬k < p.1 := by
      exact not_lt_of_gt hp
    have h2 : ¬k = p.1 := by
      intro he
      rw [he] at hp
      exact lt_irrefl _ hp
    simp [insertSorted, h1, h2, ih (fun q hq => h q (List.mem_cons_of_mem _ hq))]

theorem insertSorted_append_right {k : K} (v : V) (A : List (K × V))
    {B : List (K × V)} (h : ∀ p ∈ B, k < p.1) :
    insertSorted k v (A ++ B) = insertSorted k v A ++ B := by
  induction A with
  | nil =>
    cases B with
    | nil => simp [insertSorted]
    | cons q qs =>
      have hq := h q (List.mem_cons_self _ _)
      simp [insertSorted, hq]
  | cons p ps ih =>
    by_cases h1 : k < p.1
    · simp [insertSorted, h1]
    · by_cases h2 : k = p.1
      · simp [insertSorted, h1, h2]
      · simp [insertSorted, h1, h2, ih]

theorem eraseKey_append_left {k : K} {A : List (K × V)} (B : List (K × V))
    (h : ∀ p ∈ A, p.1 ≠ k) :
    eraseKey k (A ++ B) = A ++ eraseKey k B := by
  induction A with
  | nil => simp
  | cons p ps ih =>
    have hp := h p (List.mem_cons_self _ _)
    simp [eraseKey, hp, ih (fun q hq => h q (List.mem_cons_of_mem _ hq))]

theorem eraseKey_eq_self_of_forall {k : K} {B : List (K × V)}
    (h : ∀ p ∈ B, p.1 ≠ k) : eraseKey k B = B := by
  induction B with
  | nil => rfl
  | cons p ps ih =>
    have hp := h p (List.mem_cons_self _ _)
    simp [eraseKey, hp, ih (fun q hq => h q (List.mem_cons_of_mem _ hq))]

theorem eraseKey_append_right {k : K} (A : List (K × V)) {B : List (K × V)}
    (h : ∀ p ∈ B, p.1 ≠ k) :
    eraseKey k (A ++ B) = eraseKey k A ++ B := by
  induction A with
  | nil => simpa using eraseKey_eq_self_of_forall h
  | cons p ps ih =>
    by_cases hp : p.1 = k
    · simp [eraseKey, hp]
    · simp [eraseKey, hp, ih]

/-! ### Interval bounds and sorted key lists -/

/-- The optional lower bound `lo` is strictly below `k`. -/
def loLt (lo : Option K) (k : K) : Prop := ∀ l ∈ lo, l < k

/-- `k` is strictly below the optional upper bound `hi`. -/
def ltHi (k : K) (hi : Option K) : Prop := ∀ h ∈ hi, k < h

@[simp]
theorem loLt_none (k : K) : loLt (none : Option K) k := by
  intro l hl
  cases hl

@[simp]
theorem ltHi_none (k : K) : ltHi k (none : Option K) := by
  intro h hh
  cases hh

@[simp]
theorem loLt_some (m k : K) : loLt (some m) k ↔ m < k := by
  constructor
  · intro h
    exact h m rfl
  · intro h l hl
    cases hl
    exact h

@[simp]
theorem ltHi_some (m k : K) : ltHi k (some m) ↔ k < m := by
  constructor
  · intro h
    exact h m rfl
  · intro h l hl
    cases hl
    exact h

theorem loLt_trans {lo : Option K} {a b : K} (h1 : loLt lo a) (h2 : a < b) :
    loLt lo b := by
  intro l hl
  exact lt_trans (h1 l hl) h2

theorem ltHi_trans {hi : Option K} {a b : K} (h1 : a < b) (h2 : ltHi b hi) :
    ltHi a hi := by
  intro h hh
  exact lt_trans h1 (h2 h hh)

/-- `SortedB lo hi l`: the keys of `l` are strictly increasing and lie
strictly between the optional bounds `lo` and `hi`. -/
inductive SortedB : Option K → Option K → List (K × V) → Prop where
  | nil : ∀ {lo hi}, SortedB lo hi []
  | cons : ∀ {lo hi : Option K} {k : K × V} {ks : List (K × V)},
      loLt lo k.1 → ltHi k.1 hi → SortedB (some k.1) hi ks →
      SortedB lo hi (k :: ks)

theorem SortedB.mem_bounds {lo hi : Option K} {l : List (K × V)}
    (hs : SortedB lo hi l) : ∀ p ∈ l, loLt lo p.1 ∧ ltHi p.1 hi := by
  induction hs with
  | nil => intro p hp; cases hp
  | cons hlo hhi _ ih =>
    intro p hp
    rcases List.mem_cons.1 hp with rfl | hp'
    · exact ⟨hlo, hhi⟩
    · obtain ⟨h1, h2⟩ := ih p hp'
      refine ⟨?_, h2⟩
      intro l' hl'
      exact lt_trans (hlo l' hl') (h1 _ rfl)

theorem SortedB.weaken_lo {lo lo' hi : Option K} {l : List (K × V)}
    (hs : SortedB lo hi l) (hw : ∀ k : K, loLt lo k → loLt lo' k) :
    SortedB lo' hi l := by
  cases hs with
  | nil => exact .nil
  | cons hlo hhi hrest => exact .cons (hw _ hlo) hhi hrest

theorem SortedB.weaken_hi {lo hi hi' : Option K} {l : List (K × V)}
    (hs : SortedB lo hi l) (hw : ∀ k : K, ltHi k hi → ltHi k hi') :
    SortedB lo hi' l := by
  induction hs with
  | nil => exact .nil
  | cons hlo hhi _ ih => exact .cons hlo (hw _ hhi) (ih hw)

theorem SortedB.weaken {lo lo' hi hi' : Option K} {l : List (K × V)}
    (hs : SortedB lo hi l)
    (hwl : ∀ k : K, loLt lo k → loLt lo' k)
    (hwh : ∀ k : K, ltHi k hi → ltHi k hi') : SortedB lo' hi' l :=
  (hs.weaken_hi hwh).weaken_lo hwl

/-- Decompose a sorted list around an explicit middle element. -/
theorem SortedB.append_decomp {lo hi : Option K} {A B : List (K × V)} {m : K × V}
    (hs : SortedB lo hi (A ++ m :: B)) :
    SortedB lo (some m.1) A ∧ loLt lo m.1 ∧ ltHi m.1 hi ∧ SortedB (some m.1) hi B := by
  induction A generalizing lo with
  | nil =>
    cases hs with
    | cons hlo hhi hrest => exact ⟨.nil, hlo, hhi, hrest⟩
  | cons p ps ih =>
    cases hs with
    | cons hlo hhi hrest =>
      obtain ⟨h1, h2, h3, h4⟩ := ih hrest
      refine ⟨.cons hlo ?_ h1, ?_, h3, h4⟩
      · simpa using h2
      · intro l hl
        exact lt_trans (hlo l hl) (by simpa using h2)

/-- Recompose a sorted list from sorted halves around a middle element. -/
theorem SortedB.append_recomp {lo hi : Option K} {A B : List (K × V)} {m : K × V}
    (hA : SortedB lo (some m.1) A) (hlo : loLt lo m.1) (hhi : ltHi m.1 hi)
    (hB : SortedB (some m.1) hi B) :
    SortedB lo hi (A ++ m :: B) := by
  induction A generalizing lo with
  | nil => exact .cons hlo hhi hB
  | cons p ps ih =>
    cases hA with
    | cons hlo' hhi' hrest =>
      refine .cons hlo' (ltHi_trans (by simpa using hhi') hhi) ?_
      exact ih hrest (by simpa using hhi')

theorem SortedB.ne_of_lt_lo {lo hi : Option K} {l : List (K × V)} {k : K}
    (hs : SortedB lo hi l) (h : ¬loLt lo k) : ∀ p ∈ l, p.1 ≠ k := by
  intro p hp he
  obtain ⟨h1, _⟩ := hs.mem_bounds p hp
  rw [he] at h1
  exact h h1

theorem SortedB.ne_of_hi_le {lo hi : Option K} {l : List (K × V)} {k : K}
    (hs : SortedB lo hi l) (h : ¬ltHi k hi) : ∀ p ∈ l, p.1 ≠ k := by
  intro p hp he
  obtain ⟨_, h2⟩ := hs.mem_bounds p hp
  rw [he] at h2
  exact h h2

theorem SortedB.lt_of_hi {lo : Option K} {m : K} {l : List (K × V)} {k : K}
    (hs : SortedB lo (some m) l) (h : m ≤ k) : ∀ p ∈ l, p.1 < k := by
  intro p hp
  obtain ⟨_, h2⟩ := hs.mem_bounds p hp
  exact lt_of_lt_of_le (by simpa using h2) h

theorem SortedB.gt_of_lo {hi : Option K} {m : K} {l : List (K × V)} {k : K}
    (hs : SortedB (some m) hi l) (h : k ≤ m) : ∀ p ∈ l, k < p.1 := by
  intro p hp
  obtain ⟨h1, _⟩ := hs.mem_bounds p hp
  exact lt_of_le_of_lt h (by simpa using h1)

/-! ### In-order flattening -/

/-- In-order flattening of a forest interleaved with its separator keys:
`toListAux [c₀, …, cₙ] [k₀, …, kₙ₋₁]` is `c₀ k₀ c₁ k₁ … kₙ₋₁ cₙ` flattened
(just the keys when there are no children). -/
def toListAux : List (Node K V β) → List (K × V) → List (K × V)
  | [], ks => ks
  | ⟨cks, ccs, _⟩ :: cs, [] => toListAux ccs cks ++ toListAux cs []
  | ⟨cks, ccs, _⟩ :: cs, k :: ks => toListAux ccs cks ++ k :: toListAux cs ks
termination_by cs _ => nsizeL cs
decreasing_by
  all_goals simp [nsizeL]
  all_goals omega

/-- In-order flattening of a subtree: the list of its key/value pairs. -/
def Node.toList : Node K V β → List (K × V)
  | ⟨ks, cs, _⟩ => toListAux cs ks

@[simp]
theorem Node.toList_mk (ks : List (K × V)) (cs : List (Node K V β)) (a : β) :
    (Node.mk ks cs a).toList = toListAux cs ks := rfl

@[simp]
theorem toListAux_nil (ks : List (K × V)) :
    toListAux ([] : List (Node K V β)) ks = ks := by
  simp [toListAux]

@[simp]
theorem toListAux_cons_nil (c : Node K V β) (cs : List (Node K V β)) :
    toListAux (c :: cs) [] = c.toList ++ toListAux cs [] := by
  cases c with
  | mk cks ccs a => simp [toListAux]

@[simp]
theorem toListAux_cons_cons (c : Node K V β) (cs : List (Node K V β))
    (k : K × V) (ks : List (K × V)) :
    toListAux (c :: cs) (k :: ks) = c.toList ++ k :: toListAux cs ks := by
  cases c with
  | mk cks ccs a => simp [toListAux]

/-! ### The structural invariant -/

/-- A separated child sequence: children `c₀ … cₙ` interleaved with
strictly increasing separator keys `k₀ … kₙ₋₁`, every child satisfying `P`
on its open interval.  This is the invariant of the child/key arrays of an
internal node, with `P` the invariant of the children. -/
inductive Seq (P : Option K → Option K → Node K V β → Prop) :
    Option K → Option K → List (Node K V β) → List (K × V) → Prop where
  | single : ∀ {lo hi : Option K} {c : Node K V β}, P lo hi c → Seq P lo hi [c] []
  | cons : ∀ {lo hi : Option K} {c : Node K V β} {k : K × V} {cs ks},
      P lo (some k.1) c → loLt lo k.1 → ltHi k.1 hi →
      Seq P (some k.1) hi cs ks → Seq P lo hi (c :: cs) (k :: ks)

/-- Interior lower bound of the `i`-th child slot of a node with keys `ks`
on the interval above `lo`. -/
def boundL (lo : Option K) (ks : List (K × V)) (i : Nat) : Option K :=
  if i = 0 then lo else some (ks.getD (i - 1) default).1

/-- Interior upper bound of the `i`-th child slot. -/
def boundR (hi : Option K) (ks : List (K × V)) (i : Nat) : Option K :=
  if i = ks.length then hi else some (ks.getD i default).1

/-- The B-tree structural invariant.  `Good lb h lo hi nd`: the subtree
`nd` has uniform height `h` (all leaves at the same depth), between `lb`
and `2t−1` keys in this node, between `t−1` and `2t−1` keys in every
deeper node, `n+1` children for `n` keys at every internal node, and
strictly sorted keys all lying strictly between the bounds, with each key
of child `cᵢ` strictly between the adjacent separator keys. -/
inductive Good : Nat → Nat → Option K → Option K → Node K V β → Prop where
  | leaf : ∀ {lb : Nat} {lo hi : Option K} {ks : List (K × V)} {a : β},
      lb ≤ ks.length → ks.length ≤ 2 * MIN_DEGREE - 1 →
      SortedB lo hi ks →
      Good lb 0 lo hi ⟨ks, [], a⟩
  | node : ∀ {lb h : Nat} {lo hi : Option K} {ks : List (K × V)}
      {cs : List (Node K V β)} {a : β},
      lb ≤ ks.length → ks.length ≤ 2 * MIN_DEGREE - 1 →
      cs.length = ks.length + 1 →
      SortedB lo hi ks →
      (∀ i, i < cs.length →
        Good (MIN_DEGREE - 1) h (boundL lo ks i) (boundR hi ks i) (cs.getD i default)) →
      Good lb (h + 1) lo hi ⟨ks, cs, a⟩

section SeqToolkit

variable {P : Option K → Option K → Node K V β → Prop}

theorem Seq.length_eq {lo hi : Option K} {cs : List (Node K V β)}
    {ks : List (K × V)} (hs : Seq P lo hi cs ks) :
    cs.length = ks.length + 1 := by
  induction hs with
  | single _ => rfl
  | cons _ _ _ _ ih => simpa using ih

theorem Seq.ne_nil {lo hi : Option K} {cs : List (Node K V β)}
    {ks : List (K × V)} (hs : Seq P lo hi cs ks) : cs ≠ [] := by
  cases hs with
  | single _ => simp
  | cons _ _ _ _ => simp

theorem Seq.sorted {lo hi : Option K} {cs : List (Node K V β)}
    {ks : List (K × V)}
    (hP : ∀ (lo' hi' : Option K) (c : Node K V β), P lo' hi' c →
      SortedB lo' hi' c.toList)
    (hs : Seq P lo hi cs ks) : SortedB lo hi (toListAux cs ks) := by
  induction hs with
  | single hc => simpa using hP _ _ _ hc
  | cons hc hlo hhi _ ih =>
    rw [toListAux_cons_cons]
    exact SortedB.append_recomp (hP _ _ _ hc) hlo hhi ih

@[simp]
theorem boundL_zero (lo : Option K) (ks : List (K × V)) : boundL lo ks 0 = lo := rfl

theorem boundL_cons (lo : Option K) (k : K × V) (ks : List (K × V)) (i : Nat) :
    boundL lo (k :: ks) (i + 1) = boundL (some k.1) ks i := by
  cases i with
  | zero => simp [boundL]
  | succ m => simp [boundL]

theorem boundR_cons (hi : Option K) (k : K × V) (ks : List (K × V)) (i : Nat) :
    boundR hi (k :: ks) (i + 1) = boundR hi ks i := by
  by_cases h : i = ks.length
  · simp [boundR, h]
  · simp [boundR, h]

theorem boundR_zero_cons (hi : Option K) (k : K × V) (ks : List (K × V)) :
    boundR hi (k :: ks) 0 = some k.1 := by
  simp [boundR]

end SeqToolkit

theorem Seq.sortedKeys {P : Option K → Option K → Node K V β → Prop}
    {lo hi : Option K} {cs : List (Node K V β)} {ks : List (K × V)}
    (hs : Seq P lo hi cs ks) : SortedB lo hi ks := by
  induction hs with
  | single _ => exact .nil
  | cons _ hlo hhi _ ih => exact .cons hlo hhi ih

theorem Seq.child {P : Option K → Option K → Node K V β → Prop}
    {lo hi : Option K} {cs : List (Node K V β)} {ks : List (K × V)}
    (hs : Seq P lo hi cs ks) :
    ∀ i, i < cs.length → P (boundL lo ks i) (boundR hi ks i) (cs.getD i default) := by
  induction hs with
  | single hc =>
    intro i hi
    have hi0 : i = 0 := by simpa using Nat.lt_one_iff.1 (by simpa using hi)
    subst hi0
    simpa [boundL, boundR] using hc
  | cons hc hlo hhi _ ih =>
    intro i hi
    cases i with
    | zero => simpa [boundR_zero_cons] using hc
    | succ m =>
      rw [boundL_cons, boundR_cons]
      simpa using ih m (by simpa using Nat.lt_of_succ_lt_succ hi)

theorem seq_of_forall {P : Option K → Option K → Node K V β → Prop}
    {lo hi : Option K} {cs : List (Node K V β)} {ks : List (K × V)}
    (hlen : cs.length = ks.length + 1) (hsort : SortedB lo hi ks)
    (hchild : ∀ i, i < cs.length →
      P (boundL lo ks i) (boundR hi ks i) (cs.getD i default)) :
    Seq P lo hi cs ks := by
  induction ks generalizing cs lo with
  | nil =>
    match cs, hlen with
    | [c], _ =>
      exact .single (by simpa [boundL, boundR] using hchild 0 (by simp))
  | cons k ks ih =>
    match cs, hlen with
    | c :: cs', hlen =>
      cases hsort with
      | cons hlo hhi hrest =>
        refine .cons ?_ hlo hhi ?_
        · simpa [boundR_zero_cons] using hchild 0 (by simp)
        · refine ih (by simpa using hlen) hrest ?_
          intro i hi
          have := hchild (i + 1) (by simpa using Nat.succ_lt_succ hi)
          rw [boundL_cons, boundR_cons] at this
          simpa using this

/-- The `Seq` view of an internal `Good` node. -/
theorem Good.toSeq {lb h : Nat} {lo hi : Option K} {ks : List (K × V)}
    {cs : List (Node K V β)} {a : β}
    (hg : Good lb (h + 1) lo hi (Node.mk ks cs a)) :
    Seq (Good (MIN_DEGREE - 1) h) lo hi cs ks := by
  cases hg with
  | node h1 h2 hlen hsort hchild => exact seq_of_forall hlen hsort hchild

theorem Good.ofSeq {lb h : Nat} {lo hi : Option K} {ks : List (K × V)}
    {cs : List (Node K V β)} {a : β}
    (h1 : lb ≤ ks.length) (h2 : ks.length ≤ 2 * MIN_DEGREE - 1)
    (hs : Seq (Good (MIN_DEGREE - 1) h) lo hi cs ks) :
    Good lb (h + 1) lo hi (Node.mk ks cs a) :=
  .node h1 h2 hs.length_eq hs.sortedKeys hs.child

theorem Good.weaken_lb {lb lb' h : Nat} {lo hi : Option K} {nd : Node K V β}
    (hg : Good lb h lo hi nd) (hle : lb' ≤ lb) : Good lb' h lo hi nd := by
  cases hg with
  | leaf h1 h2 hs => exact .leaf (le_trans hle h1) h2 hs
  | node h1 h2 hlen hsort hchild => exact .node (le_trans hle h1) h2 hlen hsort hchild

theorem Good.size_le {lb h : Nat} {lo hi : Option K} {nd : Node K V β}
    (hg : Good lb h lo hi nd) :
    lb ≤ nd.keys.length ∧ nd.keys.length ≤ 2 * MIN_DEGREE - 1 := by
  cases hg with
  | leaf h1 h2 _ => exact ⟨h1, h2⟩
  | node h1 h2 _ _ _ => exact ⟨h1, h2⟩

theorem Good.children_zero {lb : Nat} {lo hi : Option K} {nd : Node K V β}
    (hg : Good lb 0 lo hi nd) : nd.children = [] := by
  cases hg with
  | leaf _ _ _ => rfl

theorem Good.children_len {lb h : Nat} {lo hi : Option K} {nd : Node K V β}
    (hg : Good lb (h + 1) lo hi nd) :
    nd.children.length = nd.keys.length + 1 := by
  cases hg with
  | node _ _ hlen _ _ => simpa using hlen

theorem Good.toList_sorted : ∀ {h lb : Nat} {lo hi : Option K} {nd : Node K V β},
    Good lb h lo hi nd → SortedB lo hi nd.toList := by
  intro h
  induction h with
  | zero =>
    intro lb lo hi nd hg
    cases hg with
    | leaf h1 h2 hs => simpa using hs
  | succ h ih =>
    intro lb lo hi nd hg
    cases hg with
    | node h1 h2 hlen hsort hchild =>
      have hseq := seq_of_forall hlen hsort hchild
      simpa using Seq.sorted (fun lo' hi' c hc => ih hc) hseq

/-! ### Specification of the binary search -/

theorem keyIdx_ok_spec {k : K} {ks : List (K × V)} {i : Nat}
    (h : keyIdx k ks = .ok i) :
    i < ks.length ∧ (ks.getD i default).1 = k ∧
      ∀ j, j < i → (ks.getD j default).1 < k := by
  induction ks generalizing i with
  | nil => simp [keyIdx] at h
  | cons p ps ih =>
    rw [keyIdx] at h
    by_cases h1 : p.1 = k
    · simp only [h1, if_pos] at h
      cases h
      refine ⟨by simp, by simpa using h1, ?_⟩
      intro j hj
      omega
    · by_cases h2 : k < p.1
      · simp [h1, h2] at h
      · simp only [h1, h2, if_neg, if_false, Bool.false_eq_true, not_false_iff] at h
        have hplt : p.1 < k := lt_of_le_of_ne (not_lt.1 h2) h1
        cases hrec : keyIdx k ps with
        | ok i' =>
          rw [hrec] at h
          cases h
          obtain ⟨ha, hb, hc⟩ := ih hrec
          refine ⟨by simpa using Nat.succ_lt_succ ha, by simpa using hb, ?_⟩
          intro j hj
          cases j with
          | zero => simpa using hplt
          | succ m => simpa using hc m (by omega)
        | error i' => rw [hrec] at h; cases h

theorem keyIdx_err_spec {k : K} {ks : List (K × V)} {i : Nat}
    (h : keyIdx k ks = .error i) :
    i ≤ ks.length ∧ (∀ j, j < i → (ks.getD j default).1 < k) ∧
      (i < ks.length → k < (ks.getD i default).1) := by
  induction ks generalizing i with
  | nil =>
    rw [keyIdx] at h
    cases h
    exact ⟨by simp, by omega, by simp⟩
  | cons p ps ih =>
    rw [keyIdx] at h
    by_cases h1 : p.1 = k
    · simp [h1] at h
    · by_cases h2 : k < p.1
      · simp only [h1, h2, if_neg, if_pos, Bool.false_eq_true, not_false_iff] at h
        cases h
        exact ⟨by simp, by omega, fun _ => by simpa using h2⟩
      · simp only [h1, h2, if_neg, if_false, Bool.false_eq_true, not_false_iff] at h
        have hplt : p.1 < k := lt_of_le_of_ne (not_lt.1 h2) h1
        cases hrec : keyIdx k ps with
        | ok i' => rw [hrec] at h; cases h
        | error i' =>
          rw [hrec] at h
          cases h
          obtain ⟨ha, hb, hc⟩ := ih hrec
          refine ⟨by simpa using Nat.succ_le_succ ha, ?_, ?_⟩
          · intro j hj
            cases j with
            | zero => simpa using hplt
            | succ m => simpa using hb m (by omega)
          · intro hlt
            simpa using hc (by simpa using Nat.lt_of_succ_lt_succ hlt)

theorem keyIdx_err_not_mem {lo hi : Option K} {k : K} {ks : List (K × V)} {i : Nat}
    (hs : SortedB lo hi ks) (h : keyIdx k ks = .error i) :
    ∀ p ∈ ks, p.1 ≠ k := by
  induction ks generalizing lo i with
  | nil => intro p hp; cases hp
  | cons q qs ih =>
    rw [keyIdx] at h
    by_cases h1 : q.1 = k
    · simp [h1] at h
    · intro p hp
      rcases List.mem_cons.1 hp with rfl | hp'
      · exact h1
      · by_cases h2 : k < q.1
        · cases hs with
          | cons hlo hhi hrest =>
            intro he
            have := hrest.mem_bounds p hp'
            obtain ⟨hq, _⟩ := this
            rw [he] at hq
            exact absurd (lt_trans h2 (by simpa using hq)) (lt_irrefl k)
        · simp only [h1, h2, if_neg, if_false, Bool.false_eq_true, not_false_iff] at h
          cases hs with
          | cons hlo hhi hrest =>
            cases hrec : keyIdx k qs with
            | ok i' => rw [hrec] at h; cases h
            | error i' => exact ih hrest hrec p hp'

theorem keyIdx_ok_lookup {lo hi : Option K} {k : K} {ks : List (K × V)} {i : Nat}
    (hs : SortedB lo hi ks) (h : keyIdx k ks = .ok i) :
    lookupL k ks = some (ks.getD i default).2 := by
  induction ks generalizing lo i with
  | nil => simp [keyIdx] at h
  | cons q qs ih =>
    rw [keyIdx] at h
    by_cases h1 : q.1 = k
    · simp only [h1, if_pos] at h
      cases h
      simp [h1]
    · by_cases h2 : k < q.1
      · simp [h1, h2] at h
      · simp only [h1, h2, if_neg, if_false, Bool.false_eq_true, not_false_iff] at h
        cases hs with
        | cons hlo hhi hrest =>
          cases hrec : keyIdx k qs with
          | ok i' =>
            rw [hrec] at h
            cases h
            simpa [h1] using ih hrest hrec
          | error i' => rw [hrec] at h; cases h

theorem keyIdx_err_bounds {lo hi : Option K} {k : K} {ks : List (K × V)} {i : Nat}
    (h : keyIdx k ks = .error i) (hlo : loLt lo k) (hhi : ltHi k hi) :
    loLt (boundL lo ks i) k ∧ ltHi k (boundR hi ks i) := by
  obtain ⟨ha, hb, hc⟩ := keyIdx_err_spec h
  constructor
  · by_cases h0 : i = 0
    · simpa [boundL, h0] using hlo
    · have := hb (i - 1) (by omega)
      simp only [boundL, h0, if_neg, if_false, Bool.false_eq_true, not_false_iff]
      simpa using this
  · by_cases hlen : i = ks.length
    · simpa [boundR, hlen] using hhi
    · have := hc (by omega)
      simp only [boundR, hlen, if_neg, if_false, Bool.false_eq_true, not_false_iff]
      simpa using this

theorem loLt_boundL_mono {hi : Option K} {k : K} {ks : List (K × V)} {i : Nat}
    (hs : SortedB (some k) hi ks) (hik : i ≤ ks.length) :
    ∀ k' : K, loLt (boundL (some k) ks i) k' → k < k' := by
  intro k' h
  by_cases h0 : i = 0
  · subst h0
    simpa using h
  · have hmem : ks.getD (i - 1) default ∈ ks := by
      rw [List.getD_eq_getElem _ _ (by omega)]
      exact List.getElem_mem _
    obtain ⟨h1, _⟩ := hs.mem_bounds _ hmem
    simp only [boundL, h0, if_neg, if_false, Bool.false_eq_true, not_false_iff] at h
    exact lt_trans (by simpa using h1) (by simpa using h)

/-- Localization of the `i`-th child slot of a separated sequence: the
flattening splits as `A ++ toList cᵢ ++ B`; the keys of `A` (resp. `B`)
lie at or below (resp. at or above) the slot's interval; replacing the
child by one node, or by a `(left, median, right)` split, rewrites only
the middle part and preserves the invariant. -/
theorem seqLoc {P : Option K → Option K → Node K V β → Prop}
    (hP : ∀ (lo' hi' : Option K) (c : Node K V β), P lo' hi' c →
      SortedB lo' hi' c.toList) :
    ∀ (i : Nat) {lo hi : Option K} {cs : List (Node K V β)} {ks : List (K × V)},
    Seq P lo hi cs ks → i ≤ ks.length →
    ∃ A B : List (K × V),
      i < cs.length ∧
      toListAux cs ks = A ++ (cs.getD i default).toList ++ B ∧
      (∀ p ∈ A, ∀ k' : K, loLt (boundL lo ks i) k' → p.1 < k') ∧
      (∀ p ∈ B, ∀ k' : K, ltHi k' (boundR hi ks i) → k' < p.1) ∧
      (∀ c' : Node K V β, toListAux (cs.set i c') ks = A ++ c'.toList ++ B) ∧
      (∀ c' : Node K V β, P (boundL lo ks i) (boundR hi ks i) c' →
        Seq P lo hi (cs.set i c') ks) ∧
      (∀ (L : Node K V β) (M : K × V) (R : Node K V β),
        toListAux ((cs.set i L).insertIdx (i + 1) R) (ks.insertIdx i M)
          = A ++ L.toList ++ M :: R.toList ++ B) ∧
      (∀ (L : Node K V β) (M : K × V) (R : Node K V β),
        P (boundL lo ks i) (some M.1) L → loLt (boundL lo ks i) M.1 →
        ltHi M.1 (boundR hi ks i) → P (some M.1) (boundR hi ks i) R →
        Seq P lo hi ((cs.set i L).insertIdx (i + 1) R) (ks.insertIdx i M)) := by
  intro i
  induction i with
  | zero =>
    intro lo hi cs ks hs _
    match cs, ks, hs with
    | [_], [], .single hc =>
      refine ⟨[], [], by simp, by simp, by simp, by simp, by simp, ?_, ?_, ?_⟩
      · intro c' hc'
        exact .single (by simpa [boundL, boundR] using hc')
      · intro L M R
        simp
      · intro L M R hL hloM hhiM hR
        simp only [List.set_cons_zero, List.insertIdx_succ_cons, List.insertIdx_zero]
        exact .cons (by simpa [boundL] using hL) (by simpa [boundL] using hloM)
          (by simpa [boundR] using hhiM)
          (.single (by simpa [boundL, boundR] using hR))
    | c :: cs', k :: ks', .cons hc hlo hhi htail =>
      have htlist : SortedB (some k.1) hi (toListAux cs' ks') := Seq.sorted hP htail
      refine ⟨[], k :: toListAux cs' ks', by simp, by simp, by simp, ?_, ?_, ?_, ?_, ?_⟩
      · intro p hp k' hk'
        rw [boundR_zero_cons] at hk'
        rcases List.mem_cons.1 hp with rfl | hp'
        · simpa using hk'
        · obtain ⟨h1, _⟩ := htlist.mem_bounds p hp'
          exact lt_trans (by simpa using hk') (by simpa using h1)
      · intro c'
        simp
      · intro c' hc'
        rw [List.set_cons_zero]
        exact .cons (by simpa [boundR_zero_cons] using hc') hlo hhi htail
      · intro L M R
        simp
      · intro L M R hL hloM hhiM hR
        simp only [boundR_zero_cons, boundL_zero] at hL hloM hhiM hR
        simp only [List.set_cons_zero, List.insertIdx_succ_cons, List.insertIdx_zero]
        refine .cons hL hloM (ltHi_trans (by simpa using hhiM) hhi) ?_
        exact .cons hR (by simpa using hhiM) hhi htail
  | succ i ih =>
    intro lo hi cs ks hs hle
    match cs, ks, hs with
    | [_], [], .single hc => simp at hle
    | c :: cs', k :: ks', .cons hc hlo hhi htail =>
      have hle' : i ≤ ks'.length := by simpa using hle
      obtain ⟨A', B', hlt', hdec', hA', hB', hset', hseqset', hsplit', hseqsplit'⟩ :=
        ih htail hle'
      have hkmono := loLt_boundL_mono (htail.sortedKeys) hle'
      have hclist : SortedB lo (some k.1) c.toList := hP _ _ _ hc
      refine ⟨c.toList ++ k :: A', B', by simpa using Nat.succ_lt_succ hlt',
        ?_, ?_, ?_, ?_, ?_, ?_, ?_⟩
      · simp only [List.getD_cons_succ, toListAux_cons_cons, hdec']
        simp
      · intro p hp k' hk'
        rw [boundL_cons] at hk'
        have hkk' : k.1 < k' := hkmono k' hk'
        rcases List.mem_append.1 hp with hp1 | hp2
        · obtain ⟨_, h2⟩ := hclist.mem_bounds p hp1
          exact lt_trans (by simpa using h2) hkk'
        · rcases List.mem_cons.1 hp2 with rfl | hp3
          · exact hkk'
          · exact hA' p hp3 k' hk'
      · intro p hp k' hk'
        rw [boundR_cons] at hk'
        exact hB' p hp k' hk'
      · intro c'
        simp only [List.set_cons_succ, toListAux_cons_cons, hset']
        simp
      · intro c' hc'
        rw [boundL_cons, boundR_cons] at hc'
        rw [List.set_cons_succ]
        exact .cons hc hlo hhi (hseqset' c' hc')
      · intro L M R
        simp only [List.set_cons_succ, List.insertIdx_succ_cons, toListAux_cons_cons,
          hsplit']
        simp
      · intro L M R hL hloM hhiM hR
        simp only [boundL_cons, boundR_cons] at hL hloM hhiM hR
        simp only [List.set_cons_succ, List.insertIdx_succ_cons]
        exact .cons hc hlo hhi (hseqsplit' L M R hL hloM hhiM hR)

/-- Localization of the adjacent triple `(c_j, k_j, c_{j+1})` of a
separated sequence: the flattening splits around it, and the triple may be
replaced by a new `(child, key, child)` triple or merged into a single
child while preserving the invariant. -/
theorem seqAdj {P : Option K → Option K → Node K V β → Prop}
    (hP : ∀ (lo' hi' : Option K) (c : Node K V β), P lo' hi' c →
      SortedB lo' hi' c.toList) :
    ∀ (j : Nat) {lo hi : Option K} {cs : List (Node K V β)} {ks : List (K × V)},
    Seq P lo hi cs ks → j < ks.length →
    ∃ A B : List (K × V),
      j + 1 < cs.length ∧
      toListAux cs ks = A ++ (cs.getD j default).toList ++ (ks.getD j default) ::
        (cs.getD (j + 1) default).toList ++ B ∧
      (∀ p ∈ A, ∀ k' : K, loLt (boundL lo ks j) k' → p.1 < k') ∧
      (∀ p ∈ B, ∀ k' : K, ltHi k' (boundR hi ks (j + 1)) → k' < p.1) ∧
      (∀ (c1 : Node K V β) (m : K × V) (c2 : Node K V β),
        toListAux ((cs.set j c1).set (j + 1) c2) (ks.set j m)
          = A ++ c1.toList ++ m :: c2.toList ++ B) ∧
      (∀ (c1 : Node K V β) (m : K × V) (c2 : Node K V β),
        P (boundL lo ks j) (some m.1) c1 → loLt (boundL lo ks j) m.1 →
        ltHi m.1 (boundR hi ks (j + 1)) → P (some m.1) (boundR hi ks (j + 1)) c2 →
        Seq P lo hi ((cs.set j c1).set (j + 1) c2) (ks.set j m)) ∧
      (∀ M : Node K V β,
        toListAux ((cs.eraseIdx (j + 1)).set j M) (ks.eraseIdx j)
          = A ++ M.toList ++ B) ∧
      (∀ M : Node K V β, P (boundL lo ks j) (boundR hi ks (j + 1)) M →
        Seq P lo hi ((cs.eraseIdx (j + 1)).set j M) (ks.eraseIdx j)) := by
  intro j
  induction j with
  | zero =>
    intro lo hi cs ks hs hj
    match cs, ks, hs with
    | [_], [], .single _ => simp at hj
    | c0 :: cs1, k :: ks1, .cons hc hlo hhi htail =>
      match cs1, ks1, htail with
      | [c2], [], .single hc2 =>
        refine ⟨[], [], by simp, by simp, by simp, by simp, ?_, ?_, ?_, ?_⟩
        · intro c1 m c2'
          simp
        · intro c1 m c2' h1 h2 h3 h4
          simp only [boundL_zero] at h1 h2
          have hbr : boundR hi [k] 1 = hi := by simp [boundR]
          rw [hbr] at h3 h4
          simp only [List.set_cons_zero, List.set_cons_succ]
          exact .cons h1 h2 h3 (.single h4)
        · intro M
          simp
        · intro M hM
          have hbr : boundR hi [k] 1 = hi := by simp [boundR]
          rw [hbr] at hM
          simp only [boundL_zero] at hM
          simp only [List.eraseIdx_cons_succ, List.eraseIdx_cons_zero,
            List.eraseIdx_nil, List.set_cons_zero]
          exact .single hM
      | c2 :: cs2, k2 :: ks2, .cons hc2 hlo2 hhi2 htail2 =>
        have htlist : SortedB (some k2.1) hi (toListAux cs2 ks2) := Seq.sorted hP htail2
        have hbr : boundR hi (k :: k2 :: ks2) 1 = some k2.1 := by
          simp [boundR]
        refine ⟨[], k2 :: toListAux cs2 ks2, by simp, by simp, by simp, ?_,
          ?_, ?_, ?_, ?_⟩
        · intro p hp k' hk'
          rw [hbr] at hk'
          rcases List.mem_cons.1 hp with rfl | hp'
          · simpa using hk'
          · obtain ⟨h1, _⟩ := htlist.mem_bounds p hp'
            exact lt_trans (by simpa using hk') (by simpa using h1)
        · intro c1 m c2'
          simp
        · intro c1 m c2' h1 h2 h3 h4
          simp only [boundL_zero] at h1 h2
          rw [hbr] at h3 h4
          simp only [List.set_cons_zero, List.set_cons_succ]
          refine .cons h1 h2 (ltHi_trans (by simpa using h3) hhi2) ?_
          exact .cons h4 (by simpa using h3) hhi2 htail2
        · intro M
          simp
        · intro M hM
          rw [hbr] at hM
          simp only [boundL_zero] at hM
          simp only [List.eraseIdx_cons_succ, List.eraseIdx_cons_zero,
            List.set_cons_zero]
          refine .cons hM ?_ hhi2 htail2
          intro l hl
          exact lt_trans (hlo l hl) (by simpa using hlo2)
  | succ j ih =>
    intro lo hi cs ks hs hj
    match cs, ks, hs with
    | [_], [], .single _ => simp at hj
    | c :: cs', k :: ks', .cons hc hlo hhi htail =>
      have hj' : j < ks'.length := by simpa using hj
      obtain ⟨A', B', hlt', hdec', hA', hB', hsetL', hseqset', hmergeL', hseqmerge'⟩ :=
        ih htail hj'
      have hkmono := loLt_boundL_mono (htail.sortedKeys) (le_of_lt hj')
      have hclist : SortedB lo (some k.1) c.toList := hP _ _ _ hc
      refine ⟨c.toList ++ k :: A', B', by simpa using Nat.succ_lt_succ hlt',
        ?_, ?_, ?_, ?_, ?_, ?_, ?_⟩
      · simp only [List.getD_cons_succ, toListAux_cons_cons, hdec']
        simp
      · intro p hp k' hk'
        rw [boundL_cons] at hk'
        have hkk' : k.1 < k' := hkmono k' hk'
        rcases List.mem_append.1 hp with hp1 | hp2
        · obtain ⟨_, h2⟩ := hclist.mem_bounds p hp1
          exact lt_trans (by simpa using h2) hkk'
        · rcases List.mem_cons.1 hp2 with rfl | hp3
          · exact hkk'
          · exact hA' p hp3 k' hk'
      · intro p hp k' hk'
        rw [boundR_cons] at hk'
        exact hB' p hp k' hk'
      · intro c1 m c2'
        simp only [List.set_cons_succ, toListAux_cons_cons, hsetL']
        simp
      · intro c1 m c2' h1 h2 h3 h4
        simp only [boundL_cons, boundR_cons] at h1 h2 h3 h4
        simp only [List.set_cons_succ]
        exact .cons hc hlo hhi (hseqset' c1 m c2' h1 h2 h3 h4)
      · intro M
        simp only [List.eraseIdx_cons_succ, List.set_cons_succ, toListAux_cons_cons,
          hmergeL']
        simp
      · intro M hM
        simp only [boundL_cons, boundR_cons] at hM
        simp only [List.eraseIdx_cons_succ, List.set_cons_succ]
        exact .cons hc hlo hhi (hseqmerge' M hM)

/-- Recompose a separated sequence from two halves around a key. -/
theorem Seq.append {P : Option K → Option K → Node K V β → Prop}
    {lo hi : Option K} {m : K × V} {cs1 cs2 : List (Node K V β)}
    {ks1 ks2 : List (K × V)}
    (h1 : Seq P lo (some m.1) cs1 ks1) (hlo : loLt lo m.1) (hhi : ltHi m.1 hi)
    (h2 : Seq P (some m.1) hi cs2 ks2) :
    Seq P lo hi (cs1 ++ cs2) (ks1 ++ m :: ks2) := by
  induction ks1 generalizing cs1 lo with
  | nil =>
    match cs1, h1 with
    | [c], .single hc => exact .cons hc hlo hhi h2
  | cons k ks ih =>
    match cs1, h1 with
    | c :: cs', .cons hc hlo' hhi' htail =>
      refine .cons hc hlo' (ltHi_trans (show k.1 < m.1 by simpa using hhi') hhi) ?_
      exact ih htail (by simpa using hhi')

/-- Flattening of an aligned concatenation. -/
theorem toListAux_append {cs1 cs2 : List (Node K V β)} {ks1 ks2 : List (K × V)}
    {m : K × V} (hlen : cs1.length = ks1.length + 1) :
    toListAux (cs1 ++ cs2) (ks1 ++ m :: ks2)
      = toListAux cs1 ks1 ++ m :: toListAux cs2 ks2 := by
  induction ks1 generalizing cs1 with
  | nil =>
    match cs1, hlen with
    | [c], _ => simp
  | cons k ks ih =>
    match cs1, hlen with
    | c :: cs', hlen =>
      simp only [List.cons_append, toListAux_cons_cons, ih (by simpa using hlen)]
      simp

/-- Decompose a separated sequence at the `j`-th separator key. -/
theorem seqSplitAt {P : Option K → Option K → Node K V β → Prop} :
    ∀ (j : Nat) {lo hi : Option K} {cs : List (Node K V β)} {ks : List (K × V)},
    Seq P lo hi cs ks → j < ks.length →
    Seq P lo (some (ks.getD j default).1) (cs.take (j + 1)) (ks.take j) ∧
    loLt lo (ks.getD j default).1 ∧ ltHi (ks.getD j default).1 hi ∧
    Seq P (some (ks.getD j default).1) hi (cs.drop (j + 1)) (ks.drop (j + 1)) ∧
    toListAux cs ks = toListAux (cs.take (j + 1)) (ks.take j) ++
      (ks.getD j default) :: toListAux (cs.drop (j + 1)) (ks.drop (j + 1)) := by
  intro j
  induction j with
  | zero =>
    intro lo hi cs ks hs hj
    match cs, ks, hs with
    | [_], [], .single _ => simp at hj
    | c :: cs', k :: ks', .cons hc hlo hhi htail =>
      exact ⟨by simpa using Seq.single hc, by simpa using hlo, by simpa using hhi,
        by simpa using htail, by simp⟩
  | succ j ih =>
    intro lo hi cs ks hs hj
    match cs, ks, hs with
    | [_], [], .single _ => simp at hj
    | c :: cs', k :: ks', .cons hc hlo hhi htail =>
      have hj' : j < ks'.length := by simpa using hj
      obtain ⟨hL, hloM, hhiM, hR, hdec⟩ := ih htail hj'
      have hkm : k.1 < (ks'.getD j default).1 := by simpa using hloM
      refine ⟨?_, ?_, ?_, by simpa using hR, ?_⟩
      · simp only [List.take_succ_cons, List.getD_cons_succ]
        exact .cons hc hlo (by simpa using hkm) hL
      · simp only [List.getD_cons_succ]
        exact loLt_trans hlo hkm
      · simpa using hhiM
      · simp only [List.getD_cons_succ, List.drop_succ_cons, List.take_succ_cons,
          toListAux_cons_cons, hdec]
        simp

/-- Specification of `Node::split` on a full, well-formed node: the two
halves are well-formed minimum nodes on the two sides of the median, and
the flattening is preserved. -/
theorem Good.split_spec {lb h : Nat} {lo hi : Option K} {nd : Node K V β}
    (au : Aug K V β γ) (hg : Good lb h lo hi nd)
    (hfull : nd.keys.length = 2 * MIN_DEGREE - 1) :
    Good (MIN_DEGREE - 1) h lo (some (nd.split au).1.1) (nd.split au).2.1 ∧
    loLt lo (nd.split au).1.1 ∧ ltHi (nd.split au).1.1 hi ∧
    Good (MIN_DEGREE - 1) h (some (nd.split au).1.1) hi (nd.split au).2.2 ∧
    nd.toList = (nd.split au).2.1.toList ++ (nd.split au).1 :: (nd.split au).2.2.toList ∧
    (nd.split au).2.1.keys.length = MIN_DEGREE - 1 ∧
    (nd.split au).2.2.keys.length = MIN_DEGREE - 1 ∧
    (nd.split au).1 = nd.keys.getD (MIN_DEGREE - 1) default := by
  have hMD : MIN_DEGREE = 6 := rfl
  cases nd with
  | mk ks cs a =>
    simp only [Node.keys_mk] at hfull
    have h5 : MIN_DEGREE - 1 < ks.length := by omega
    have hdrop : ks.drop (MIN_DEGREE - 1) = ks.getD (MIN_DEGREE - 1) default ::
        ks.drop MIN_DEGREE := by
      rw [List.getD_eq_getElem _ _ h5]
      have := List.drop_eq_getElem_cons h5
      simpa [hMD] using this
    have hks : ks = ks.take (MIN_DEGREE - 1) ++ ks.getD (MIN_DEGREE - 1) default ::
        ks.drop MIN_DEGREE := by
      conv_lhs => rw [← List.take_append_drop (MIN_DEGREE - 1) ks]
      rw [hdrop]
    have hlt : (ks.take (MIN_DEGREE - 1)).length = MIN_DEGREE - 1 := by
      simp
      omega
    have hld : (ks.drop MIN_DEGREE).length = MIN_DEGREE - 1 := by
      simp
      omega
    cases hg with
    | leaf h1 h2 hs =>
      have hsplit : SortedB lo (some (ks.getD (MIN_DEGREE - 1) default).1)
            (ks.take (MIN_DEGREE - 1)) ∧
          loLt lo (ks.getD (MIN_DEGREE - 1) default).1 ∧
          ltHi (ks.getD (MIN_DEGREE - 1) default).1 hi ∧
          SortedB (some (ks.getD (MIN_DEGREE - 1) default).1) hi
            (ks.drop MIN_DEGREE) := by
        have := hs
        rw [hks] at this
        exact SortedB.append_decomp this
      obtain ⟨hA, hlo', hhi', hB⟩ := hsplit
      rw [Node.split]
      simp only [List.isEmpty_nil, if_pos, Node.keys_mk, Node.children_mk,
        Node.toList_mk, toListAux_nil]
      refine ⟨.leaf (by omega) (by omega) hA, hlo', hhi',
        .leaf (by omega) (by omega) hB, ?_, by simpa using hlt, by simpa using hld,
        trivial⟩
      simpa using hks
    | node h1 h2 hlen hsort hchild =>
      have hseq := seq_of_forall hlen hsort hchild
      have hcs : ¬cs.isEmpty = true := by
        have : cs ≠ [] := hseq.ne_nil
        simpa [List.isEmpty_iff] using this
      obtain ⟨hL, hlo', hhi', hR, hdec⟩ := seqSplitAt (MIN_DEGREE - 1) hseq h5
      have h56 : MIN_DEGREE - 1 + 1 = MIN_DEGREE := by omega
      rw [h56] at hL hR hdec
      rw [Node.split]
      simp only [hcs, Bool.false_eq_true, if_neg, if_false, not_false_iff,
        Node.keys_mk, Node.children_mk, Node.toList_mk]
      refine ⟨Good.ofSeq (by omega) (by omega) hL, hlo', hhi',
        Good.ofSeq (by omega) (by omega) hR, by simpa using hdec,
        by simpa using hlt, by simpa using hld, trivial⟩

/-- Merging two adjacent minimum siblings around a separator pair yields a
well-formed full node with the concatenated flattening (the node built by
`Node::merge_children`). -/
theorem Good.merge_node {h : Nat} {lo hi : Option K} {m : K × V}
    {c1 c2 : Node K V β} (a' : β)
    (hg1 : Good (MIN_DEGREE - 1) h lo (some m.1) c1)
    (hg2 : Good (MIN_DEGREE - 1) h (some m.1) hi c2)
    (hlo : loLt lo m.1) (hhi : ltHi m.1 hi)
    (hn1 : c1.keys.length = MIN_DEGREE - 1) (hn2 : c2.keys.length = MIN_DEGREE - 1) :
    Good (MIN_DEGREE - 1) h lo hi
      (Node.mk (c1.keys.take (MIN_DEGREE - 1) ++ m :: c2.keys.take (MIN_DEGREE - 1))
        (if c1.children.isEmpty then c1.children else c1.children ++ c2.children) a') ∧
    (Node.mk (c1.keys.take (MIN_DEGREE - 1) ++ m :: c2.keys.take (MIN_DEGREE - 1))
        (if c1.children.isEmpty then c1.children else c1.children ++ c2.children)
        a').toList = c1.toList ++ m :: c2.toList ∧
    (c1.keys.take (MIN_DEGREE - 1) ++ m :: c2.keys.take (MIN_DEGREE - 1)).length
      = 2 * MIN_DEGREE - 1 := by
  have hMD : MIN_DEGREE = 6 := rfl
  have ht1 : c1.keys.take (MIN_DEGREE - 1) = c1.keys := by
    rw [List.take_of_length_le (by omega)]
  have ht2 : c2.keys.take (MIN_DEGREE - 1) = c2.keys := by
    rw [List.take_of_length_le (by omega)]
  have hlen : (c1.keys.take (MIN_DEGREE - 1) ++ m :: c2.keys.take (MIN_DEGREE - 1)).length
      = 2 * MIN_DEGREE - 1 := by
    rw [ht1, ht2]
    simp
    omega
  cases c1 with
  | mk ks1 cs1 a1 =>
    cases c2 with
    | mk ks2 cs2 a2 =>
      simp only [Node.keys_mk, Node.children_mk] at ht1 ht2 hn1 hn2 ⊢
      cases h with
      | zero =>
        have hc1 : cs1 = [] := by
          have := hg1.children_zero
          simpa using this
        have hc2 : cs2 = [] := by
          have := hg2.children_zero
          simpa using this
        subst hc1
        subst hc2
        cases hg1 with
        | leaf h1 h2 hs1 =>
          cases hg2 with
          | leaf h1' h2' hs2 =>
            rw [ht1, ht2]
            simp only [List.isEmpty_nil, if_pos]
            have hl : (ks1 ++ m :: ks2).length = 2 * MIN_DEGREE - 1 := by
              simp only [List.length_append, List.length_cons, List.length_nil]
              omega
            refine ⟨.leaf (by omega) (by omega)
              (SortedB.append_recomp hs1 hlo hhi hs2), by simp, hl⟩
      | succ h =>
        have hlen1 := hg1.children_len
        have hne : ¬cs1.isEmpty = true := by
          have : cs1.length = ks1.length + 1 := by simpa using hlen1
          have : cs1 ≠ [] := by
            intro he
            rw [he] at this
            simp at this
          simpa [List.isEmpty_iff] using this
        have hseq1 := hg1.toSeq
        have hseq2 := hg2.toSeq
        rw [ht1, ht2]
        simp only [hne, Bool.false_eq_true, if_neg, if_false, not_false_iff]
        have hseq := Seq.append hseq1 hlo hhi hseq2
        have hl : (ks1 ++ m :: ks2).length = 2 * MIN_DEGREE - 1 := by
          simp only [List.length_append, List.length_cons, List.length_nil]
          omega
        refine ⟨Good.ofSeq (by omega) (by omega) hseq, ?_, hl⟩
        simp only [Node.toList_mk]
        exact toListAux_append hseq1.length_eq

theorem mem_toListAux {p : K × V} : ∀ {cs : List (Node K V β)} {ks : List (K × V)},
    p ∈ ks → p ∈ toListAux cs ks := by
  intro cs ks
  induction ks generalizing cs with
  | nil => intro h; cases h
  | cons k ks' ih =>
    intro hp
    cases cs with
    | nil => simpa using hp
    | cons c cs' =>
      rw [toListAux_cons_cons]
      rcases List.mem_cons.1 hp with rfl | hp'
      · simp
      · have h9 : p ∈ toListAux cs' ks' := ih hp'
        simp [h9]

theorem lookupL_of_mem_sorted {lo hi : Option K} {l : List (K × V)} {p : K × V}
    (hs : SortedB lo hi l) (hp : p ∈ l) : lookupL p.1 l = some p.2 := by
  induction l generalizing lo with
  | nil => cases hp
  | cons q qs ih =>
    cases hs with
    | cons hlo hhi hrest =>
      rcases List.mem_cons.1 hp with rfl | hp'
      · simp
      · by_cases hq : q.1 = p.1
        · obtain ⟨h1, _⟩ := hrest.mem_bounds p hp'
          rw [hq] at h1
          exact absurd (by simpa using h1) (lt_irrefl p.1)
        · simp [hq, ih hrest hp']

/-- `Node::search` returns exactly the association-list lookup of the
subtree's flattening (value component). -/
theorem Node.search_val_spec :
    ∀ {h : Nat} (au : Aug K V β γ) {lb : Nat} {lo hi : Option K} {nd : Node K V β}
      {key : K},
    Good lb h lo hi nd → loLt lo key → ltHi key hi → ∀ acc : γ,
    (nd.search au key acc).1 = lookupL key nd.toList := by
  intro h
  induction h with
  | zero =>
    intro au lb lo hi nd key hg hklo hkhi acc
    obtain ⟨ks, cs, a⟩ := nd
    cases hg with
    | leaf h1 h2 hs =>
      rw [Node.search]
      cases hidx : keyIdx key ks with
      | ok i =>
        simp only [hidx, Node.toList_mk, toListAux_nil, List.isEmpty_nil, if_true]
        simpa using (keyIdx_ok_lookup hs hidx).symm
      | error i =>
        simp only [hidx, Node.toList_mk, toListAux_nil, List.isEmpty_nil]
        simpa using (lookupL_eq_none_of_forall (keyIdx_err_not_mem hs hidx)).symm
  | succ h ih =>
    intro au lb lo hi nd key hg hklo hkhi acc
    obtain ⟨ks, cs, a⟩ := nd
    have hseq := hg.toSeq
    have hsortedList := Seq.sorted
      (fun lo' hi' c hc => Good.toList_sorted hc) hseq
    rw [Node.search]
    cases hidx : keyIdx key ks with
    | ok i =>
      obtain ⟨hilt, hkey, _⟩ := keyIdx_ok_spec hidx
      have hmem : ks.getD i default ∈ ks := by
        rw [List.getD_eq_getElem _ _ hilt]
        exact List.getElem_mem _
      have hl := lookupL_of_mem_sorted hsortedList (mem_toListAux hmem)
      rw [hkey] at hl
      simp only [hidx, Node.toList_mk, if_true]
      simpa using hl.symm
    | error i =>
      obtain ⟨hile, _, _⟩ := keyIdx_err_spec hidx
      have hcsne : ¬cs.isEmpty = true := by
        simpa [List.isEmpty_iff] using hseq.ne_nil
      obtain ⟨hbl, hbr⟩ := keyIdx_err_bounds hidx hklo hkhi
      obtain ⟨A, B, hlt, hdec, hA, hB, _, _, _, _⟩ :=
        seqLoc (fun lo' hi' c hc => Good.toList_sorted hc) i hseq hile
      have hchild := hseq.child i hlt
      have hih := ih au hchild hbl hbr
        (au.visit false i ks (cs.map Node.aug_val) a acc)
      simp only [hidx, hcsne, Bool.false_eq_true, if_false, Node.toList_mk]
      rw [hdec, List.append_assoc]
      rw [lookupL_append_right _
        (fun p hp => ne_of_lt (hA p hp key hbl))]
      rw [lookupL_append_left _
        (fun p hp => (ne_of_lt (hB p hp key hbr)).symm)]
      simpa using hih

theorem getD_insertIdx_lt {α : Type _} {l : List α} {i j : Nat} (x d : α)
    (h : j < i) : (l.insertIdx i x).getD j d = l.getD j d := by
  induction i generalizing l j with
  | zero => omega
  | succ m ih =>
    cases l with
    | nil => rw [List.insertIdx_succ_nil]
    | cons c l' =>
      rw [List.insertIdx_succ_cons]
      cases j with
      | zero => simp
      | succ j' => simpa using ih (by omega)

theorem getD_insertIdx_self {α : Type _} {l : List α} {i : Nat} (x d : α)
    (h : i ≤ l.length) : (l.insertIdx i x).getD i d = x := by
  induction l generalizing i with
  | nil =>
    have : i = 0 := by simpa using h
    subst this
    simp
  | cons c l' ih =>
    cases i with
    | zero => simp
    | succ m =>
      rw [List.insertIdx_succ_cons]
      simpa using ih (by simpa using h)

theorem getD_insertIdx_succ {α : Type _} {l : List α} {i j : Nat} (x d : α)
    (hij : i ≤ j) (hlen : i ≤ l.length) :
    (l.insertIdx i x).getD (j + 1) d = l.getD j d := by
  induction i generalizing l j with
  | zero =>
    rw [List.insertIdx_zero]
    simp
  | succ m ih =>
    cases l with
    | nil => simp at hlen
    | cons c l' =>
      rw [List.insertIdx_succ_cons]
      cases j with
      | zero => omega
      | succ j' =>
        simp only [List.getD_cons_succ]
        exact ih (by omega) (by simpa using hlen)

/-- Inserting at the binary-search insertion point is the sorted insert. -/
theorem insertIdx_eq_insertSorted {k : K} {v : V} {ks : List (K × V)} {i : Nat}
    (hidx : keyIdx k ks = .error i) :
    ks.insertIdx i (k, v) = insertSorted k v ks := by
  induction ks generalizing i with
  | nil =>
    rw [keyIdx] at hidx
    cases hidx
    simp [insertSorted]
  | cons p ps ih =>
    rw [keyIdx] at hidx
    by_cases h1 : p.1 = k
    · simp [h1] at hidx
    · by_cases h2 : k < p.1
      · simp only [h1, h2, if_neg, if_pos, Bool.false_eq_true, not_false_iff] at hidx
        cases hidx
        simp [insertSorted, h2]
      · simp only [h1, h2, if_neg, if_false, Bool.false_eq_true, not_false_iff] at hidx
        cases hrec : keyIdx k ps with
        | ok i' => rw [hrec] at hidx; cases hidx
        | error i' =>
          rw [hrec] at hidx
          cases hidx
          have h2' : ¬k = p.1 := fun he => h1 he.symm
          rw [List.insertIdx_succ_cons]
          simp [insertSorted, h2, h2', ih hrec]

/-- Sorted insert preserves sortedness within unchanged outer bounds. -/
theorem SortedB.insertSorted_sorted {lo hi : Option K} {l : List (K × V)}
    {k : K} (v : V) (hs : SortedB lo hi l) (hklo : loLt lo k) (hkhi : ltHi k hi) :
    SortedB lo hi (insertSorted k v l) := by
  induction l generalizing lo with
  | nil => exact .cons hklo hkhi .nil
  | cons p ps ih =>
    cases hs with
    | cons hlo hhi hrest =>
      by_cases h2 : k < p.1
      · rw [insertSorted, if_pos h2]
        exact .cons hklo hkhi (.cons (by simpa using h2) hhi hrest)
      · by_cases h1 : k = p.1
        · rw [insertSorted, if_neg h2, if_pos h1]
          exact .cons hlo hhi hrest
        · rw [insertSorted, if_neg h2, if_neg h1]
          have hpk : p.1 < k := lt_of_le_of_ne (not_lt.1 h2) (fun he => h1 he.symm)
          exact .cons hlo hhi (ih hrest (by simpa using hpk))

/-- Inserting a key that is already present is a no-op (on sorted lists). -/
theorem insertSorted_eq_self_of_some {lo hi : Option K} {l : List (K × V)}
    {k : K} (v : V) (hs : SortedB lo hi l) (h : lookupL k l ≠ none) :
    insertSorted k v l = l := by
  induction l generalizing lo with
  | nil => simp at h
  | cons p ps ih =>
    cases hs with
    | cons hlo hhi hrest =>
      by_cases h1 : k = p.1
      · rw [insertSorted, if_neg (by rw [h1]; exact lt_irrefl _), if_pos h1]
      · by_cases h2 : k < p.1
        · exfalso
          apply h
          rw [lookupL, if_neg (fun he => h1 he.symm)]
          refine lookupL_eq_none_of_forall ?_
          intro q hq he
          obtain ⟨hq1, _⟩ := hrest.mem_bounds q hq
          rw [he] at hq1
          exact absurd (lt_trans h2 (by simpa using hq1)) (lt_irrefl k)
        · rw [insertSorted, if_neg h2, if_neg h1]
          rw [lookupL, if_neg (fun he => h1 he.symm)] at h
          rw [ih hrest h]

/-- Specification of `Node::split_child` on a well-formed internal node
whose `i`-th child is full: the node stays well-formed with one more key
and child, its flattening is unchanged, and the new key at position `i` is
the median of the old child with two minimum children around it. -/
theorem Good.split_child_spec {lb h : Nat} {lo hi : Option K}
    {ks : List (K × V)} {cs : List (Node K V β)} {a : β} (au : Aug K V β γ)
    (hg : Good lb (h + 1) lo hi (Node.mk ks cs a)) (i : Nat) (hile : i ≤ ks.length)
    (hsz : ks.length ≤ 2 * MIN_DEGREE - 2)
    (hfull : (cs.getD i default).keys.length = 2 * MIN_DEGREE - 1) :
    Good lb (h + 1) lo hi (Node.split_child au i (Node.mk ks cs a)) ∧
    (Node.split_child au i (Node.mk ks cs a)).toList = toListAux cs ks ∧
    (Node.split_child au i (Node.mk ks cs a)).keys = ks.insertIdx i
      ((cs.getD i default).split au).1 ∧
    (Node.split_child au i (Node.mk ks cs a)).children
      = (cs.set i ((cs.getD i default).split au).2.1).insertIdx (i + 1)
        ((cs.getD i default).split au).2.2 ∧
    (Node.split_child au i (Node.mk ks cs a)).aug_val = a := by
  have hseq := hg.toSeq
  have hlt : i < cs.length := by
    rw [hseq.length_eq]
    omega
  have hchild := hseq.child i hlt
  obtain ⟨hgL, hloM, hhiM, hgR, hdecC, hszL, hszR, _⟩ :=
    Good.split_spec au hchild hfull
  obtain ⟨A, B, _, hdec, hA, hB, hset, hseqset, hsplitList, hseqsplit⟩ :=
    seqLoc (fun lo' hi' c hc => Good.toList_sorted hc) i hseq hile
  have hshape : Node.split_child au i (Node.mk ks cs a)
      = Node.mk (ks.insertIdx i ((cs.getD i default).split au).1)
        ((cs.set i ((cs.getD i default).split au).2.1).insertIdx (i + 1)
          ((cs.getD i default).split au).2.2) a := by
    rw [Node.split_child]
    simp [Node.insert_pair, Node.insert_child]
  rw [hshape]
  have hseq' := hseqsplit _ _ _ hgL hloM hhiM hgR
  have hlen' : (ks.insertIdx i ((cs.getD i default).split au).1).length
      = ks.length + 1 := List.length_insertIdx _ _ hile
  obtain ⟨hlb, _⟩ := hg.size_le
  refine ⟨Good.ofSeq ?_ ?_ hseq', ?_, rfl, rfl, rfl⟩
  · simp only [Node.keys_mk] at hlb ⊢
    omega
  · have hMD : MIN_DEGREE = 6 := rfl
    omega
  · simp only [Node.toList_mk]
    rw [hsplitList, hdec, hdecC]
    simp

theorem set_getD_self {α : Type _} {l : List α} {n : Nat} (d : α) :
    l.set n (l.getD n d) = l := by
  induction l generalizing n with
  | nil => rfl
  | cons x xs ih =>
    cases n with
    | zero => simp
    | succ m =>
      simp only [List.getD_cons_succ, List.set_cons_succ]
      rw [ih]

theorem getD_set_self {α : Type _} {l : List α} {n : Nat} (x d : α)
    (h : n < l.length) : (l.set n x).getD n d = x := by
  induction l generalizing n with
  | nil => simp at h
  | cons c l' ih =>
    cases n with
    | zero => simp
    | succ m =>
      simp only [List.set_cons_succ, List.getD_cons_succ]
      exact ih (by simpa using h)

theorem boundL_insertIdx_self {lo : Option K} {ks : List (K × V)} {i : Nat}
    (M : K × V) : boundL lo (ks.insertIdx i M) i = boundL lo ks i := by
  cases i with
  | zero => simp [boundL]
  | succ m =>
    unfold boundL
    rw [if_neg (Nat.succ_ne_zero m), if_neg (Nat.succ_ne_zero m),
      Nat.succ_sub_one, getD_insertIdx_lt _ _ (Nat.lt_succ_self m)]

theorem boundR_insertIdx_self {hi : Option K} {ks : List (K × V)} {i : Nat}
    (M : K × V) (hile : i ≤ ks.length) :
    boundR hi (ks.insertIdx i M) i = some M.1 := by
  unfold boundR
  rw [List.length_insertIdx _ _ hile, if_neg (by omega),
    getD_insertIdx_self _ _ hile]

theorem boundL_insertIdx_succ {lo : Option K} {ks : List (K × V)} {i : Nat}
    (M : K × V) (hile : i ≤ ks.length) :
    boundL lo (ks.insertIdx i M) (i + 1) = some M.1 := by
  unfold boundL
  rw [if_neg (Nat.succ_ne_zero i), Nat.succ_sub_one,
    getD_insertIdx_self _ _ hile]

theorem boundR_insertIdx_succ {hi : Option K} {ks : List (K × V)} {i : Nat}
    (M : K × V) (hile : i ≤ ks.length) :
    boundR hi (ks.insertIdx i M) (i + 1) = boundR hi ks i := by
  unfold boundR
  rw [List.length_insertIdx _ _ hile]
  by_cases he : i = ks.length
  · rw [if_pos (by omega), if_pos he]
  · rw [if_neg (by omega), if_neg he, getD_insertIdx_succ _ _ (le_refl i) hile]

/-- Specification of `Node::insert_non_full` on a non-full well-formed
node: the invariant and height are preserved, the flattening becomes the
sorted insert of the model, and the returned flag is `true` exactly when
the key was absent. -/
theorem Node.insert_non_full_spec :
    ∀ {h : Nat} (au : Aug K V β γ) {lb : Nat} {lo hi : Option K}
      {nd : Node K V β} {k : K} (v : V),
    Good lb h lo hi nd → nd.keys.length ≤ 2 * MIN_DEGREE - 2 →
    loLt lo k → ltHi k hi →
    Good lb h lo hi (nd.insert_non_full au k v).1 ∧
    (nd.insert_non_full au k v).1.toList = insertSorted k v nd.toList ∧
    ((nd.insert_non_full au k v).2 = true ↔ lookupL k nd.toList = none) := by
  intro h
  induction h with
  | zero =>
    intro au lb lo hi nd k v hg hsz hklo hkhi
    obtain ⟨ks, cs, a⟩ := nd
    simp only [Node.keys_mk] at hsz
    cases hg with
    | leaf h1 h2 hs =>
      rw [Node.insert_non_full]
      cases hidx : keyIdx k ks with
      | ok i =>
        have hlk : lookupL k ks = some (ks.getD i default).2 :=
          keyIdx_ok_lookup hs hidx
        refine ⟨.leaf h1 h2 hs, ?_, ?_⟩
        · simp only [Node.toList_mk, toListAux_nil]
          exact (insertSorted_eq_self_of_some v hs (by rw [hlk]; simp)).symm
        · simp only [Node.toList_mk, toListAux_nil, hlk]
          simp
      | error i =>
        obtain ⟨hile, _, _⟩ := keyIdx_err_spec hidx
        have hins : ks.insertIdx i (k, v) = insertSorted k v ks :=
          insertIdx_eq_insertSorted hidx
        have hMD : MIN_DEGREE = 6 := rfl
        refine ⟨?_, ?_, ?_⟩
        · simp only [List.isEmpty_nil, dite_true]
          refine .leaf ?_ ?_ ?_
          · rw [List.length_insertIdx _ _ hile]; omega
          · rw [List.length_insertIdx _ _ hile]; omega
          · rw [hins]
            exact SortedB.insertSorted_sorted v hs hklo hkhi
        · simp only [List.isEmpty_nil, dite_true, Node.toList_mk, toListAux_nil]
          exact hins
        · simp only [List.isEmpty_nil, dite_true, Node.toList_mk, toListAux_nil,
            lookupL_eq_none_of_forall (keyIdx_err_not_mem hs hidx)]
  | succ h ih =>
    intro au lb lo hi nd k v hg hsz hklo hkhi
    obtain ⟨ks, cs, a⟩ := nd
    simp only [Node.keys_mk] at hsz
    have hseq := hg.toSeq
    have hsortedList : SortedB lo hi (toListAux cs ks) := by
      simpa using Seq.sorted (fun lo' hi' c hc => Good.toList_sorted hc) hseq
    have hcsne : ¬cs.isEmpty = true := by
      simpa [List.isEmpty_iff] using hseq.ne_nil
    obtain ⟨hlb0, hub0⟩ := hg.size_le
    simp only [Node.keys_mk] at hlb0 hub0
    rw [Node.insert_non_full]
    cases hidx : keyIdx k ks with
    | ok i =>
      obtain ⟨hilt, hkey, _⟩ := keyIdx_ok_spec hidx
      have hmem : ks.getD i default ∈ ks := by
        rw [List.getD_eq_getElem _ _ hilt]
        exact List.getElem_mem _
      have hlk := lookupL_of_mem_sorted hsortedList (mem_toListAux hmem)
      rw [hkey] at hlk
      refine ⟨hg, ?_, ?_⟩
      · simp only [Node.toList_mk]
        exact (insertSorted_eq_self_of_some v hsortedList (by rw [hlk]; simp)).symm
      · simp only [Node.toList_mk, hlk]
        simp
    | error i =>
      obtain ⟨hile, _, _⟩ := keyIdx_err_spec hidx
      obtain ⟨hbl, hbr⟩ := keyIdx_err_bounds hidx hklo hkhi
      have hlt : i < cs.length := by rw [hseq.length_eq]; omega
      by_cases hfull : (cs.getD i default).is_full = true
      · -- the target child is full: split it first
        have hfull' : (cs.getD i default).keys.length = 2 * MIN_DEGREE - 1 := by
          simpa [Node.is_full] using hfull
        obtain ⟨hg1, hlist1, hks1, hcs1, ha1⟩ :=
          Good.split_child_spec (γ := γ) au hg i hile hsz hfull'
        have hchild := hseq.child i hlt
        obtain ⟨hgL, hloM, hhiM, hgR, hdecC, hszL, hszR, _⟩ :=
          Good.split_spec au hchild hfull'
        have hnd1 : Node.split_child au i (⟨ks, cs, a⟩ : Node K V β)
            = ⟨ks.insertIdx i ((cs.getD i default).split au).1,
              (cs.set i ((cs.getD i default).split au).2.1).insertIdx (i + 1)
                ((cs.getD i default).split au).2.2, a⟩ := by
          rw [Node.split_child]
          simp [Node.insert_pair, Node.insert_child]
        rw [hnd1] at hg1 hlist1
        simp only [Node.toList_mk] at hlist1
        have hMget : (ks.insertIdx i ((cs.getD i default).split au).1).getD i default
            = ((cs.getD i default).split au).1 := getD_insertIdx_self _ _ hile
        simp only [dif_neg hcsne, hfull, if_true, hnd1, Node.keys_mk,
          Node.children_mk, Node.aug_val_mk, hMget]
        by_cases hkeq : k = ((cs.getD i default).split au).1.1
        · rw [if_pos hkeq]
          obtain ⟨A, B, _, hdec, _, _, _, _, _, _⟩ :=
            seqLoc (fun lo' hi' c hc => Good.toList_sorted hc) i hseq hile
          have hMmem : ((cs.getD i default).split au).1 ∈ toListAux cs ks := by
            rw [hdec, hdecC]
            simp
          have hlk := lookupL_of_mem_sorted hsortedList hMmem
          rw [← hkeq] at hlk
          refine ⟨hg1, ?_, ?_⟩
          · simp only [Node.toList_mk, hlist1]
            exact (insertSorted_eq_self_of_some v hsortedList (by rw [hlk]; simp)).symm
          · simp only [Node.toList_mk, hlk]
            simp
        · rw [if_neg hkeq]
          have hseq1 := hg1.toSeq
          obtain ⟨j, hjeq, hjle, hbj1, hbj2, hchsz⟩ :
              ∃ j, (if ((cs.getD i default).split au).1.1 < k then i + 1 else i) = j ∧
                j ≤ (ks.insertIdx i ((cs.getD i default).split au).1).length ∧
                loLt (boundL lo (ks.insertIdx i ((cs.getD i default).split au).1) j) k ∧
                ltHi k (boundR hi (ks.insertIdx i ((cs.getD i default).split au).1) j) ∧
                (((cs.set i ((cs.getD i default).split au).2.1).insertIdx (i + 1)
                  ((cs.getD i default).split au).2.2).getD j default).keys.length
                  ≤ 2 * MIN_DEGREE - 2 := by
            have hMD : MIN_DEGREE = 6 := rfl
            rcases lt_or_gt_of_ne hkeq with hlt2 | hgt2
            · refine ⟨i, if_neg (asymm hlt2), ?_, ?_, ?_, ?_⟩
              · rw [List.length_insertIdx _ _ hile]; omega
              · rw [boundL_insertIdx_self]; exact hbl
              · rw [boundR_insertIdx_self _ hile]; simpa using hlt2
              · rw [getD_insertIdx_lt _ _ (Nat.lt_succ_self i),
                  getD_set_self _ _ (by simpa using hlt), hszL]
                omega
            · refine ⟨i + 1, if_pos hgt2, ?_, ?_, ?_, ?_⟩
              · rw [List.length_insertIdx _ _ hile]; omega
              · rw [boundL_insertIdx_succ _ hile]; simpa using hgt2
              · rw [boundR_insertIdx_succ _ hile]; exact hbr
              · rw [getD_insertIdx_self _ _ (by simpa using hlt), hszR]
                omega
          rw [hjeq]
          obtain ⟨A1, B1, hlt1, hdec1, hA1, hB1, hset1, hseqset1, _, _⟩ :=
            seqLoc (fun lo' hi' c hc => Good.toList_sorted hc) j hseq1 hjle
          have hchild1 := hseq1.child j hlt1
          obtain ⟨hihG, hihL, hihF⟩ := ih au v hchild1 hchsz hbj1 hbj2
          have hlistR : toListAux
              (((cs.set i ((cs.getD i default).split au).2.1).insertIdx (i + 1)
                  ((cs.getD i default).split au).2.2).set j
                ((((cs.set i ((cs.getD i default).split au).2.1).insertIdx (i + 1)
                  ((cs.getD i default).split au).2.2).getD j
                    default).insert_non_full au k v).1)
              (ks.insertIdx i ((cs.getD i default).split au).1)
              = insertSorted k v (toListAux cs ks) := by
            rw [hset1, hihL, List.append_assoc,
              ← insertSorted_append_right v _ (fun p hp => hB1 p hp k hbj2),
              ← insertSorted_append_left v _ (fun p hp => hA1 p hp k hbj1),
              ← List.append_assoc, ← hdec1, hlist1]
          have hlookR : lookupL k (toListAux cs ks)
              = lookupL k
                (((cs.set i ((cs.getD i default).split au).2.1).insertIdx (i + 1)
                    ((cs.getD i default).split au).2.2).getD j default).toList := by
            rw [← hlist1, hdec1, List.append_assoc,
              lookupL_append_right _ (fun p hp => ne_of_lt (hA1 p hp k hbj1)),
              lookupL_append_left _ (fun p hp => (ne_of_lt (hB1 p hp k hbj2)).symm)]
          cases hres : ((((cs.set i ((cs.getD i default).split au).2.1).insertIdx (i + 1)
              ((cs.getD i default).split au).2.2).getD j default).insert_non_full
                au k v).2 with
          | true =>
            rw [if_pos rfl]
            refine ⟨?_, ?_, ?_⟩
            · refine Good.ofSeq ?_ ?_ (hseqset1 _ hihG)
              · rw [List.length_insertIdx _ _ hile]; omega
              · rw [List.length_insertIdx _ _ hile]
                have hMD : MIN_DEGREE = 6 := rfl
                omega
            · simpa using hlistR
            · simp only [Node.toList_mk, hlookR]
              exact iff_of_true trivial (hihF.1 hres)
          | false =>
            rw [if_neg (by simp)]
            refine ⟨?_, ?_, ?_⟩
            · refine Good.ofSeq ?_ ?_ (hseqset1 _ hihG)
              · rw [List.length_insertIdx _ _ hile]; omega
              · rw [List.length_insertIdx _ _ hile]
                have hMD : MIN_DEGREE = 6 := rfl
                omega
            · simpa using hlistR
            · simp only [Node.toList_mk, hlookR]
              refine iff_of_false (by simp) fun hn => ?_
              have h2 := hihF.2 hn
              rw [hres] at h2
              cases h2
      · -- the target child is not full: recurse directly
        have hchild := hseq.child i hlt
        have hchsz : (cs.getD i default).keys.length ≤ 2 * MIN_DEGREE - 2 := by
          have h2 := (hchild.size_le).2
          have hne : ¬(cs.getD i default).keys.length = 2 * MIN_DEGREE - 1 := by
            simpa [Node.is_full] using hfull
          omega
        obtain ⟨A, B, _, hdec, hA, hB, hset, hseqset, _, _⟩ :=
          seqLoc (fun lo' hi' c hc => Good.toList_sorted hc) i hseq hile
        obtain ⟨hihG, hihL, hihF⟩ := ih au v hchild hchsz hbl hbr
        simp only [dif_neg hcsne, hfull, Bool.false_eq_true, if_false]
        have hlistR : toListAux
            (cs.set i ((cs.getD i default).insert_non_full au k v).1) ks
            = insertSorted k v (toListAux cs ks) := by
          rw [hset, hihL, List.append_assoc,
            ← insertSorted_append_right v _ (fun p hp => hB p hp k hbr),
            ← insertSorted_append_left v _ (fun p hp => hA p hp k hbl),
            ← List.append_assoc, ← hdec]
        have hlookR : lookupL k (toListAux cs ks)
            = lookupL k ((cs.getD i default).toList) := by
          rw [hdec, List.append_assoc,
            lookupL_append_right _ (fun p hp => ne_of_lt (hA p hp k hbl)),
            lookupL_append_left _ (fun p hp => (ne_of_lt (hB p hp k hbr)).symm)]
        cases hres : ((cs.getD i default).insert_non_full au k v).2 with
        | true =>
          rw [if_pos rfl]
          refine ⟨Good.ofSeq hlb0 hub0 (hseqset _ hihG), ?_, ?_⟩
          · simpa using hlistR
          · simp only [Node.toList_mk, hlookR]
            exact iff_of_true trivial (hihF.1 hres)
        | false =>
          rw [if_neg (by simp)]
          refine ⟨Good.ofSeq hlb0 hub0 (hseqset _ hihG), ?_, ?_⟩
          · simpa using hlistR
          · simp only [Node.toList_mk, hlookR]
            refine iff_of_false (by simp) fun hn => ?_
            have h2 := hihF.2 hn
            rw [hres] at h2
            cases h2

/-- Decomposition of the flattening around the last child, with the
set-last surgery. -/
theorem seqLast {cs : List (Node K V β)} {ks : List (K × V)}
    (hlen : cs.length = ks.length + 1) :
    ∃ A : List (K × V),
      toListAux cs ks = A ++ (cs.getD ks.length default).toList ∧
      ∀ c' : Node K V β, toListAux (cs.set ks.length c') ks = A ++ c'.toList := by
  induction ks generalizing cs with
  | nil =>
    match cs, hlen with
    | [c], _ => exact ⟨[], by simp, fun c' => by simp⟩
  | cons k ks' ih =>
    match cs, hlen with
    | c :: cs', hlen =>
      obtain ⟨A', h1, h2⟩ := ih (by simpa using hlen)
      refine ⟨c.toList ++ k :: A', ?_, ?_⟩
      · simp [h1]
      · intro c'
        simp [h2 c']

/-- Decomposition of the flattening around the first child, with the
set-first surgery. -/
theorem seqFirst {cs : List (Node K V β)} {ks : List (K × V)}
    (hlen : cs.length = ks.length + 1) :
    ∃ B : List (K × V),
      toListAux cs ks = (cs.getD 0 default).toList ++ B ∧
      ∀ c' : Node K V β, toListAux (cs.set 0 c') ks = c'.toList ++ B := by
  cases ks with
  | nil =>
    match cs, hlen with
    | [c], _ => exact ⟨[], by simp, fun c' => by simp⟩
  | cons k ks' =>
    match cs, hlen with
    | c :: cs', _ =>
      exact ⟨k :: toListAux cs' ks', by simp, fun c' => by simp⟩

/-- Replace the lower bound by any key strictly below every element. -/
theorem SortedB.mono_lo {lo hi : Option K} {l : List (K × V)} {b : K}
    (hs : SortedB lo hi l) (hb : ∀ p ∈ l, b < p.1) :
    SortedB (some b) hi l := by
  cases hs with
  | nil => exact .nil
  | cons hlo hhi hrest =>
    refine .cons ?_ hhi hrest
    simpa using hb _ (List.mem_cons_self _ _)

/-- Replace the upper bound by any key strictly above every element. -/
theorem SortedB.mono_hi {lo hi : Option K} {l : List (K × V)} {b : K}
    (hs : SortedB lo hi l) (hb : ∀ p ∈ l, p.1 < b) :
    SortedB lo (some b) l := by
  induction hs with
  | nil => exact .nil
  | cons hlo hhi hrest ih =>
    refine .cons hlo ?_ ?_
    · simpa using hb _ (List.mem_cons_self _ _)
    · exact ih (fun p hp => hb p (List.mem_cons_of_mem _ hp))

/-- Replace a subtree's lower bound by any key strictly below all its
elements. -/
theorem Good.relax_lo : ∀ {h lb : Nat} {lo hi : Option K} {nd : Node K V β}
    {b : K}, Good lb h lo hi nd → (∀ p ∈ nd.toList, b < p.1) →
    Good lb h (some b) hi nd := by
  intro h
  induction h with
  | zero =>
    intro lb lo hi nd b hg hb
    cases hg with
    | leaf h1 h2 hs =>
      refine .leaf h1 h2 (hs.mono_lo ?_)
      simpa using hb
  | succ h ih =>
    intro lb lo hi nd b hg hb
    obtain ⟨ks, cs, a⟩ := nd
    obtain ⟨h1, h2⟩ := hg.size_le
    refine Good.ofSeq h1 h2 ?_
    simp only [Node.toList_mk] at hb
    have hseq := hg.toSeq
    match cs, ks, hseq with
    | [c], [], .single hc =>
      refine .single (ih hc ?_)
      simpa using hb
    | c :: cs', k :: ks', .cons hc hlo hhi htail =>
      refine .cons (ih hc ?_) ?_ hhi htail
      · intro p hp
        refine hb p ?_
        rw [toListAux_cons_cons]
        exact List.mem_append_left _ hp
      · have := hb k (by rw [toListAux_cons_cons]; simp)
        simpa using this

/-- Replace a subtree's upper bound by any key strictly above all its
elements. -/
theorem Good.relax_hi : ∀ {h lb : Nat} {lo hi : Option K} {nd : Node K V β}
    {b : K}, Good lb h lo hi nd → (∀ p ∈ nd.toList, p.1 < b) →
    Good lb h lo (some b) nd := by
  intro h
  induction h with
  | zero =>
    intro lb lo hi nd b hg hb
    cases hg with
    | leaf h1 h2 hs =>
      refine .leaf h1 h2 (hs.mono_hi ?_)
      simpa using hb
  | succ h ih =>
    intro lb lo hi nd b hg hb
    obtain ⟨ks, cs, a⟩ := nd
    obtain ⟨h1, h2⟩ := hg.size_le
    refine Good.ofSeq h1 h2 ?_
    simp only [Node.toList_mk] at hb
    have hseq := hg.toSeq
    have haux : ∀ {lo' : Option K} {cs' : List (Node K V β)} {ks' : List (K × V)},
        Seq (Good (MIN_DEGREE - 1) h) lo' hi cs' ks' →
        (∀ p ∈ toListAux cs' ks', p.1 < b) →
        Seq (Good (MIN_DEGREE - 1) h) lo' (some b) cs' ks' := by
      intro lo' cs' ks' hs
      clear hg hseq hb
      induction hs with
      | single hc =>
        intro hmem
        refine .single (ih hc ?_)
        simpa using hmem
      | cons hc hlo hhi htail ihs =>
        intro hmem
        refine .cons hc hlo ?_ (ihs ?_)
        · rename_i c k cs2 ks2
          have := hmem k (by rw [toListAux_cons_cons]; simp)
          simpa using this
        · intro p hp
          refine hmem p ?_
          rw [toListAux_cons_cons]
          exact List.mem_append_right _ (List.mem_cons_of_mem _ hp)
    exact haux hseq hb

/-- Strict interval position of each separator key of a sorted list. -/
theorem sorted_sep_bounds {lo hi : Option K} {ks : List (K × V)} :
    ∀ {idx : Nat}, SortedB lo hi ks → idx < ks.length →
    loLt (boundL lo ks idx) (ks.getD idx default).1 ∧
    ltHi (ks.getD idx default).1 (boundR hi ks (idx + 1)) := by
  induction ks generalizing lo with
  | nil =>
    intro idx _ h
    simp at h
  | cons p ps ih =>
    intro idx hs hidx
    cases hs with
    | cons hlo hhi hrest =>
      cases idx with
      | zero =>
        refine ⟨by simpa [boundL_zero] using hlo, ?_⟩
        cases ps with
        | nil =>
          have : boundR hi [p] 1 = hi := by simp [boundR]
          rw [this]
          simpa using hhi
        | cons q qs =>
          have : boundR hi (p :: q :: qs) 1 = some q.1 := by simp [boundR]
          rw [this]
          cases hrest with
          | cons hlo' _ _ => simpa using hlo'
      | succ m =>
        obtain ⟨ha, hb⟩ := ih hrest (by simpa using hidx)
        exact ⟨by rwa [boundL_cons], by rwa [boundR_cons]⟩

/-- Removing the pair at a known index is the model `eraseKey`, and lookup
finds exactly that pair (sorted lists). -/
theorem sorted_getD_erase {lo hi : Option K} {ks : List (K × V)} :
    ∀ {idx : Nat}, SortedB lo hi ks → idx < ks.length →
    eraseKey (ks.getD idx default).1 ks = ks.eraseIdx idx ∧
    lookupL (ks.getD idx default).1 ks = some (ks.getD idx default).2 := by
  induction ks generalizing lo with
  | nil =>
    intro idx _ h
    simp at h
  | cons p ps ih =>
    intro idx hs hidx
    cases hs with
    | cons hlo hhi hrest =>
      cases idx with
      | zero => simp [eraseKey, lookupL]
      | succ m =>
        have hm : m < ps.length := by simpa using hidx
        have hmem : ps.getD m default ∈ ps := by
          rw [List.getD_eq_getElem _ _ hm]
          exact List.getElem_mem _
        have hgt : p.1 < (ps.getD m default).1 := by
          obtain ⟨h1, _⟩ := hrest.mem_bounds _ hmem
          simpa using h1
        obtain ⟨he, hl⟩ := ih hrest hm
        refine ⟨?_, ?_⟩
        · simp only [List.getD_cons_succ, eraseKey, List.eraseIdx_cons_succ]
          rw [if_neg (ne_of_lt hgt), he]
        · simp only [List.getD_cons_succ, lookupL]
          rw [if_neg (ne_of_lt hgt), hl]

/-- A sorted list stays sorted when a middle element is dropped. -/
theorem SortedB.drop_mid {lo hi : Option K} {A B : List (K × V)} {m : K × V}
    (hs : SortedB lo hi (A ++ m :: B)) : SortedB lo hi (A ++ B) := by
  induction A generalizing lo with
  | nil =>
    cases hs with
    | cons hlo hhi hrest =>
      refine hrest.weaken_lo ?_
      intro k hk l hl
      cases hl
      exact lt_trans (by simpa using hlo) (by simpa using hk)
  | cons p ps ih =>
    cases hs with
    | cons hlo hhi hrest => exact .cons hlo hhi (ih hrest)

/-- Specification of `BTree::insert`: on a well-formed tree the result is
well-formed, its flattening is the sorted insert of the old flattening,
and the returned flag is `true` exactly when the key was absent. -/
theorem BTree.insert_spec (au : Aug K V β γ) {h : Nat} {t : BTree K V β}
    {k : K} (v : V) (hg : Good 0 h none none t.root) :
    (∃ h', Good 0 h' none none (t.insert au k v).1.root) ∧
    (t.insert au k v).1.root.toList = insertSorted k v t.root.toList ∧
    ((t.insert au k v).2 = true ↔ lookupL k t.root.toList = none) := by
  have hMD : MIN_DEGREE = 6 := rfl
  rw [BTree.insert]
  by_cases hfull : t.root.is_full = true
  · have hfull' : t.root.keys.length = 2 * MIN_DEGREE - 1 := by
      simpa [Node.is_full] using hfull
    obtain ⟨hgL, hloM, hhiM, hgR, hdecC, hszL, hszR, _⟩ :=
      Good.split_spec au hg hfull'
    have hseqNew : Seq (Good (MIN_DEGREE - 1) h) none none
        [(t.root.split au).2.1, (t.root.split au).2.2] [(t.root.split au).1] :=
      .cons hgL hloM hhiM (.single hgR)
    have hgNew : Good 0 (h + 1) none none
        (⟨[(t.root.split au).1], [(t.root.split au).2.1, (t.root.split au).2.2],
          au.split_root (t.root.split au).1 (t.root.split au).2.1.aug_val
            (t.root.split au).2.2.aug_val⟩ : Node K V β) :=
      Good.ofSeq (by simp) (by simp; omega) hseqNew
    have hlistNew : (⟨[(t.root.split au).1],
        [(t.root.split au).2.1, (t.root.split au).2.2],
        au.split_root (t.root.split au).1 (t.root.split au).2.1.aug_val
          (t.root.split au).2.2.aug_val⟩ : Node K V β).toList
        = t.root.toList := by
      rw [hdecC]
      simp
    obtain ⟨hiG, hiL, hiF⟩ := Node.insert_non_full_spec au v hgNew
      (by simp; omega) (loLt_none k) (ltHi_none k)
    rw [if_pos hfull]
    refine ⟨⟨h + 1, hiG⟩, ?_, ?_⟩
    · rw [hiL, hlistNew]
    · rw [hiF, hlistNew]
  · have hsz : t.root.keys.length ≤ 2 * MIN_DEGREE - 2 := by
      have h2 := hg.size_le.2
      have hne : ¬t.root.keys.length = 2 * MIN_DEGREE - 1 := by
        simpa [Node.is_full] using hfull
      omega
    obtain ⟨hiG, hiL, hiF⟩ := Node.insert_non_full_spec au v hg hsz
      (loLt_none k) (ltHi_none k)
    rw [if_neg hfull]
    exact ⟨⟨h, hiG⟩, hiL, hiF⟩

theorem getD_append_length {α : Type _} (A l : List α) (i : Nat) (d : α) :
    (A ++ l).getD (A.length + i) d = l.getD i d := by
  induction A with
  | nil => simp
  | cons c A' ih => simpa [Nat.succ_add] using ih

theorem getD_eraseIdx_lt {α : Type _} {l : List α} {i j : Nat} (d : α)
    (h : j < i) : (l.eraseIdx i).getD j d = l.getD j d := by
  induction l generalizing i j with
  | nil => simp
  | cons c l' ih =>
    cases i with
    | zero => omega
    | succ m =>
      rw [List.eraseIdx_cons_succ]
      cases j with
      | zero => simp
      | succ j' => simpa using ih (by omega)

theorem getD_eraseIdx_ge {α : Type _} {l : List α} {i j : Nat} (d : α)
    (h : i ≤ j) : (l.eraseIdx i).getD j d = l.getD (j + 1) d := by
  induction l generalizing i j with
  | nil => simp
  | cons c l' ih =>
    cases i with
    | zero => simp
    | succ m =>
      rw [List.eraseIdx_cons_succ]
      cases j with
      | zero => omega
      | succ j' => simpa using ih (by omega)

theorem take_getD_drop {α : Type _} {l : List α} {i : Nat} (d : α)
    (h : i < l.length) :
    l.take i ++ l.getD i d :: l.drop (i + 1) = l := by
  rw [List.getD_eq_getElem _ _ h]
  conv_rhs => rw [← List.take_append_drop i l]
  rw [List.drop_eq_getElem_cons h]

theorem drop_pred_singleton {α : Type _} {l : List α} {n : Nat} (d : α)
    (h : l.length = n + 1) : l.drop n = [l.getD n d] := by
  have h1 : l.drop n = l.getD n d :: l.drop (n + 1) := by
    rw [List.getD_eq_getElem _ _ (by omega)]
    exact List.drop_eq_getElem_cons (by omega)
  rw [h1, List.drop_eq_nil_of_le (by omega)]

theorem eraseIdx_zero_drop {α : Type _} (l : List α) : l.eraseIdx 0 = l.drop 1 := by
  rw [List.eraseIdx_eq_take_drop_succ]
  simp

theorem eraseIdx_pred_take {α : Type _} {l : List α} {n : Nat}
    (h : l.length = n + 1) : l.eraseIdx n = l.take n := by
  rw [List.eraseIdx_eq_take_drop_succ, List.drop_eq_nil_of_le (by omega)]
  simp

/-- Specification of `Node::merge_children` at slot `j` of a well-formed
internal node whose children `j` and `j+1` are both minimal: the separator
and the right child are absorbed into the merged child, the flattening is
unchanged, and any replacement of the merged child that keeps its interval
invariant yields a valid child sequence. -/
theorem Good.merge_children_spec {lb h : Nat} {lo hi : Option K}
    {ks : List (K × V)} {cs : List (Node K V β)} {a : β} (au : Aug K V β γ)
    {j : Nat} (hg : Good lb (h + 1) lo hi (Node.mk ks cs a)) (hj : j < ks.length)
    (hminL : (cs.getD j default).keys.length = MIN_DEGREE - 1)
    (hminR : (cs.getD (j + 1) default).keys.length = MIN_DEGREE - 1) :
    ∃ (M : Node K V β) (A B : List (K × V)),
      Node.merge_children au j (Node.mk ks cs a)
        = Node.mk (ks.eraseIdx j) ((cs.eraseIdx (j + 1)).set j M) a ∧
      Good (MIN_DEGREE - 1) h (boundL lo ks j) (boundR hi ks (j + 1)) M ∧
      M.keys.length = 2 * MIN_DEGREE - 1 ∧
      M.toList = (cs.getD j default).toList ++ (ks.getD j default) ::
        (cs.getD (j + 1) default).toList ∧
      M.keys.getD (MIN_DEGREE - 1) default = ks.getD j default ∧
      toListAux cs ks = A ++ M.toList ++ B ∧
      (∀ p ∈ A, ∀ k' : K, loLt (boundL lo ks j) k' → p.1 < k') ∧
      (∀ p ∈ B, ∀ k' : K, ltHi k' (boundR hi ks (j + 1)) → k' < p.1) ∧
      (∀ M' : Node K V β,
        toListAux ((cs.eraseIdx (j + 1)).set j M') (ks.eraseIdx j)
          = A ++ M'.toList ++ B) ∧
      (∀ M' : Node K V β,
        Good (MIN_DEGREE - 1) h (boundL lo ks j) (boundR hi ks (j + 1)) M' →
        Seq (Good (MIN_DEGREE - 1) h) lo hi ((cs.eraseIdx (j + 1)).set j M')
          (ks.eraseIdx j)) := by
  have hMD : MIN_DEGREE = 6 := rfl
  have hseq := hg.toSeq
  have hlen := hseq.length_eq
  obtain ⟨A, B, hjlt, hdec, hA, hB, _, _, hmergeList, hmergeSeq⟩ :=
    seqAdj (fun lo' hi' c hc => Good.toList_sorted hc) j hseq hj
  have hcL := hseq.child j (by omega)
  have hcR := hseq.child (j + 1) hjlt
  obtain ⟨hsepL, hsepR⟩ := sorted_sep_bounds hg.toSeq.sortedKeys hj
  have hbLR : boundL lo ks (j + 1) = some (ks.getD j default).1 := by
    simp [boundL]
  have hbRj : boundR hi ks j = some (ks.getD j default).1 := by
    unfold boundR
    rw [if_neg (by omega)]
  rw [hbLR] at hcR
  rw [hbRj] at hcL
  obtain ⟨hgM, hlM, hkM⟩ := Good.merge_node
    (au.merge (ks.getD j default) (cs.getD j default).aug_val
      (cs.getD (j + 1) default).aug_val)
    hcL hcR hsepL hsepR hminL hminR
  have hshape : Node.merge_children au j (Node.mk ks cs a)
      = Node.mk (ks.eraseIdx j) ((cs.eraseIdx (j + 1)).set j
          (Node.mk ((cs.getD j default).keys.take (MIN_DEGREE - 1) ++
            (ks.getD j default) ::
              (cs.getD (j + 1) default).keys.take (MIN_DEGREE - 1))
          (if (cs.getD j default).children.isEmpty then
            (cs.getD j default).children
          else (cs.getD j default).children ++ (cs.getD (j + 1) default).children)
          (au.merge (ks.getD j default) (cs.getD j default).aug_val
            (cs.getD (j + 1) default).aug_val))) a := by
    rw [Node.merge_children]
    rw [if_pos ⟨by omega, hj⟩]
  have hgetDM : ((cs.getD j default).keys.take (MIN_DEGREE - 1) ++
      (ks.getD j default) ::
        (cs.getD (j + 1) default).keys.take (MIN_DEGREE - 1)).getD
      (MIN_DEGREE - 1) default = ks.getD j default := by
    have hl5 : ((cs.getD j default).keys.take (MIN_DEGREE - 1)).length
        = MIN_DEGREE - 1 := by
      rw [List.length_take]
      omega
    have := getD_append_length ((cs.getD j default).keys.take (MIN_DEGREE - 1))
      ((ks.getD j default) ::
        (cs.getD (j + 1) default).keys.take (MIN_DEGREE - 1)) 0 default
    rw [hl5] at this
    simpa using this
  refine ⟨_, A, B, hshape, hgM, by simpa using hkM, hlM, hgetDM, ?_, hA, hB,
    hmergeList, hmergeSeq⟩
  rw [hdec, hlM]
  simp [List.append_assoc]

/-- What `Node::make_space` guarantees to its callers: the returned node is
well-formed (with a possibly one-smaller key count), flattens to the same
list, the returned child index is in range and points at a non-minimal
child, the edge slots stay edge slots, and any key strictly inside the
old slot's interval is strictly inside the new slot's interval. -/
def MsOk (lo hi : Option K) (h : Nat) (ks : List (K × V))
    (cs : List (Node K V β)) (idx : Nat) (r : Nat × Node K V β) : Prop :=
  Good 0 (h + 1) lo hi r.2 ∧
  r.2.toList = toListAux cs ks ∧
  ks.length - 1 ≤ r.2.keys.length ∧
  r.2.keys.length ≤ ks.length ∧
  r.1 ≤ r.2.keys.length ∧
  MIN_DEGREE ≤ (r.2.children.getD r.1 default).keys.length ∧
  (idx = ks.length → r.1 = r.2.keys.length) ∧
  (idx = 0 → r.1 = 0) ∧
  ∀ key : K, loLt lo key → ltHi key hi → loLt (boundL lo ks idx) key →
    ltHi key (boundR hi ks idx) →
    loLt (boundL lo r.2.keys r.1) key ∧ ltHi key (boundR hi r.2.keys r.1)

theorem Node.toList_eq (nd : Node K V β) :
    nd.toList = toListAux nd.children nd.keys := by
  cases nd
  rfl

theorem getD_mem {α : Type _} {l : List α} {i : Nat} (d : α) (h : i < l.length) :
    l.getD i d ∈ l := by
  rw [List.getD_eq_getElem _ _ h]
  exact List.getElem_mem _

/-- Branch 1 of `Node::make_space`: steal a key from the left sibling
through the parent. -/
theorem steal_left_ok {lb h : Nat} {lo hi : Option K} {ks : List (K × V)}
    {cs : List (Node K V β)} {a : β} (au : Aug K V β γ) {idx : Nat}
    (hg : Good lb (h + 1) lo hi (Node.mk ks cs a)) (hile : idx ≤ ks.length)
    (hmin : (cs.getD idx default).keys.length = MIN_DEGREE - 1)
    (hc1 : 0 < idx ∧ ¬(cs.getD (idx - 1) default).is_min = true) :
    MsOk lo hi h ks cs idx (Node.make_space au idx (Node.mk ks cs a)) := by
  have h0 := hc1.1
  have hMD : MIN_DEGREE = 6 := rfl
  have hseq := hg.toSeq
  have hlen := hseq.length_eq
  obtain ⟨hlb0, hub0⟩ := hg.size_le
  simp only [Node.keys_mk] at hlb0 hub0
  have hsortKs := hseq.sortedKeys
  have hidx1 : idx - 1 + 1 = idx := by omega
  have hvlen6 : MIN_DEGREE ≤ (cs.getD (idx - 1) default).keys.length := by
    have h5 := (hseq.child (idx - 1) (by omega)).size_le.1
    have hnm := hc1.2
    simp only [Node.is_min, decide_eq_true_eq] at hnm
    omega
  have hv := hseq.child (idx - 1) (by omega)
  have ht := hseq.child idx (by omega)
  have hbR1 : boundR hi ks (idx - 1) = some (ks.getD (idx - 1) default).1 := by
    unfold boundR
    rw [if_neg (by omega)]
  have hbLidx : boundL lo ks idx = some (ks.getD (idx - 1) default).1 := by
    unfold boundL
    rw [if_neg (by omega)]
  rw [hbR1] at hv
  rw [hbLidx] at ht
  obtain ⟨hsepL, hsepR⟩ := sorted_sep_bounds hsortKs
    (show idx - 1 < ks.length by omega)
  rw [hidx1] at hsepR
  have hsibmem : (cs.getD (idx - 1) default).keys.getD
      ((cs.getD (idx - 1) default).keys.length - 1) default
      ∈ (cs.getD (idx - 1) default).keys := getD_mem default (by omega)
  obtain ⟨hslo, hsibpp⟩ := (Good.toList_sorted hv).mem_bounds _
    (by rw [Node.toList_eq]; exact mem_toListAux hsibmem)
  have htub := ht.size_le.2
  obtain ⟨A, B, hjlt, hdec, hA, hB, hpairList, hpairSeq, _, _⟩ :=
    seqAdj (fun lo' hi' c hc => Good.toList_sorted hc) (idx - 1) hseq
      (by omega)
  rw [hidx1] at hjlt hdec hB hpairList hpairSeq
  have hsibhiks : ltHi ((cs.getD (idx - 1) default).keys.getD
      ((cs.getD (idx - 1) default).keys.length - 1) default).1
      (boundR hi ks idx) := by
    intro b hb
    exact lt_trans (by simpa using hsibpp) (hsepR b hb)
  -- the two rebuilt siblings, leaf and internal alike
  have hmain : ∀ V3 T3 : Node K V β,
      Good (MIN_DEGREE - 1) h (boundL lo ks (idx - 1))
        (some ((cs.getD (idx - 1) default).keys.getD
          ((cs.getD (idx - 1) default).keys.length - 1) default).1) V3 →
      Good (MIN_DEGREE - 1) h
        (some ((cs.getD (idx - 1) default).keys.getD
          ((cs.getD (idx - 1) default).keys.length - 1) default).1)
        (boundR hi ks idx) T3 →
      T3.keys.length = MIN_DEGREE →
      V3.toList ++ ((cs.getD (idx - 1) default).keys.getD
          ((cs.getD (idx - 1) default).keys.length - 1) default) :: T3.toList
        = (cs.getD (idx - 1) default).toList ++ (ks.getD (idx - 1) default) ::
          (cs.getD idx default).toList →
      MsOk lo hi h ks cs idx
        (idx, Node.mk (ks.set (idx - 1)
          ((cs.getD (idx - 1) default).keys.getD
            ((cs.getD (idx - 1) default).keys.length - 1) default))
          ((cs.set (idx - 1) V3).set idx T3) a) := by
    intro V3 T3 hV3 hT3 hT3len hflat
    have hseq' := hpairSeq V3
      ((cs.getD (idx - 1) default).keys.getD
        ((cs.getD (idx - 1) default).keys.length - 1) default) T3
      hV3 hslo hsibhiks hT3
    refine ⟨?_, ?_, ?_, ?_, ?_, ?_, ?_, ?_, ?_⟩
    · exact Good.ofSeq (Nat.zero_le _) (by simp [hub0]) hseq'
    · simp only [Node.toList_mk]
      rw [hpairList V3 _ T3, hdec]
      have hcong := congrArg (fun z => A ++ z ++ B) hflat
      simpa [List.append_assoc] using hcong
    · simp
    · simp
    · simp only [Node.keys_mk, List.length_set]
      omega
    · simp only [Node.keys_mk, Node.children_mk]
      rw [getD_set_self _ _ (by simp; omega), hT3len]
    · intro he
      simpa using he
    · intro he
      omega
    · intro key _ _ hkl hkr
      simp only [Node.keys_mk]
      constructor
      · have hb : boundL lo (ks.set (idx - 1)
            ((cs.getD (idx - 1) default).keys.getD
              ((cs.getD (idx - 1) default).keys.length - 1) default)) idx
            = some ((cs.getD (idx - 1) default).keys.getD
              ((cs.getD (idx - 1) default).keys.length - 1) default).1 := by
          unfold boundL
          rw [if_neg (by omega)]
          rw [getD_set_self _ _ (by omega)]
        rw [hb]
        intro b hb'
        cases hb'
        rw [hbLidx] at hkl
        exact lt_trans (by simpa using hsibpp) (by simpa using hkl)
      · have hb : boundR hi (ks.set (idx - 1)
            ((cs.getD (idx - 1) default).keys.getD
              ((cs.getD (idx - 1) default).keys.length - 1) default)) idx
            = boundR hi ks idx := by
          unfold boundR
          rw [List.length_set]
          by_cases he : idx = ks.length
          · rw [if_pos he, if_pos he]
          · rw [if_neg he, if_neg he, getD_set_ne _ _ (by omega)]
        rw [hb]
        exact hkr
  have hvub := hv.size_le.2
  rw [Node.make_space, if_pos hc1]
  cases h with
  | zero =>
    have hvc0 : (cs.getD (idx - 1) default).children = [] := hv.children_zero
    have htc0 : (cs.getD idx default).children = [] := ht.children_zero
    have hv0 : Good (MIN_DEGREE - 1) 0 (boundL lo ks (idx - 1))
        (some (ks.getD (idx - 1) default).1)
        (Node.mk (cs.getD (idx - 1) default).keys []
          (cs.getD (idx - 1) default).aug_val) := by
      rw [← hvc0, Node.mk_keys_children_aug]
      exact hv
    have ht0 : Good (MIN_DEGREE - 1) 0 (some (ks.getD (idx - 1) default).1)
        (boundR hi ks idx)
        (Node.mk (cs.getD idx default).keys []
          (cs.getD idx default).aug_val) := by
      rw [← htc0, Node.mk_keys_children_aug]
      exact ht
    simp only [Node.remove_pair_fst, Node.remove_pair_keys,
      Node.remove_pair_children, Node.keys_mk, Node.children_mk,
      Node.aug_val_mk, hvc0, htc0, List.isEmpty_nil, if_true, Node.insert_pair,
      Node.insert_pair_keys, Node.insert_pair_children, Node.insert_pair_aug,
      List.insertIdx_zero, Option.map_none']
    cases hv0 with
    | leaf hv1 hv2 hvs =>
      cases ht0 with
      | leaf ht1 ht2 hts =>
        have hvdecomp : (cs.getD (idx - 1) default).keys.take
            ((cs.getD (idx - 1) default).keys.length - 1) ++
            [(cs.getD (idx - 1) default).keys.getD
              ((cs.getD (idx - 1) default).keys.length - 1) default]
            = (cs.getD (idx - 1) default).keys := by
          have := take_getD_drop (l := (cs.getD (idx - 1) default).keys)
            default (show (cs.getD (idx - 1) default).keys.length - 1
              < (cs.getD (idx - 1) default).keys.length by omega)
          rw [List.drop_eq_nil_of_le (by omega)] at this
          simpa using this
        have hvs' : SortedB (boundL lo ks (idx - 1))
            (some (ks.getD (idx - 1) default).1)
            ((cs.getD (idx - 1) default).keys.take
              ((cs.getD (idx - 1) default).keys.length - 1) ++
              ((cs.getD (idx - 1) default).keys.getD
                ((cs.getD (idx - 1) default).keys.length - 1) default) :: []) := by
          rw [← hvdecomp] at hvs
          simpa using hvs
        obtain ⟨hsA, hslo', hshi', _⟩ := SortedB.append_decomp hvs'
        have herase : (cs.getD (idx - 1) default).keys.eraseIdx
            ((cs.getD (idx - 1) default).keys.length - 1)
            = (cs.getD (idx - 1) default).keys.take
              ((cs.getD (idx - 1) default).keys.length - 1) :=
          eraseIdx_pred_take (by omega)
        refine hmain _ _ ?_ ?_ ?_ ?_
        · refine .leaf ?_ ?_ ?_
          · simp only [Node.keys_mk, herase, List.length_take]
            omega
          · simp only [Node.keys_mk, herase, List.length_take]
            omega
          · simp only [Node.keys_mk, herase]
            exact hsA
        · refine .leaf ?_ ?_ ?_
          · try simp only [Node.keys_mk, List.insertIdx_zero, List.length_cons]
            omega
          · try simp only [Node.keys_mk, List.insertIdx_zero, List.length_cons]
            omega
          · try simp only [Node.keys_mk, List.insertIdx_zero]
            refine .cons ?_ hsepR hts
            intro b hb
            cases hb
            simpa using hsibpp
        · try simp only [Node.keys_mk, List.insertIdx_zero, List.length_cons, hmin]
          omega
        · simp only [Node.toList_mk, toListAux_nil, Node.toList_eq, hvc0, htc0, List.insertIdx_zero]
          rw [herase]
          conv_rhs => rw [← hvdecomp]
          simp
  | succ h' =>
    have hvclen : (cs.getD (idx - 1) default).children.length
        = (cs.getD (idx - 1) default).keys.length + 1 := hv.children_len
    have htclen : (cs.getD idx default).children.length
        = (cs.getD idx default).keys.length + 1 := ht.children_len
    have hvcne : (cs.getD (idx - 1) default).children.isEmpty = false := by
      rw [List.isEmpty_eq_false]
      intro he
      rw [he] at hvclen
      simp at hvclen
    have hv' : Good (MIN_DEGREE - 1) (h' + 1) (boundL lo ks (idx - 1))
        (some (ks.getD (idx - 1) default).1)
        (Node.mk (cs.getD (idx - 1) default).keys
          (cs.getD (idx - 1) default).children
          (cs.getD (idx - 1) default).aug_val) := by
      rw [Node.mk_keys_children_aug]
      exact hv
    have ht' : Good (MIN_DEGREE - 1) (h' + 1)
        (some (ks.getD (idx - 1) default).1) (boundR hi ks idx)
        (Node.mk (cs.getD idx default).keys (cs.getD idx default).children
          (cs.getD idx default).aug_val) := by
      rw [Node.mk_keys_children_aug]
      exact ht
    have hvseq := hv'.toSeq
    have htseq := ht'.toSeq
    have hn1 : (cs.getD (idx - 1) default).keys.length - 1 + 1
        = (cs.getD (idx - 1) default).keys.length := by omega
    obtain ⟨hvL, hslo2, hshi2, hvR, hvflat⟩ := seqSplitAt
      ((cs.getD (idx - 1) default).keys.length - 1) hvseq (by omega)
    rw [hn1] at hvL hvR hvflat
    have hvdrop : (cs.getD (idx - 1) default).keys.drop
        ((cs.getD (idx - 1) default).keys.length) = [] :=
      List.drop_eq_nil_of_le (le_refl _)
    have hvcdrop : (cs.getD (idx - 1) default).children.drop
        ((cs.getD (idx - 1) default).keys.length)
        = [(cs.getD (idx - 1) default).children.getD
            ((cs.getD (idx - 1) default).children.length - 1) default] := by
      have := drop_pred_singleton (l := (cs.getD (idx - 1) default).children)
        default hvclen
      rw [this]
      have he : (cs.getD (idx - 1) default).children.length - 1
          = (cs.getD (idx - 1) default).keys.length := by omega
      rw [he]
    rw [hvdrop, hvcdrop] at hvR hvflat
    have hstolengood : Good (MIN_DEGREE - 1) h'
        (some ((cs.getD (idx - 1) default).keys.getD
          ((cs.getD (idx - 1) default).keys.length - 1) default).1)
        (some (ks.getD (idx - 1) default).1)
        ((cs.getD (idx - 1) default).children.getD
          ((cs.getD (idx - 1) default).children.length - 1) default) := by
      cases hvR with
      | single hc => exact hc
    have htake : (cs.getD (idx - 1) default).children.take
        ((cs.getD (idx - 1) default).keys.length)
        = (cs.getD (idx - 1) default).children.dropLast := by
      rw [List.dropLast_eq_take, hvclen]
      simp
    have herase : (cs.getD (idx - 1) default).keys.eraseIdx
        ((cs.getD (idx - 1) default).keys.length - 1)
        = (cs.getD (idx - 1) default).keys.take
          ((cs.getD (idx - 1) default).keys.length - 1) :=
      eraseIdx_pred_take (by omega)
    rw [htake] at hvL hvflat
    simp only [Node.remove_pair_fst, Node.remove_pair_keys,
      Node.remove_pair_children, Node.keys_mk, Node.children_mk,
      Node.aug_val_mk, hvcne, Bool.false_eq_true, if_false, Node.insert_pair,
      Node.insert_pair_keys, Node.insert_pair_children, Node.insert_pair_aug,
      List.insertIdx_zero, Option.map_some']
    refine hmain _ _ ?_ ?_ ?_ ?_
    · refine Good.ofSeq ?_ ?_ ?_
      · simp only [Node.keys_mk, herase, List.length_take]
        omega
      · simp only [Node.keys_mk, herase, List.length_take]
        omega
      · simp only [Node.keys_mk, Node.children_mk, herase]
        exact hvL
    · refine Good.ofSeq ?_ ?_ ?_
      · try simp only [Node.keys_mk, List.insertIdx_zero, List.length_cons]
        omega
      · try simp only [Node.keys_mk, List.insertIdx_zero, List.length_cons]
        omega
      · try simp only [Node.keys_mk, Node.children_mk, List.insertIdx_zero]
        refine .cons hstolengood ?_ hsepR htseq
        intro b hb
        cases hb
        simpa using hsibpp
    · try simp only [Node.keys_mk, List.insertIdx_zero, List.length_cons, hmin]
      omega
    · simp only [Node.toList_mk, Node.toList_eq, List.insertIdx_zero]
      rw [herase, hvflat]
      simp [List.append_assoc]

/-- Branch 2 of `Node::make_space`: steal a key from the right sibling
through the parent. -/
theorem steal_right_ok {lb h : Nat} {lo hi : Option K} {ks : List (K × V)}
    {cs : List (Node K V β)} {a : β} (au : Aug K V β γ) {idx : Nat}
    (hg : Good lb (h + 1) lo hi (Node.mk ks cs a))
    (hmin : (cs.getD idx default).keys.length = MIN_DEGREE - 1)
    (hnc1 : ¬(0 < idx ∧ ¬(cs.getD (idx - 1) default).is_min = true))
    (hc2 : idx < ks.length ∧ ¬(cs.getD (idx + 1) default).is_min = true) :
    MsOk lo hi h ks cs idx (Node.make_space au idx (Node.mk ks cs a)) := by
  have hilt := hc2.1
  have hMD : MIN_DEGREE = 6 := rfl
  have hseq := hg.toSeq
  have hlen := hseq.length_eq
  obtain ⟨hlb0, hub0⟩ := hg.size_le
  simp only [Node.keys_mk] at hlb0 hub0
  have hsortKs := hseq.sortedKeys
  have hvlen6 : MIN_DEGREE ≤ (cs.getD (idx + 1) default).keys.length := by
    have h5 := (hseq.child (idx + 1) (by omega)).size_le.1
    have hnm := hc2.2
    simp only [Node.is_min, decide_eq_true_eq] at hnm
    omega
  have ht := hseq.child idx (by omega)
  have hv := hseq.child (idx + 1) (by omega)
  have hbRt : boundR hi ks idx = some (ks.getD idx default).1 := by
    unfold boundR
    rw [if_neg (by omega)]
  have hbLv : boundL lo ks (idx + 1) = some (ks.getD idx default).1 := by
    unfold boundL
    rw [if_neg (by omega)]
    simp
  rw [hbRt] at ht
  rw [hbLv] at hv
  obtain ⟨hsepL, hsepR⟩ := sorted_sep_bounds hsortKs hilt
  have hsibmem : (cs.getD (idx + 1) default).keys.getD 0 default
      ∈ (cs.getD (idx + 1) default).keys := getD_mem default (by omega)
  obtain ⟨hppsib, hsibhi⟩ := (Good.toList_sorted hv).mem_bounds _
    (by rw [Node.toList_eq]; exact mem_toListAux hsibmem)
  have hvub := hv.size_le.2
  obtain ⟨A, B, hjlt, hdec, hA, hB, hpairList, hpairSeq, _, _⟩ :=
    seqAdj (fun lo' hi' c hc => Good.toList_sorted hc) idx hseq hilt
  have hsibloks : loLt (boundL lo ks idx)
      ((cs.getD (idx + 1) default).keys.getD 0 default).1 := by
    intro b hb
    exact lt_trans (hsepL b hb) (by simpa using hppsib)
  have hmain : ∀ T3 V3 : Node K V β,
      Good (MIN_DEGREE - 1) h (boundL lo ks idx)
        (some ((cs.getD (idx + 1) default).keys.getD 0 default).1) T3 →
      Good (MIN_DEGREE - 1) h
        (some ((cs.getD (idx + 1) default).keys.getD 0 default).1)
        (boundR hi ks (idx + 1)) V3 →
      T3.keys.length = MIN_DEGREE →
      T3.toList ++ ((cs.getD (idx + 1) default).keys.getD 0 default) :: V3.toList
        = (cs.getD idx default).toList ++ (ks.getD idx default) ::
          (cs.getD (idx + 1) default).toList →
      MsOk lo hi h ks cs idx
        (idx, Node.mk (ks.set idx ((cs.getD (idx + 1) default).keys.getD 0 default))
          ((cs.set (idx + 1) V3).set idx T3) a) := by
    intro T3 V3 hT3 hV3 hT3len hflat
    have hseq' := hpairSeq T3 ((cs.getD (idx + 1) default).keys.getD 0 default) V3
      hT3 hsibloks hsibhi hV3
    have hcomm : (cs.set (idx + 1) V3).set idx T3 = (cs.set idx T3).set (idx + 1) V3 :=
      List.set_comm V3 T3 cs (by omega)
    refine ⟨?_, ?_, ?_, ?_, ?_, ?_, ?_, ?_, ?_⟩
    · rw [hcomm]
      exact Good.ofSeq (Nat.zero_le _) (by simp [hub0]) hseq'
    · simp only [Node.toList_mk]
      rw [hcomm, hpairList T3 _ V3, hdec]
      have hcong := congrArg (fun z => A ++ z ++ B) hflat
      simpa [List.append_assoc] using hcong
    · simp
    · simp
    · simp only [Node.keys_mk, List.length_set]
      omega
    · simp only [Node.keys_mk, Node.children_mk]
      rw [getD_set_self _ _ (by simp; omega), hT3len]
    · intro he
      omega
    · intro he
      exact he
    · intro key _ _ hkl hkr
      simp only [Node.keys_mk]
      constructor
      · have hb : boundL lo (ks.set idx
            ((cs.getD (idx + 1) default).keys.getD 0 default)) idx
            = boundL lo ks idx := by
          unfold boundL
          by_cases h0 : idx = 0
          · rw [if_pos h0, if_pos h0]
          · rw [if_neg h0, if_neg h0, getD_set_ne _ _ (by omega)]
        rw [hb]
        exact hkl
      · have hb : boundR hi (ks.set idx
            ((cs.getD (idx + 1) default).keys.getD 0 default)) idx
            = some ((cs.getD (idx + 1) default).keys.getD 0 default).1 := by
          unfold boundR
          rw [List.length_set, if_neg (by omega), getD_set_self _ _ (by omega)]
        rw [hb]
        intro b hb'
        cases hb'
        rw [hbRt] at hkr
        exact lt_trans (by simpa using hkr) (by simpa using hppsib)
  rw [Node.make_space, if_neg hnc1, if_pos hc2]
  cases h with
  | zero =>
    have hvc0 : (cs.getD (idx + 1) default).children = [] := hv.children_zero
    have htc0 : (cs.getD idx default).children = [] := ht.children_zero
    have hv0 : Good (MIN_DEGREE - 1) 0 (some (ks.getD idx default).1)
        (boundR hi ks (idx + 1))
        (Node.mk (cs.getD (idx + 1) default).keys []
          (cs.getD (idx + 1) default).aug_val) := by
      rw [← hvc0, Node.mk_keys_children_aug]
      exact hv
    have ht0 : Good (MIN_DEGREE - 1) 0 (boundL lo ks idx)
        (some (ks.getD idx default).1)
        (Node.mk (cs.getD idx default).keys []
          (cs.getD idx default).aug_val) := by
      rw [← htc0, Node.mk_keys_children_aug]
      exact ht
    simp only [Node.remove_pair_fst, Node.remove_pair_keys,
      Node.remove_pair_children, Node.keys_mk, Node.children_mk,
      Node.aug_val_mk, hvc0, htc0, List.isEmpty_nil, if_true, Node.insert_pair,
      List.insertIdx_length_self, Option.map_none']
    cases hv0 with
    | leaf hv1 hv2 hvs =>
      cases ht0 with
      | leaf ht1 ht2 hts =>
        have hcons0 : (cs.getD (idx + 1) default).keys.getD 0 default ::
            (cs.getD (idx + 1) default).keys.drop 1
            = (cs.getD (idx + 1) default).keys := by
          have := take_getD_drop (l := (cs.getD (idx + 1) default).keys) (i := 0)
            default (by omega)
          simpa using this
        have herase0 : (cs.getD (idx + 1) default).keys.eraseIdx 0
            = (cs.getD (idx + 1) default).keys.drop 1 :=
          eraseIdx_zero_drop _
        have hvs' : SortedB (some (ks.getD idx default).1)
            (boundR hi ks (idx + 1))
            ((cs.getD (idx + 1) default).keys.getD 0 default ::
              (cs.getD (idx + 1) default).keys.drop 1) := by
          rw [hcons0]
          exact hvs
        cases hvs' with
        | cons hlo1 hhi1 hrest =>
          refine hmain _ _ ?_ ?_ ?_ ?_
          · refine .leaf ?_ ?_ ?_
            · simp only [Node.keys_mk, List.length_append, List.length_cons, List.length_nil]
              omega
            · simp only [Node.keys_mk, List.length_append, List.length_cons, List.length_nil]
              omega
            · try simp only [Node.keys_mk]
              exact SortedB.append_recomp hts hsepL
                (by intro b hb; cases hb; simpa using hlo1) .nil
          · refine .leaf ?_ ?_ ?_
            · simp only [Node.keys_mk, herase0, List.length_drop]
              omega
            · simp only [Node.keys_mk, herase0, List.length_drop]
              omega
            · simp only [Node.keys_mk, herase0]
              exact hrest
          · simp only [Node.keys_mk, List.length_append, List.length_cons, List.length_nil, hmin]
            omega
          · simp only [Node.toList_mk, toListAux_nil, Node.toList_eq, hvc0, htc0,
              herase0]
            conv_rhs => rw [← hcons0]
            simp
  | succ h' =>
    have hvclen : (cs.getD (idx + 1) default).children.length
        = (cs.getD (idx + 1) default).keys.length + 1 := hv.children_len
    have hvcne : (cs.getD (idx + 1) default).children.isEmpty = false := by
      rw [List.isEmpty_eq_false]
      intro he
      rw [he] at hvclen
      simp at hvclen
    have hv' : Good (MIN_DEGREE - 1) (h' + 1) (some (ks.getD idx default).1)
        (boundR hi ks (idx + 1))
        (Node.mk (cs.getD (idx + 1) default).keys
          (cs.getD (idx + 1) default).children
          (cs.getD (idx + 1) default).aug_val) := by
      rw [Node.mk_keys_children_aug]
      exact hv
    have ht' : Good (MIN_DEGREE - 1) (h' + 1) (boundL lo ks idx)
        (some (ks.getD idx default).1)
        (Node.mk (cs.getD idx default).keys (cs.getD idx default).children
          (cs.getD idx default).aug_val) := by
      rw [Node.mk_keys_children_aug]
      exact ht
    have hvseq := hv'.toSeq
    have htseq := ht'.toSeq
    obtain ⟨hvL, hslo2, hshi2, hvR, hvflat⟩ := seqSplitAt 0 hvseq (by omega)
    have hvt1 : (cs.getD (idx + 1) default).children.take 1
        = [(cs.getD (idx + 1) default).children.getD 0 default] := by
      cases hcseq : (cs.getD (idx + 1) default).children with
      | nil => rw [hcseq] at hvclen; simp at hvclen
      | cons c cr => simp
    rw [hvt1] at hvL hvflat
    have hstolengood : Good (MIN_DEGREE - 1) h'
        (some (ks.getD idx default).1)
        (some ((cs.getD (idx + 1) default).keys.getD 0 default).1)
        ((cs.getD (idx + 1) default).children.getD 0 default) := by
      cases hvL with
      | single hc => exact hc
    have herase0 : (cs.getD (idx + 1) default).keys.eraseIdx 0
        = (cs.getD (idx + 1) default).keys.drop 1 :=
      eraseIdx_zero_drop _
    simp only [Node.remove_pair_fst, Node.remove_pair_keys,
      Node.remove_pair_children, Node.keys_mk, Node.children_mk,
      Node.aug_val_mk, hvcne, Bool.false_eq_true, if_false, Node.insert_pair,
      List.insertIdx_length_self, Option.map_some']
    refine hmain _ _ ?_ ?_ ?_ ?_
    · refine Good.ofSeq ?_ ?_ ?_
      · simp only [Node.keys_mk, List.length_append, List.length_cons, List.length_nil]
        omega
      · simp only [Node.keys_mk, List.length_append, List.length_cons, List.length_nil]
        omega
      · try simp only [Node.keys_mk, Node.children_mk]
        exact Seq.append htseq hsepL
          (by intro b hb; cases hb; simpa using hppsib) (.single hstolengood)
    · refine Good.ofSeq ?_ ?_ ?_
      · simp only [Node.keys_mk, herase0, List.length_drop]
        omega
      · simp only [Node.keys_mk, herase0, List.length_drop]
        omega
      · simp only [Node.keys_mk, Node.children_mk, herase0]
        simpa using hvR
    · simp only [Node.keys_mk, List.length_append, List.length_cons, List.length_nil, hmin]
      omega
    · have htclen : (cs.getD idx default).children.length
          = (cs.getD idx default).keys.length + 1 := ht.children_len
      simp only [Node.toList_mk, Node.toList_eq, Node.keys_mk, Node.children_mk,
        herase0]
      rw [toListAux_append htclen, hvflat]
      simp [List.append_assoc]

/-- Branch 3 of `Node::make_space`: merge with the left sibling. -/
theorem merge_left_ok {lb h : Nat} {lo hi : Option K} {ks : List (K × V)}
    {cs : List (Node K V β)} {a : β} (au : Aug K V β γ) {idx : Nat}
    (hg : Good lb (h + 1) lo hi (Node.mk ks cs a)) (hile : idx ≤ ks.length)
    (hmin : (cs.getD idx default).keys.length = MIN_DEGREE - 1)
    (hnc1 : ¬(0 < idx ∧ ¬(cs.getD (idx - 1) default).is_min = true))
    (hnc2 : ¬(idx < ks.length ∧ ¬(cs.getD (idx + 1) default).is_min = true))
    (h0 : 0 < idx) :
    MsOk lo hi h ks cs idx (Node.make_space au idx (Node.mk ks cs a)) := by
  have hMD : MIN_DEGREE = 6 := rfl
  have hseq := hg.toSeq
  have hlen := hseq.length_eq
  obtain ⟨hlb0, hub0⟩ := hg.size_le
  simp only [Node.keys_mk] at hlb0 hub0
  have hsortKs := hseq.sortedKeys
  have hidx1 : idx - 1 + 1 = idx := by omega
  have hminL : (cs.getD (idx - 1) default).keys.length = MIN_DEGREE - 1 := by
    have h5 := (hseq.child (idx - 1) (by omega)).size_le.1
    have hm : (cs.getD (idx - 1) default).is_min = true := by
      by_contra hc
      exact hnc1 ⟨h0, hc⟩
    simp only [Node.is_min, decide_eq_true_eq] at hm
    omega
  have hminR : (cs.getD (idx - 1 + 1) default).keys.length = MIN_DEGREE - 1 := by
    rw [hidx1]
    exact hmin
  obtain ⟨M, A, B, hshape, hgM, hkM, hlM, hgetDM, hflat, hA, hB, hList', hSeq'⟩ :=
    Good.merge_children_spec au hg (show idx - 1 < ks.length by omega) hminL hminR
  have hlen' : (ks.eraseIdx (idx - 1)).length = ks.length - 1 :=
    List.length_eraseIdx_of_lt (by omega)
  have hclen' : (cs.eraseIdx (idx - 1 + 1)).length = cs.length - 1 :=
    List.length_eraseIdx_of_lt (by omega)
  rw [Node.make_space, if_neg hnc1, if_neg hnc2, if_pos h0, hshape]
  refine ⟨?_, ?_, ?_, ?_, ?_, ?_, ?_, ?_, ?_⟩
  · refine Good.ofSeq (Nat.zero_le _) ?_ (hSeq' M hgM)
    simp only [hlen']
    omega
  · simp only [Node.toList_mk]
    rw [hList' M, ← hflat]
  · simp only [Node.keys_mk, hlen']
    omega
  · simp only [Node.keys_mk, hlen']
    omega
  · simp only [Node.keys_mk, hlen']
    omega
  · simp only [Node.keys_mk, Node.children_mk]
    rw [getD_set_self _ _ (by rw [hclen']; omega), hkM]
    omega
  · intro he
    simp only [Node.keys_mk, hlen']
    omega
  · intro he
    omega
  · intro key hklo hkhi hkl hkr
    have hbl0 : boundL lo ks idx = some (ks.getD (idx - 1) default).1 := by
      unfold boundL
      rw [if_neg (by omega)]
    rw [hbl0] at hkl
    simp only [Node.keys_mk]
    constructor
    · by_cases h1 : idx - 1 = 0
      · rw [boundL, if_pos h1]
        exact hklo
      · obtain ⟨hsL, _⟩ := sorted_sep_bounds hsortKs
          (show idx - 1 < ks.length by omega)
        rw [show boundL lo ks (idx - 1)
            = some (ks.getD (idx - 1 - 1) default).1 from by
          unfold boundL; rw [if_neg h1]] at hsL
        unfold boundL
        rw [if_neg h1, getD_eraseIdx_lt _ (by omega)]
        intro b hb
        cases hb
        exact lt_trans (by simpa using hsL) (by simpa using hkl)
    · by_cases h2 : idx - 1 = ks.length - 1
      · unfold boundR
        rw [hlen', if_pos h2]
        exact hkhi
      · have hiltn : idx < ks.length := by omega
        rw [show boundR hi ks idx = some (ks.getD idx default).1 from by
          unfold boundR; rw [if_neg (by omega)]] at hkr
        unfold boundR
        rw [hlen', if_neg h2, getD_eraseIdx_ge _ (le_refl _), hidx1]
        exact hkr

/-- Branch 4 of `Node::make_space`: merge with the right sibling (only
reachable at child slot `0`). -/
theorem merge_right_ok {lb h : Nat} {lo hi : Option K} {ks : List (K × V)}
    {cs : List (Node K V β)} {a : β} (au : Aug K V β γ) {idx : Nat}
    (hg : Good lb (h + 1) lo hi (Node.mk ks cs a)) (hks1 : 1 ≤ ks.length)
    (hmin : (cs.getD idx default).keys.length = MIN_DEGREE - 1)
    (hnc1 : ¬(0 < idx ∧ ¬(cs.getD (idx - 1) default).is_min = true))
    (hnc2 : ¬(idx < ks.length ∧ ¬(cs.getD (idx + 1) default).is_min = true))
    (hn0 : ¬0 < idx) :
    MsOk lo hi h ks cs idx (Node.make_space au idx (Node.mk ks cs a)) := by
  have hi0 : idx = 0 := by omega
  subst hi0
  have hMD : MIN_DEGREE = 6 := rfl
  have hseq := hg.toSeq
  have hlen := hseq.length_eq
  obtain ⟨hlb0, hub0⟩ := hg.size_le
  simp only [Node.keys_mk] at hlb0 hub0
  have hsortKs := hseq.sortedKeys
  have hminR : (cs.getD (0 + 1) default).keys.length = MIN_DEGREE - 1 := by
    have h5 := (hseq.child 1 (by omega)).size_le.1
    have h5' : MIN_DEGREE - 1 ≤ (cs.getD (0 + 1) default).keys.length := by
      simpa using h5
    have hm : (cs.getD (0 + 1) default).is_min = true := by
      by_contra hc
      exact hnc2 ⟨by omega, hc⟩
    simp only [Node.is_min, decide_eq_true_eq] at hm
    omega
  obtain ⟨M, A, B, hshape, hgM, hkM, hlM, hgetDM, hflat, hA, hB, hList', hSeq'⟩ :=
    Good.merge_children_spec au hg (show (0 : Nat) < ks.length by omega) hmin hminR
  have hlen' : (ks.eraseIdx 0).length = ks.length - 1 :=
    List.length_eraseIdx_of_lt (by omega)
  have hclen' : (cs.eraseIdx (0 + 1)).length = cs.length - 1 :=
    List.length_eraseIdx_of_lt (by omega)
  rw [Node.make_space, if_neg hnc1, if_neg hnc2, if_neg hn0, hshape]
  refine ⟨?_, ?_, ?_, ?_, ?_, ?_, ?_, ?_, ?_⟩
  · refine Good.ofSeq (Nat.zero_le _) ?_ (hSeq' M hgM)
    simp only [hlen']
    omega
  · simp only [Node.toList_mk]
    rw [hList' M, ← hflat]
  · simp only [Node.keys_mk, hlen']
    omega
  · simp only [Node.keys_mk, hlen']
    omega
  · simp only [Node.keys_mk]
    omega
  · simp only [Node.keys_mk, Node.children_mk]
    rw [getD_set_self _ _ (by rw [hclen']; omega), hkM]
    omega
  · intro he
    omega
  · intro _
    rfl
  · intro key hklo hkhi hkl hkr
    simp only [Node.keys_mk]
    constructor
    · rw [boundL, if_pos rfl]
      exact hklo
    · by_cases h2 : (0 : Nat) = ks.length - 1
      · unfold boundR
        rw [hlen', if_pos h2]
        exact hkhi
      · rw [show boundR hi ks 0 = some (ks.getD 0 default).1 from by
          unfold boundR; rw [if_neg (by omega)]] at hkr
        obtain ⟨_, hsR⟩ := sorted_sep_bounds hsortKs (show (0 : Nat) < ks.length by omega)
        rw [show boundR hi ks (0 + 1) = some (ks.getD (0 + 1) default).1 from by
          unfold boundR; rw [if_neg (by omega)]] at hsR
        unfold boundR
        rw [hlen', if_neg h2, getD_eraseIdx_ge _ (le_refl _)]
        intro b hb
        cases hb
        exact lt_trans (by simpa using hkr) (by simpa using hsR)

/-- Full specification of `Node::make_space` on a well-formed internal
node with at least one key and a minimal child at `idx`. -/
theorem Good.make_space_spec {lb h : Nat} {lo hi : Option K}
    {ks : List (K × V)} {cs : List (Node K V β)} {a : β} (au : Aug K V β γ)
    {idx : Nat} (hg : Good lb (h + 1) lo hi (Node.mk ks cs a))
    (hks1 : 1 ≤ ks.length) (hile : idx ≤ ks.length)
    (hmin : (cs.getD idx default).keys.length = MIN_DEGREE - 1) :
    MsOk lo hi h ks cs idx (Node.make_space au idx (Node.mk ks cs a)) := by
  by_cases hc1 : 0 < idx ∧ ¬(cs.getD (idx - 1) default).is_min = true
  · exact steal_left_ok au hg hile hmin hc1
  · by_cases hc2 : idx < ks.length ∧ ¬(cs.getD (idx + 1) default).is_min = true
    · exact steal_right_ok au hg hmin hc1 hc2
    · by_cases h0 : 0 < idx
      · exact merge_left_ok au hg hile hmin hc1 hc2 h0
      · exact merge_right_ok au hg hks1 hmin hc1 hc2 h0

/-- Specification of `Node::delete_max` on a subtree with a key to spare:
the returned pair is the last pair of the flattening and the node keeps
the invariant with the last pair removed. -/
theorem Node.delete_max_spec :
    ∀ {h : Nat} (au : Aug K V β γ) {lb : Nat} {lo hi : Option K}
      {nd : Node K V β}, Good lb h lo hi nd → lb + 1 ≤ nd.keys.length →
    Good lb h lo hi (nd.delete_max au).2 ∧
    (nd.delete_max au).2.toList ++ [(nd.delete_max au).1] = nd.toList := by
  intro h
  induction h with
  | zero =>
    intro au lb lo hi nd hg hsp
    obtain ⟨ks, cs, a⟩ := nd
    simp only [Node.keys_mk] at hsp
    cases hg with
    | leaf h1 h2 hs =>
      rw [Node.delete_max, dif_pos (by simp)]
      have hdecomp : ks.take (ks.length - 1) ++
          [ks.getD (ks.length - 1) default] = ks := by
        have := take_getD_drop (l := ks) default
          (show ks.length - 1 < ks.length by omega)
        rw [List.drop_eq_nil_of_le (by omega)] at this
        simpa using this
      have hs' : SortedB lo hi (ks.take (ks.length - 1) ++
          (ks.getD (ks.length - 1) default) :: []) := by
        rw [← hdecomp] at hs
        simpa using hs
      obtain ⟨hsA, hslo, hshi, _⟩ := SortedB.append_decomp hs'
      have herase : ks.eraseIdx (ks.length - 1) = ks.take (ks.length - 1) :=
        eraseIdx_pred_take (by omega)
      refine ⟨?_, ?_⟩
      · simp only [Node.remove_pair_keys, Node.remove_pair_children,
          Node.keys_mk, Node.children_mk, herase, List.length_take]
        refine .leaf (by rw [List.length_take]; omega)
          (by rw [List.length_take]; omega) ?_
        refine hsA.weaken_hi ?_
        intro k hk b hb
        exact lt_trans (by simpa using hk) (hshi b hb)
      · simp only [Node.remove_pair_fst, Node.remove_pair_keys,
          Node.remove_pair_children, Node.keys_mk, Node.children_mk,
          Node.toList_mk, toListAux_nil, herase]
        exact hdecomp
  | succ h ih =>
    intro au lb lo hi nd hg hsp
    obtain ⟨ks, cs, a⟩ := nd
    simp only [Node.keys_mk] at hsp
    have hMD : MIN_DEGREE = 6 := rfl
    have hseq := hg.toSeq
    have hlen := hseq.length_eq
    obtain ⟨hlb0, hub0⟩ := hg.size_le
    simp only [Node.keys_mk] at hlb0 hub0
    have hcsne : ¬cs.isEmpty = true := by
      simpa [List.isEmpty_iff] using hseq.ne_nil
    have hmain : ∀ (ks' : List (K × V)) (cs' : List (Node K V β)) (b : β),
        Seq (Good (MIN_DEGREE - 1) h) lo hi cs' ks' → lb ≤ ks'.length →
        ks'.length ≤ 2 * MIN_DEGREE - 1 →
        toListAux cs' ks' = toListAux cs ks →
        MIN_DEGREE ≤ (cs'.getD ks'.length default).keys.length →
        Good lb (h + 1) lo hi (Node.mk ks'
          (cs'.set ks'.length ((cs'.getD ks'.length default).delete_max au).2) b) ∧
        (Node.mk ks'
          (cs'.set ks'.length ((cs'.getD ks'.length default).delete_max au).2)
          b).toList ++ [((cs'.getD ks'.length default).delete_max au).1]
          = toListAux cs ks := by
      intro ks' cs' b hseq' hlb' hub' hflat' hch6
      have hlen' := hseq'.length_eq
      have hchild := hseq'.child ks'.length (by omega)
      have hbRlast : boundR hi ks' ks'.length = hi := by
        unfold boundR
        rw [if_pos rfl]
      rw [hbRlast] at hchild
      obtain ⟨hgd, happ⟩ := ih au hchild (by omega)
      obtain ⟨A2, hA2, hA2set⟩ := seqLast hlen'
      obtain ⟨_, _, _, _, _, _, _, hseqset, _, _⟩ :=
        seqLoc (fun lo' hi' c hc => Good.toList_sorted hc) ks'.length hseq'
          (le_refl _)
      refine ⟨?_, ?_⟩
      · refine Good.ofSeq hlb' hub' ?_
        refine hseqset _ ?_
        rw [hbRlast]
        exact hgd
      · simp only [Node.toList_mk]
        rw [hA2set, List.append_assoc, happ, ← hA2, hflat']
    rw [Node.delete_max, dif_neg hcsne]
    by_cases hmincond : (cs.getD ks.length default).is_min = true
    · have hmin5 : (cs.getD ks.length default).keys.length = MIN_DEGREE - 1 := by
        have h5 := (hseq.child ks.length (by omega)).size_le.1
        simp only [Node.is_min, decide_eq_true_eq] at hmincond
        omega
      obtain ⟨hmsG, hmsL, hms3, hms4, hms5, hms6, hms7, _, _⟩ :=
        Good.make_space_spec au hg (by omega) (le_refl _) hmin5
      rw [if_pos hmincond]
      have hmsSeq : Seq (Good (MIN_DEGREE - 1) h) lo hi
          (Node.make_space au ks.length (Node.mk ks cs a)).2.children
          (Node.make_space au ks.length (Node.mk ks cs a)).2.keys := by
        have := hmsG
        rw [← Node.mk_keys_children_aug ((Node.make_space au ks.length
          (Node.mk ks cs a)).2)] at this
        exact this.toSeq
      have hch := hms6
      rw [hms7 rfl] at hch
      refine hmain _ _ _ hmsSeq (by omega) (by omega) ?_ hch
      rw [← Node.toList_eq]
      exact hmsL
    · rw [if_neg hmincond]
      have hch6 : MIN_DEGREE ≤ (cs.getD ks.length default).keys.length := by
        have h5 := (hseq.child ks.length (by omega)).size_le.1
        simp only [Node.is_min, decide_eq_true_eq] at hmincond
        omega
      exact hmain ks cs _ hseq hlb0 hub0 rfl hch6

/-- Specification of `Node::delete_min` on a subtree with a key to spare:
the returned pair is the first pair of the flattening and the node keeps
the invariant with the first pair removed. -/
theorem Node.delete_min_spec :
    ∀ {h : Nat} (au : Aug K V β γ) {lb : Nat} {lo hi : Option K}
      {nd : Node K V β}, Good lb h lo hi nd → lb + 1 ≤ nd.keys.length →
    Good lb h lo hi (nd.delete_min au).2 ∧
    (nd.delete_min au).1 :: (nd.delete_min au).2.toList = nd.toList := by
  intro h
  induction h with
  | zero =>
    intro au lb lo hi nd hg hsp
    obtain ⟨ks, cs, a⟩ := nd
    simp only [Node.keys_mk] at hsp
    cases hg with
    | leaf h1 h2 hs =>
      rw [Node.delete_min, dif_pos (by simp)]
      have hdecomp : ks.getD 0 default :: ks.drop 1 = ks := by
        have := take_getD_drop (l := ks) (i := 0) default (by omega)
        simpa using this
      have herase : ks.eraseIdx 0 = ks.drop 1 := eraseIdx_zero_drop _
      have hs' : SortedB lo hi (ks.getD 0 default :: ks.drop 1) := by
        rw [hdecomp]
        exact hs
      cases hs' with
      | cons hlo1 hhi1 hrest =>
        refine ⟨?_, ?_⟩
        · simp only [Node.remove_pair_keys, Node.remove_pair_children,
            Node.keys_mk, Node.children_mk, herase, List.length_drop]
          refine .leaf (by rw [List.length_drop]; omega)
            (by rw [List.length_drop]; omega) ?_
          refine hrest.weaken_lo ?_
          intro k hk b hb
          exact lt_trans (hlo1 b hb) (by simpa using hk)
        · simp only [Node.remove_pair_fst, Node.remove_pair_keys,
            Node.remove_pair_children, Node.keys_mk, Node.children_mk,
            Node.toList_mk, toListAux_nil, herase]
          exact hdecomp
  | succ h ih =>
    intro au lb lo hi nd hg hsp
    obtain ⟨ks, cs, a⟩ := nd
    simp only [Node.keys_mk] at hsp
    have hMD : MIN_DEGREE = 6 := rfl
    have hseq := hg.toSeq
    have hlen := hseq.length_eq
    obtain ⟨hlb0, hub0⟩ := hg.size_le
    simp only [Node.keys_mk] at hlb0 hub0
    have hcsne : ¬cs.isEmpty = true := by
      simpa [List.isEmpty_iff] using hseq.ne_nil
    have hmain : ∀ (ks' : List (K × V)) (cs' : List (Node K V β)) (b : β),
        Seq (Good (MIN_DEGREE - 1) h) lo hi cs' ks' → lb ≤ ks'.length →
        ks'.length ≤ 2 * MIN_DEGREE - 1 →
        toListAux cs' ks' = toListAux cs ks →
        MIN_DEGREE ≤ (cs'.getD 0 default).keys.length →
        Good lb (h + 1) lo hi (Node.mk ks'
          (cs'.set 0 ((cs'.getD 0 default).delete_min au).2) b) ∧
        ((cs'.getD 0 default).delete_min au).1 :: (Node.mk ks'
          (cs'.set 0 ((cs'.getD 0 default).delete_min au).2) b).toList
          = toListAux cs ks := by
      intro ks' cs' b hseq' hlb' hub' hflat' hch6
      have hlen' := hseq'.length_eq
      have hchild := hseq'.child 0 (by omega)
      have hbL0 : boundL lo ks' 0 = lo := rfl
      rw [hbL0] at hchild
      obtain ⟨hgd, hcons⟩ := ih au hchild (by omega)
      obtain ⟨B2, hB2, hB2set⟩ := seqFirst hlen'
      obtain ⟨_, _, _, _, _, _, _, hseqset, _, _⟩ :=
        seqLoc (fun lo' hi' c hc => Good.toList_sorted hc) 0 hseq'
          (Nat.zero_le _)
      refine ⟨?_, ?_⟩
      · refine Good.ofSeq hlb' hub' ?_
        refine hseqset _ ?_
        rw [hbL0]
        exact hgd
      · simp only [Node.toList_mk]
        rw [hB2set, ← List.cons_append, hcons, ← hB2, hflat']
    rw [Node.delete_min, dif_neg hcsne]
    by_cases hmincond : (cs.getD 0 default).is_min = true
    · have hmin5 : (cs.getD 0 default).keys.length = MIN_DEGREE - 1 := by
        have h5 := (hseq.child 0 (by omega)).size_le.1
        simp only [Node.is_min, decide_eq_true_eq] at hmincond
        omega
      obtain ⟨hmsG, hmsL, hms3, hms4, hms5, hms6, _, hms8, _⟩ :=
        Good.make_space_spec au hg (by omega) (Nat.zero_le _) hmin5
      rw [if_pos hmincond]
      have hmsSeq : Seq (Good (MIN_DEGREE - 1) h) lo hi
          (Node.make_space au 0 (Node.mk ks cs a)).2.children
          (Node.make_space au 0 (Node.mk ks cs a)).2.keys := by
        have := hmsG
        rw [← Node.mk_keys_children_aug ((Node.make_space au 0
          (Node.mk ks cs a)).2)] at this
        exact this.toSeq
      have hch := hms6
      rw [hms8 rfl] at hch
      refine hmain _ _ _ hmsSeq (by omega) (by omega) ?_ hch
      rw [← Node.toList_eq]
      exact hmsL
    · rw [if_neg hmincond]
      have hch6 : MIN_DEGREE ≤ (cs.getD 0 default).keys.length := by
        have h5 := (hseq.child 0 (by omega)).size_le.1
        simp only [Node.is_min, decide_eq_true_eq] at hmincond
        omega
      exact hmain ks cs _ hseq hlb0 hub0 rfl hch6

/-- Specification of `Node::delete_own` (the key sits at `keys[idx]` of
this node, which has a key to spare): the pair is removed from the
flattening, its value is returned, and the invariant is preserved. -/
theorem Node.delete_own_spec :
    ∀ {h : Nat} (au : Aug K V β γ) {lb : Nat} {lo hi : Option K}
      {nd : Node K V β} {key : K} {idx : Nat},
    Good lb h lo hi nd → lb + 1 ≤ nd.keys.length → idx < nd.keys.length →
    (nd.keys.getD idx default).1 = key →
    Good lb h lo hi (nd.delete_own au key idx).2 ∧
    (nd.delete_own au key idx).2.toList = eraseKey key nd.toList ∧
    lookupL key nd.toList = some (nd.delete_own au key idx).1 := by
  intro h
  induction h with
  | zero =>
    intro au lb lo hi nd key idx hg hsp hidx hkey
    obtain ⟨ks, cs, a⟩ := nd
    simp only [Node.keys_mk] at hsp hidx hkey
    cases hg with
    | leaf h1 h2 hs =>
      rw [Node.delete_own, dif_pos (by simp)]
      obtain ⟨herase, hlook⟩ := sorted_getD_erase hs hidx
      rw [hkey] at herase hlook
      have hdecomp : ks.take idx ++ ks.getD idx default :: ks.drop (idx + 1)
          = ks := take_getD_drop default hidx
      refine ⟨?_, ?_, ?_⟩
      · simp only [Node.remove_pair_keys, Node.remove_pair_children,
          Node.keys_mk, Node.children_mk]
        refine .leaf ?_ ?_ ?_
        · rw [List.length_eraseIdx_of_lt hidx]
          omega
        · rw [List.length_eraseIdx_of_lt hidx]
          omega
        · rw [List.eraseIdx_eq_take_drop_succ]
          refine SortedB.drop_mid (m := ks.getD idx default) ?_
          rw [hdecomp]
          exact hs
      · simp only [Node.remove_pair_keys, Node.remove_pair_children,
          Node.keys_mk, Node.children_mk, Node.toList_mk, toListAux_nil]
        exact herase.symm
      · simp only [Node.remove_pair_fst, Node.keys_mk, Node.toList_mk,
          toListAux_nil]
        exact hlook
  | succ h ih =>
    intro au lb lo hi nd key idx hg hsp hidx hkey
    obtain ⟨ks, cs, a⟩ := nd
    simp only [Node.keys_mk] at hsp hidx hkey
    have hMD : MIN_DEGREE = 6 := rfl
    have hseq := hg.toSeq
    have hlen := hseq.length_eq
    obtain ⟨hlb0, hub0⟩ := hg.size_le
    simp only [Node.keys_mk] at hlb0 hub0
    have hsortKs := hseq.sortedKeys
    have hcsne : ¬cs.isEmpty = true := by
      simpa [List.isEmpty_iff] using hseq.ne_nil
    obtain ⟨hsepL, hsepR⟩ := sorted_sep_bounds hsortKs hidx
    rw [hkey] at hsepL hsepR
    have hbRt : boundR hi ks idx = some key := by
      unfold boundR
      rw [if_neg (by omega), hkey]
    have hbLv : boundL lo ks (idx + 1) = some key := by
      unfold boundL
      rw [if_neg (by omega)]
      simp only [Nat.add_sub_cancel]
      rw [hkey]
    have hchildL := hseq.child idx (by omega)
    have hchildR := hseq.child (idx + 1) (by omega)
    rw [hbRt] at hchildL
    rw [hbLv] at hchildR
    have hLlt : ∀ p ∈ (cs.getD idx default).toList, p.1 < key := by
      intro p hp
      have := (Good.toList_sorted hchildL).mem_bounds p hp
      simpa using this.2
    have hRgt : ∀ p ∈ (cs.getD (idx + 1) default).toList, key < p.1 := by
      intro p hp
      have := (Good.toList_sorted hchildR).mem_bounds p hp
      simpa using this.1
    rw [Node.delete_own, dif_neg hcsne]
    by_cases hAmin : (cs.getD idx default).is_min = true
    · rw [if_neg (by simpa using hAmin)]
      by_cases hBmin : (cs.getD (idx + 1) default).is_min = true
      · -- both children minimal: merge, then recurse into the merged child
        rw [if_neg (by simpa using hBmin)]
        have hminL : (cs.getD idx default).keys.length = MIN_DEGREE - 1 := by
          have h5 := hchildL.size_le.1
          simp only [Node.is_min, decide_eq_true_eq] at hAmin
          omega
        have hminR : (cs.getD (idx + 1) default).keys.length = MIN_DEGREE - 1 := by
          have h5 := hchildR.size_le.1
          simp only [Node.is_min, decide_eq_true_eq] at hBmin
          omega
        obtain ⟨M, A, B, hshape, hgM, hkM, hlM, hgetDM, hflat, hA, hB, hList',
          hSeq'⟩ := Good.merge_children_spec au hg hidx hminL hminR
        rw [hshape]
        simp only [Node.keys_mk, Node.children_mk, Node.aug_val_mk]
        have hclen' : (cs.eraseIdx (idx + 1)).length = cs.length - 1 :=
          List.length_eraseIdx_of_lt (by omega)
        have hgetM : ((cs.eraseIdx (idx + 1)).set idx M).getD idx default = M :=
          getD_set_self _ _ (by rw [hclen']; omega)
        rw [hgetM]
        have hkeyM : (M.keys.getD (MIN_DEGREE - 1) default).1 = key := by
          rw [hgetDM, hkey]
        obtain ⟨hrG, hrL, hrV⟩ := ih au hgM (by omega) (by omega) hkeyM
        have hset2 : (((cs.eraseIdx (idx + 1)).set idx M).set idx
            (M.delete_own au key (MIN_DEGREE - 1)).2)
            = (cs.eraseIdx (idx + 1)).set idx
              (M.delete_own au key (MIN_DEGREE - 1)).2 := by rw [List.set_set]
        refine ⟨?_, ?_, ?_⟩
        · rw [hset2]
          refine Good.ofSeq ?_ ?_ (hSeq' _ hrG)
          · rw [List.length_eraseIdx_of_lt hidx]
            omega
          · rw [List.length_eraseIdx_of_lt hidx]
            omega
        · simp only [Node.toList_mk]
          rw [hset2, hList' _, hrL, hflat]
          conv_rhs => rw [List.append_assoc]
          rw [eraseKey_append_left _ (fun p hp => ne_of_lt (hA p hp key hsepL)),
            eraseKey_append_right _
              (fun p hp => (ne_of_lt (hB p hp key hsepR)).symm)]
          rw [List.append_assoc]
        · simp only [Node.toList_mk]
          rw [hflat]
          conv_lhs => rw [List.append_assoc]
          rw [lookupL_append_right _ (fun p hp => ne_of_lt (hA p hp key hsepL)),
            lookupL_append_left _
              (fun p hp => (ne_of_lt (hB p hp key hsepR)).symm), hrV]
      · -- the right sibling of the key has a key to spare: pull up its min
        rw [if_pos (by simpa using hBmin)]
        have hch6 : MIN_DEGREE ≤ (cs.getD (idx + 1) default).keys.length := by
          have h5 := hchildR.size_le.1
          simp only [Node.is_min, decide_eq_true_eq] at hBmin
          omega
        obtain ⟨hgd, hcons⟩ := Node.delete_min_spec au hchildR (by omega)
        obtain ⟨A, B, hjlt, hdec, hA, hB, hpairList, hpairSeq, _, _⟩ :=
          seqAdj (fun lo' hi' c hc => Good.toList_sorted hc) idx hseq hidx
        have hRsorted := Good.toList_sorted hchildR
        rw [← hcons] at hRsorted
        cases hRsorted with
        | cons hlo1 hhi1 hrest =>
          have hc1 : Good (MIN_DEGREE - 1) h (boundL lo ks idx)
              (some ((cs.getD (idx + 1) default).delete_min au).1.1)
              (cs.getD idx default) := by
            refine Good.relax_hi hchildL ?_
            intro p hp
            exact lt_trans (hLlt p hp) (by simpa using hlo1)
          have hc2 : Good (MIN_DEGREE - 1) h
              (some ((cs.getD (idx + 1) default).delete_min au).1.1)
              (boundR hi ks (idx + 1))
              ((cs.getD (idx + 1) default).delete_min au).2 := by
            refine Good.relax_lo hgd ?_
            intro p hp
            have : p ∈ (cs.getD (idx + 1) default).toList := by
              rw [← hcons]
              exact List.mem_cons_of_mem _ hp
            have h2 := (hrest.mem_bounds p (by
              have := hcons
              exact hp)).1
            simpa using h2
          have hseq2 := hpairSeq (cs.getD idx default)
            ((cs.getD (idx + 1) default).delete_min au).1
            ((cs.getD (idx + 1) default).delete_min au).2
            hc1 (loLt_trans hsepL (by simpa using hlo1))
            (by simpa using hhi1) hc2
          have hsetL : (cs.set idx (cs.getD idx default)).set (idx + 1)
              ((cs.getD (idx + 1) default).delete_min au).2
              = cs.set (idx + 1) ((cs.getD (idx + 1) default).delete_min au).2 := by
            rw [set_getD_self]
          rw [hsetL] at hseq2
          have hlistL := hpairList (cs.getD idx default)
            ((cs.getD (idx + 1) default).delete_min au).1
            ((cs.getD (idx + 1) default).delete_min au).2
          rw [hsetL] at hlistL
          refine ⟨?_, ?_, ?_⟩
          · exact Good.ofSeq (by simp; omega) (by simp; omega) hseq2
          · simp only [Node.toList_mk]
            have hval : eraseKey key (toListAux cs ks)
                = A ++ ((cs.getD idx default).toList ++
                  ((cs.getD (idx + 1) default).toList ++ B)) := by
              rw [hdec]
              simp only [List.append_assoc, List.cons_append]
              rw [eraseKey_append_left _
                  (fun p hp => ne_of_lt (hA p hp key hsepL)),
                eraseKey_append_left _ (fun p hp => ne_of_lt (hLlt p hp)),
                eraseKey, if_pos hkey]
            rw [hlistL, hval, ← hcons]
            simp [List.append_assoc]
          · simp only [Node.toList_mk]
            rw [hdec]
            simp only [List.append_assoc, List.cons_append]
            rw [lookupL_append_right _
                (fun p hp => ne_of_lt (hA p hp key hsepL)),
              lookupL_append_right _ (fun p hp => ne_of_lt (hLlt p hp)),
              lookupL, if_pos hkey]
    · -- the left child of the key has a key to spare: pull up its max
      rw [if_pos (by simpa using hAmin)]
      have hch6 : MIN_DEGREE ≤ (cs.getD idx default).keys.length := by
        have h5 := hchildL.size_le.1
        simp only [Node.is_min, decide_eq_true_eq] at hAmin
        omega
      obtain ⟨hgd, happ⟩ := Node.delete_max_spec au hchildL (by omega)
      obtain ⟨A, B, hjlt, hdec, hA, hB, hpairList, hpairSeq, _, _⟩ :=
        seqAdj (fun lo' hi' c hc => Good.toList_sorted hc) idx hseq hidx
      have hLsorted := Good.toList_sorted hchildL
      rw [← happ] at hLsorted
      have hLsorted' : SortedB (boundL lo ks idx) (some key)
          (((cs.getD idx default).delete_max au).2.toList ++
            ((cs.getD idx default).delete_max au).1 :: []) := by
        simpa using hLsorted
      obtain ⟨hsA2, hslo2, hshi2, _⟩ := SortedB.append_decomp hLsorted'
      have hc1 : Good (MIN_DEGREE - 1) h (boundL lo ks idx)
          (some ((cs.getD idx default).delete_max au).1.1)
          ((cs.getD idx default).delete_max au).2 := by
        refine Good.relax_hi hgd ?_
        intro p hp
        have := (hsA2.mem_bounds p hp).2
        simpa using this
      have hc2 : Good (MIN_DEGREE - 1) h
          (some ((cs.getD idx default).delete_max au).1.1)
          (boundR hi ks (idx + 1)) (cs.getD (idx + 1) default) := by
        refine Good.relax_lo hchildR ?_
        intro p hp
        exact lt_trans (by simpa using hshi2) (hRgt p hp)
      have hseq2 := hpairSeq ((cs.getD idx default).delete_max au).2
        ((cs.getD idx default).delete_max au).1 (cs.getD (idx + 1) default)
        hc1 hslo2 (ltHi_trans (by simpa using hshi2) hsepR) hc2
      have hsetR : ((cs.set idx ((cs.getD idx default).delete_max au).2).set
          (idx + 1) (cs.getD (idx + 1) default))
          = cs.set idx ((cs.getD idx default).delete_max au).2 := by
        rw [← getD_set_ne (l := cs) (i := idx) (j := idx + 1) default
          ((cs.getD idx default).delete_max au).2 (by omega)]
        exact set_getD_self _
      rw [hsetR] at hseq2
      have hlistL := hpairList ((cs.getD idx default).delete_max au).2
        ((cs.getD idx default).delete_max au).1 (cs.getD (idx + 1) default)
      rw [hsetR] at hlistL
      refine ⟨?_, ?_, ?_⟩
      · exact Good.ofSeq (by simp; omega) (by simp; omega) hseq2
      · simp only [Node.toList_mk]
        have hval : eraseKey key (toListAux cs ks)
            = A ++ ((cs.getD idx default).toList ++
              ((cs.getD (idx + 1) default).toList ++ B)) := by
          rw [hdec]
          simp only [List.append_assoc, List.cons_append]
          rw [eraseKey_append_left _
              (fun p hp => ne_of_lt (hA p hp key hsepL)),
            eraseKey_append_left _ (fun p hp => ne_of_lt (hLlt p hp)),
            eraseKey, if_pos hkey]
        rw [hlistL, hval, ← happ]
        simp [List.append_assoc]
      · simp only [Node.toList_mk]
        rw [hdec]
        simp only [List.append_assoc, List.cons_append]
        rw [lookupL_append_right _
            (fun p hp => ne_of_lt (hA p hp key hsepL)),
          lookupL_append_right _ (fun p hp => ne_of_lt (hLlt p hp)),
          lookupL, if_pos hkey]

/-- Specification of `Node::delete` on a subtree with a key to spare: the
flattening loses exactly the pair with the given key (if present), whose
value is returned, and the invariant is preserved. -/
theorem Node.delete_spec :
    ∀ {h : Nat} (au : Aug K V β γ) {lb : Nat} {lo hi : Option K}
      {nd : Node K V β} {key : K},
    Good lb h lo hi nd → lb + 1 ≤ nd.keys.length →
    loLt lo key → ltHi key hi →
    Good lb h lo hi (nd.delete au key).2 ∧
    (nd.delete au key).2.toList = eraseKey key nd.toList ∧
    (nd.delete au key).1 = lookupL key nd.toList := by
  intro h
  induction h with
  | zero =>
    intro au lb lo hi nd key hg hsp hklo hkhi
    obtain ⟨ks, cs, a⟩ := nd
    simp only [Node.keys_mk] at hsp
    have hcs0 : cs = [] := hg.children_zero
    subst hcs0
    rw [Node.delete]
    split
    · rename_i i hidx
      obtain ⟨hilt, hkey, _⟩ := keyIdx_ok_spec hidx
      obtain ⟨hoG, hoL, hoV⟩ := Node.delete_own_spec au hg hsp hilt hkey
      exact ⟨hoG, hoL, hoV.symm⟩
    · rename_i i hidx
      cases hg with
      | leaf h1 h2 hs =>
        rw [dif_pos (by simp)]
        refine ⟨.leaf h1 h2 hs, ?_, ?_⟩
        · simp only [Node.toList_mk, toListAux_nil]
          exact (eraseKey_eq_self_of_forall (keyIdx_err_not_mem hs hidx)).symm
        · simp only [Node.toList_mk, toListAux_nil]
          exact (lookupL_eq_none_of_forall (keyIdx_err_not_mem hs hidx)).symm
  | succ h ih =>
    intro au lb lo hi nd key hg hsp hklo hkhi
    obtain ⟨ks, cs, a⟩ := nd
    simp only [Node.keys_mk] at hsp
    have hMD : MIN_DEGREE = 6 := rfl
    have hseq := hg.toSeq
    have hlen := hseq.length_eq
    obtain ⟨hlb0, hub0⟩ := hg.size_le
    simp only [Node.keys_mk] at hlb0 hub0
    have hcsne : ¬cs.isEmpty = true := by
      simpa [List.isEmpty_iff] using hseq.ne_nil
    rw [Node.delete]
    split
    · rename_i i hidx
      obtain ⟨hilt, hkey, _⟩ := keyIdx_ok_spec hidx
      obtain ⟨hoG, hoL, hoV⟩ := Node.delete_own_spec au hg (by simpa using hsp)
        (by simpa using hilt) (by simpa using hkey)
      exact ⟨hoG, hoL, hoV.symm⟩
    · rename_i i hidx
      obtain ⟨hile, _, _⟩ := keyIdx_err_spec hidx
      obtain ⟨hbl, hbr⟩ := keyIdx_err_bounds hidx hklo hkhi
      rw [dif_neg hcsne]
      have hmain : ∀ (j : Nat) (ks' : List (K × V)) (cs' : List (Node K V β)),
          Seq (Good (MIN_DEGREE - 1) h) lo hi cs' ks' → lb ≤ ks'.length →
          ks'.length ≤ 2 * MIN_DEGREE - 1 →
          toListAux cs' ks' = toListAux cs ks → j ≤ ks'.length →
          MIN_DEGREE ≤ (cs'.getD j default).keys.length →
          loLt (boundL lo ks' j) key → ltHi key (boundR hi ks' j) →
          ∀ b : β,
          Good lb (h + 1) lo hi (Node.mk ks'
            (cs'.set j ((cs'.getD j default).delete au key).2) b) ∧
          (Node.mk ks' (cs'.set j ((cs'.getD j default).delete au key).2)
            b).toList = eraseKey key (toListAux cs ks) ∧
          ((cs'.getD j default).delete au key).1
            = lookupL key (toListAux cs ks) := by
        intro j ks' cs' hseq' hlb' hub' hflat' hjle hch6 hbj1 hbj2 b
        have hlen' := hseq'.length_eq
        have hchild := hseq'.child j (by omega)
        obtain ⟨hdG, hdL, hdV⟩ := ih au hchild (by omega) hbj1 hbj2
        obtain ⟨A, B, hjlt, hdec, hA, hB, hset, hseqset, _, _⟩ :=
          seqLoc (fun lo' hi' c hc => Good.toList_sorted hc) j hseq' hjle
        have hval : eraseKey key (toListAux cs' ks')
            = A ++ (eraseKey key (cs'.getD j default).toList ++ B) := by
          rw [hdec]
          simp only [List.append_assoc]
          rw [eraseKey_append_left _ (fun p hp => ne_of_lt (hA p hp key hbj1)),
            eraseKey_append_right _
              (fun p hp => (ne_of_lt (hB p hp key hbj2)).symm)]
        have hlook : lookupL key (toListAux cs' ks')
            = lookupL key (cs'.getD j default).toList := by
          rw [hdec]
          simp only [List.append_assoc]
          rw [lookupL_append_right _ (fun p hp => ne_of_lt (hA p hp key hbj1)),
            lookupL_append_left _
              (fun p hp => (ne_of_lt (hB p hp key hbj2)).symm)]
        refine ⟨Good.ofSeq hlb' hub' (hseqset _ hdG), ?_, ?_⟩
        · simp only [Node.toList_mk]
          rw [hset, hdL, ← hflat', hval]
          simp [List.append_assoc]
        · rw [hdV, ← hflat', hlook]
      by_cases hmincond : (cs.getD i default).is_min = true
      · rw [if_pos hmincond]
        dsimp only
        have hmin5 : (cs.getD i default).keys.length = MIN_DEGREE - 1 := by
          have h5 := (hseq.child i (by omega)).size_le.1
          simp only [Node.is_min, decide_eq_true_eq] at hmincond
          omega
        obtain ⟨hmsG, hmsL, hms3, hms4, hms5, hms6, _, _, hms9⟩ :=
          Good.make_space_spec au hg (by omega) hile hmin5
        obtain ⟨hbj1, hbj2⟩ := hms9 key hklo hkhi hbl hbr
        have hmsSeq : Seq (Good (MIN_DEGREE - 1) h) lo hi
            (Node.make_space au i (Node.mk ks cs a)).2.children
            (Node.make_space au i (Node.mk ks cs a)).2.keys := by
          have := hmsG
          rw [← Node.mk_keys_children_aug ((Node.make_space au i
            (Node.mk ks cs a)).2)] at this
          exact this.toSeq
        have hflat0 : toListAux
            (Node.make_space au i (Node.mk ks cs a)).2.children
            (Node.make_space au i (Node.mk ks cs a)).2.keys
            = toListAux cs ks := by
          rw [← Node.toList_eq]
          exact hmsL
        obtain ⟨hmG, hmL, hmV⟩ := hmain (Node.make_space au i (Node.mk ks cs a)).1
          (Node.make_space au i (Node.mk ks cs a)).2.keys
          (Node.make_space au i (Node.mk ks cs a)).2.children
          hmsSeq (by omega) (by omega) hflat0 hms5 hms6 hbj1 hbj2
          (au.deleted_sub_tree key default
            (Node.make_space au i (Node.mk ks cs a)).2.aug_val)
        cases hres : (((Node.make_space au i (Node.mk ks cs a)).2.children.getD
            (Node.make_space au i (Node.mk ks cs a)).1 default).delete au key).1
          with
        | some v =>
          dsimp only
          obtain ⟨hmG', hmL', hmV'⟩ := hmain
            (Node.make_space au i (Node.mk ks cs a)).1
            (Node.make_space au i (Node.mk ks cs a)).2.keys
            (Node.make_space au i (Node.mk ks cs a)).2.children
            hmsSeq (by omega) (by omega) hflat0 hms5 hms6 hbj1 hbj2
            (au.deleted_sub_tree key v
              (Node.make_space au i (Node.mk ks cs a)).2.aug_val)
          refine ⟨hmG', by simpa using hmL', ?_⟩
          simp only [Node.toList_mk]
          rw [← hmV', hres]
        | none =>
          dsimp only
          obtain ⟨hmG', hmL', hmV'⟩ := hmain
            (Node.make_space au i (Node.mk ks cs a)).1
            (Node.make_space au i (Node.mk ks cs a)).2.keys
            (Node.make_space au i (Node.mk ks cs a)).2.children
            hmsSeq (by omega) (by omega) hflat0 hms5 hms6 hbj1 hbj2
            (Node.make_space au i (Node.mk ks cs a)).2.aug_val
          refine ⟨hmG', by simpa using hmL', ?_⟩
          simp only [Node.toList_mk]
          rw [← hmV', hres]
      · rw [if_neg hmincond]
        simp only [Node.keys_mk, Node.children_mk, Node.aug_val_mk]
        have hch6 : MIN_DEGREE ≤ (cs.getD i default).keys.length := by
          have h5 := (hseq.child i (by omega)).size_le.1
          simp only [Node.is_min, decide_eq_true_eq] at hmincond
          omega
        cases hres : ((cs.getD i default).delete au key).1 with
        | some v =>
          try dsimp only
          obtain ⟨hmG', hmL', hmV'⟩ := hmain i ks cs hseq hlb0 hub0 rfl hile
            hch6 hbl hbr (au.deleted_sub_tree key v a)
          refine ⟨hmG', by simpa using hmL', ?_⟩
          simp only [Node.toList_mk]
          rw [← hmV', hres]
        | none =>
          try dsimp only
          obtain ⟨hmG', hmL', hmV'⟩ := hmain i ks cs hseq hlb0 hub0 rfl hile
            hch6 hbl hbr a
          refine ⟨hmG', by simpa using hmL', ?_⟩
          simp only [Node.toList_mk]
          rw [← hmV', hres]

/-- The whole-tree invariant: the root is well-formed with no lower bound
on its key count, over the unbounded interval, and an internal root keeps
at least one key (the delete shrink removes single-child roots). -/
def TreeWF (t : BTree K V β) : Prop :=
  ∃ h : Nat, Good 0 h none none t.root ∧
    (t.root.children ≠ [] → 1 ≤ t.root.keys.length)

/-- `Node::insert_non_full` never decreases the key count of the node it
is called on. -/
theorem Node.insert_non_full_keys_len (au : Aug K V β γ) (k : K) (v : V)
    (nd : Node K V β) :
    nd.keys.length ≤ (nd.insert_non_full au k v).1.keys.length := by
  obtain ⟨ks, cs, a⟩ := nd
  rw [Node.insert_non_full]
  split
  · simp
  · rename_i i hidx
    have hile := (keyIdx_err_spec hidx).1
    split
    · simp only [Node.keys_mk]
      rw [List.length_insertIdx _ _ hile]
      omega
    · rename_i hleaf
      have hks1 : (Node.split_child au i (Node.mk ks cs a)).keys
          = ks.insertIdx i ((cs.getD i default).split au).1 := by
        rw [Node.split_child]
        simp [Node.insert_pair, Node.insert_child]
      split
      · dsimp only
        split
        · simp only [Node.keys_mk, hks1, List.length_insertIdx _ _ hile]
          omega
        · split
          · split
            · dsimp only
              simp only [Node.keys_mk, hks1, List.length_insertIdx _ _ hile]
              omega
            · dsimp only
              simp only [Node.keys_mk, hks1, List.length_insertIdx _ _ hile]
              omega
          · split
            · dsimp only
              simp only [Node.keys_mk, hks1, List.length_insertIdx _ _ hile]
              omega
            · dsimp only
              simp only [Node.keys_mk, hks1, List.length_insertIdx _ _ hile]
              omega
      · dsimp only
        split
        · simp
        · simp

/-- Specification of `BTree::delete` on a well-formed tree: the
flattening loses the pair with the given key (if present), whose value is
returned, and the tree invariant is preserved (including the root
shrink). -/
theorem BTree.delete_model (au : Aug K V β γ) {h : Nat} {t : BTree K V β}
    {key : K} (hg : Good 0 h none none t.root)
    (hnz : t.root.children ≠ [] → 1 ≤ t.root.keys.length) :
    TreeWF (t.delete au key).1 ∧
    (t.delete au key).1.root.toList = eraseKey key t.root.toList ∧
    (t.delete au key).2 = lookupL key t.root.toList := by
  have hMD : MIN_DEGREE = 6 := rfl
  by_cases hk0 : t.root.keys.length = 0
  · have hc0 : t.root.children = [] := by
      by_contra hc
      have := hnz hc
      omega
    obtain ⟨root⟩ := t
    obtain ⟨ks, cs, a⟩ := root
    simp only [Node.keys_mk] at hk0
    simp only [Node.children_mk] at hc0
    have hks : ks = [] := List.length_eq_zero.1 hk0
    subst hks
    subst hc0
    rw [BTree.delete, Node.delete]
    have hki : keyIdx key ([] : List (K × V)) = .error 0 := rfl
    simp only [hki, List.isEmpty_nil, dite_true]
    simp only [Node.children_mk, List.length_nil]
    rw [if_neg (by omega)]
    refine ⟨⟨h, hg, by simp⟩, by simp [eraseKey], by simp [lookupL]⟩
  · have hsp : 0 + 1 ≤ t.root.keys.length := by omega
    obtain ⟨hdG, hdL, hdV⟩ := Node.delete_spec au hg hsp (loLt_none key)
      (ltHi_none key)
    rw [BTree.delete]
    by_cases hshrink : (t.root.delete au key).2.children.length = 1
    · rw [if_pos hshrink]
      cases h with
      | zero =>
        have := hdG.children_zero
        rw [this] at hshrink
        simp at hshrink
      | succ h' =>
        have hclen := hdG.children_len
        have hk0' : (t.root.delete au key).2.keys.length = 0 := by omega
        have hkeq : (t.root.delete au key).2.keys = [] :=
          List.length_eq_zero.1 hk0'
        obtain ⟨c, hc⟩ := List.length_eq_one.1 hshrink
        have hdG' : Good 0 (h' + 1) none none
            (Node.mk (t.root.delete au key).2.keys
              (t.root.delete au key).2.children
              (t.root.delete au key).2.aug_val) := by
          rw [Node.mk_keys_children_aug]
          exact hdG
        have hseq' := hdG'.toSeq
        rw [hkeq, hc] at hseq'
        have hcgood : Good (MIN_DEGREE - 1) h' none none c := by
          cases hseq' with
          | single hgc => simpa [boundL, boundR] using hgc
        have hcget : (t.root.delete au key).2.children.getD 0 default = c := by
          rw [hc]
          simp
        have hctl : c.toList = (t.root.delete au key).2.toList := by
          conv_rhs => rw [Node.toList_eq]
          rw [hkeq, hc]
          simp
        refine ⟨⟨h', ?_, ?_⟩, ?_, hdV⟩
        · simp only [hcget]
          exact hcgood.weaken_lb (Nat.zero_le _)
        · simp only [hcget]
          intro hcne
          cases h' with
          | zero =>
            exact absurd hcgood.children_zero hcne
          | succ h'' =>
            have := hcgood.size_le.1
            omega
        · simp only [hcget]
          rw [hctl, hdL]
    · rw [if_neg hshrink]
      refine ⟨⟨h, hdG, ?_⟩, hdL, hdV⟩
      intro hcne
      cases h with
      | zero => exact absurd hdG.children_zero hcne
      | succ h' =>
        have hclen := hdG.children_len
        have hlen1 : (t.root.delete au key).2.children.length ≠ 1 := hshrink
        show 1 ≤ (t.root.delete au key).2.keys.length
        omega

/-- `BTree::insert` preserves the whole-tree invariant. -/
theorem BTree.insert_wf (au : Aug K V β γ) {t : BTree K V β} (k : K) (v : V)
    (hwf : TreeWF t) : TreeWF (t.insert au k v).1 ∧
    (t.insert au k v).1.root.toList = insertSorted k v t.root.toList ∧
    ((t.insert au k v).2 = true ↔ lookupL k t.root.toList = none) := by
  obtain ⟨h, hg, hnz⟩ := hwf
  obtain ⟨hex, hiL, hiF⟩ := BTree.insert_spec au v hg
  obtain ⟨h', hiG⟩ := hex
  have hkey1 : 1 ≤ (t.insert au k v).1.root.keys.length := by
    rw [BTree.insert]
    by_cases hfull : t.root.is_full = true
    · rw [if_pos hfull]
      dsimp only
      have hk := Node.insert_non_full_keys_len au k v
        (⟨[(t.root.split au).1], [(t.root.split au).2.1, (t.root.split au).2.2],
          au.split_root (t.root.split au).1 (t.root.split au).2.1.aug_val
            (t.root.split au).2.2.aug_val⟩ : Node K V β)
      simp only [Node.keys_mk, List.length_cons, List.length_nil] at hk
      omega
    · rw [if_neg hfull]
      dsimp only
      by_cases hr0 : t.root.keys.length = 0
      · -- a childless empty root becomes a one-key leaf
        have hc0 : t.root.children = [] := by
          by_contra hc
          have := hnz hc
          omega
        have hrooteq : t.root = Node.mk [] [] t.root.aug_val := by
          conv_lhs => rw [← Node.mk_keys_children_aug t.root]
          rw [List.length_eq_zero.1 hr0, hc0]
        rw [hrooteq, Node.insert_non_full]
        have hki : keyIdx k ([] : List (K × V)) = .error 0 := rfl
        simp only [hki, List.isEmpty_nil, dite_true, Node.keys_mk]
        simp
      · have hk := Node.insert_non_full_keys_len au k v t.root
        omega
  exact ⟨⟨h', hiG, fun _ => hkey1⟩, hiL, hiF⟩

theorem BTree.applyOp_wf (au : Aug K V β γ) {t : BTree K V β} (op : Op K V)
    (hwf : TreeWF t) : TreeWF (t.applyOp au op) ∧
    (t.applyOp au op).root.toList = modelOp t.root.toList op := by
  cases op with
  | ins k v =>
    obtain ⟨h1, h2, _⟩ := BTree.insert_wf au k v hwf
    exact ⟨h1, h2⟩
  | del k =>
    obtain ⟨h, hg, hnz⟩ := hwf
    obtain ⟨h1, h2, _⟩ := BTree.delete_model au hg hnz
    exact ⟨h1, h2⟩

/-- The tree built by `runOps` is well-formed and flattens to the sorted
association-list model of the operation sequence. -/
theorem runOps_wf (au : Aug K V β γ) (ops : List (Op K V)) :
    TreeWF (runOps au ops) ∧
    (runOps au ops).root.toList = ops.foldl modelOp [] := by
  have hnew : TreeWF (BTree.new au (K := K) (V := V) (β := β)) ∧
      (BTree.new au (K := K) (V := V) (β := β)).root.toList = [] := by
    refine ⟨⟨0, .leaf (le_refl _) (by simp) .nil, by simp [BTree.new, Node.new_root]⟩, ?_⟩
    simp [BTree.new, Node.new_root, Node.toList_eq]
  rw [runOps]
  have hgen : ∀ (l : List (Op K V)) (t : BTree K V β) (m : List (K × V)),
      TreeWF t → t.root.toList = m →
      TreeWF (l.foldl (BTree.applyOp au) t) ∧
      (l.foldl (BTree.applyOp au) t).root.toList = l.foldl modelOp m := by
    intro l
    induction l with
    | nil =>
      intro t m hwf hm
      exact ⟨hwf, by simpa using hm⟩
    | cons op rest ih =>
      intro t m hwf hm
      obtain ⟨hwf', hl'⟩ := BTree.applyOp_wf au op hwf
      refine ih _ _ hwf' ?_
      rw [hl', hm]
  exact hgen ops _ _ hnew.1 hnew.2

/-! ### The prefix-sum augmentation: summary invariant -/

section SumMapLemmas

variable {M : Type} [AddCommGroup M] {A : Type}

/-- Left fold of `+` equals the starting value plus the list sum. -/
theorem foldl_add_eq (a : M) (l : List M) : l.foldl (· + ·) a = a + l.sum := by
  induction l generalizing a with
  | nil => simp
  | cons x xs ih => rw [List.foldl_cons, ih, List.sum_cons]; abel

theorem sumMap_set (f : A → M) (d : A) :
    ∀ {l : List A} {i : Nat}, i < l.length → ∀ x : A,
    ((l.set i x).map f).sum = (l.map f).sum - f (l.getD i d) + f x := by
  intro l
  induction l with
  | nil => intro i h; simp at h
  | cons y ys ih =>
    intro i h x
    cases i with
    | zero => simp; abel
    | succ j =>
      simp only [List.set_cons_succ, List.map_cons, List.sum_cons,
        List.getD_cons_succ]
      rw [ih (by simpa using h) x]
      abel

theorem sumMap_insertIdx (f : A → M) (x : A) :
    ∀ (i : Nat) {l : List A}, i ≤ l.length →
    ((l.insertIdx i x).map f).sum = (l.map f).sum + f x := by
  intro i
  induction i with
  | zero => intro l _; simp [List.insertIdx_zero]; abel
  | succ j ih =>
    intro l h
    cases l with
    | nil => simp at h
    | cons y ys =>
      simp only [List.insertIdx_succ_cons, List.map_cons, List.sum_cons]
      rw [ih (by simpa using h)]
      abel

theorem sumMap_eraseIdx (f : A → M) (d : A) :
    ∀ {l : List A} {i : Nat}, i < l.length →
    ((l.eraseIdx i).map f).sum = (l.map f).sum - f (l.getD i d) := by
  intro l
  induction l with
  | nil => intro i h; simp at h
  | cons y ys ih =>
    intro i h
    cases i with
    | zero => simp
    | succ j =>
      simp only [List.eraseIdx_cons_succ, List.map_cons, List.sum_cons,
        List.getD_cons_succ]
      rw [ih (by simpa using h)]
      abel

theorem sumMap_dropLast (f : A → M) (d : A) {l : List A} (h : l ≠ []) :
    (l.dropLast.map f).sum = (l.map f).sum - f (l.getD (l.length - 1) d) := by
  have h1 : l.dropLast = l.eraseIdx (l.length - 1) := by
    rw [List.dropLast_eq_take, eraseIdx_pred_take]
    have := List.length_pos.2 h
    omega
  rw [h1, sumMap_eraseIdx f d (by have := List.length_pos.2 h; omega)]

theorem sumMap_drop_one (f : A → M) (d : A) {l : List A} (h : l ≠ []) :
    ((l.drop 1).map f).sum = (l.map f).sum - f (l.getD 0 d) := by
  rw [← eraseIdx_zero_drop, sumMap_eraseIdx f d (List.length_pos.2 h)]

theorem sumMap_take_add_drop (f : A → M) (n : Nat) (l : List A) :
    ((l.take n).map f).sum + ((l.drop n).map f).sum = (l.map f).sum := by
  conv_rhs => rw [← List.take_append_drop n l]
  simp

end SumMapLemmas

variable [AddCommGroup V]

/-- Sum of the values of an association list; the from-scratch fold of the
prefix-sum augmentation over a subtree's pairs. -/
def listSum (l : List (K × V)) : V := (l.map Prod.snd).sum

@[simp]
theorem listSum_nil : listSum ([] : List (K × V)) = 0 := rfl

@[simp]
theorem listSum_cons (p : K × V) (l : List (K × V)) :
    listSum (p :: l) = p.2 + listSum l := by
  simp [listSum]

@[simp]
theorem listSum_append (A B : List (K × V)) :
    listSum (A ++ B) = listSum A + listSum B := by
  simp [listSum]

theorem listSum_insertIdx (p : K × V) {i : Nat} {l : List (K × V)}
    (h : i ≤ l.length) : listSum (l.insertIdx i p) = listSum l + p.2 :=
  sumMap_insertIdx Prod.snd p i h

theorem listSum_eraseIdx (d : K × V) {l : List (K × V)} {i : Nat}
    (h : i < l.length) :
    listSum (l.eraseIdx i) = listSum l - (l.getD i d).2 :=
  sumMap_eraseIdx Prod.snd d h

theorem listSum_insertSorted_none {k : K} {l : List (K × V)}
    (h : lookupL k l = none) (v : V) :
    listSum (insertSorted k v l) = listSum l + v := by
  induction l with
  | nil =>
    simp [insertSorted]
    try abel
  | cons p ps ih =>
    rw [lookupL] at h
    by_cases h1 : k < p.1
    · rw [insertSorted, if_pos h1]
      simp
      abel
    · by_cases h2 : k = p.1
      · rw [if_pos h2.symm] at h
        cases h
      · rw [insertSorted, if_neg h1, if_neg h2, listSum_cons, listSum_cons,
          ih (by rwa [if_neg (fun he => h2 he.symm)] at h)]
        abel

theorem listSum_eraseKey_some {k : K} {l : List (K × V)} {v : V}
    (h : lookupL k l = some v) :
    listSum (eraseKey k l) = listSum l - v := by
  induction l with
  | nil => simp [lookupL] at h
  | cons p ps ih =>
    rw [lookupL] at h
    by_cases h1 : p.1 = k
    · rw [if_pos h1] at h
      cases h
      rw [eraseKey, if_pos h1, listSum_cons]
      abel
    · rw [if_neg h1] at h
      rw [eraseKey, if_neg h1, listSum_cons, listSum_cons, ih h]
      abel

theorem eraseKey_eq_self_of_none {k : K} {l : List (K × V)}
    (h : lookupL k l = none) : eraseKey k l = l := by
  induction l with
  | nil => rfl
  | cons p ps ih =>
    rw [lookupL] at h
    by_cases h1 : p.1 = k
    · rw [if_pos h1] at h
      cases h
    · rw [if_neg h1] at h
      rw [eraseKey, if_neg h1, ih h]

/-- The in-order flattening sums to the child sums plus the key sums, with
no shape assumptions. -/
theorem listSum_toListAux : ∀ (cs : List (Node K V V)) (ks : List (K × V)),
    listSum (toListAux cs ks)
      = (cs.map (fun c => listSum c.toList)).sum + listSum ks := by
  intro cs
  induction cs with
  | nil => intro ks; simp
  | cons c cs ih =>
    intro ks
    cases ks with
    | nil =>
      rw [toListAux_cons_nil, listSum_append, ih]
      simp
    | cons k ks =>
      rw [toListAux_cons_cons, listSum_append, listSum_cons, ih]
      simp only [List.map_cons, List.sum_cons, listSum_cons]
      abel

/-- The prefix-sum summary invariant: every node's cached `aug_val` is the
sum of the values in its subtree, recomputed from scratch. -/
def Node.augOk : Node K V V → Prop
  | ⟨ks, cs, a⟩ => a = listSum (toListAux cs ks) ∧ ∀ c ∈ cs, c.augOk
termination_by nd => nd.nsize
decreasing_by
  rename_i hmem
  calc c.nsize ≤ nsizeL cs := nsize_mem_le hmem
    _ < (Node.mk ks cs a).nsize := by rw [Node.nsize_mk]; omega

theorem Node.augOk_mk (ks : List (K × V)) (cs : List (Node K V V)) (a : V) :
    (Node.mk ks cs a).augOk ↔
      a = listSum (toListAux cs ks) ∧ ∀ c ∈ cs, c.augOk := by
  rw [Node.augOk]

theorem Node.augOk_iff (nd : Node K V V) :
    nd.augOk ↔ nd.aug_val = listSum nd.toList ∧ ∀ c ∈ nd.children, c.augOk := by
  obtain ⟨ks, cs, a⟩ := nd
  rw [Node.augOk_mk]
  simp

theorem Node.augOk_sum (nd : Node K V V) (h : nd.augOk) :
    nd.aug_val = listSum nd.toList := ((Node.augOk_iff nd).1 h).1

theorem Node.augOk_children {nd : Node K V V} (h : nd.augOk) :
    ∀ c ∈ nd.children, c.augOk := ((Node.augOk_iff nd).1 h).2

/-- Over summary-correct children, the child-sum list is the list of cached
summaries. -/
theorem sumAugs_eq {cs : List (Node K V V)} (hc : ∀ c ∈ cs, c.augOk) :
    (cs.map Node.aug_val).sum = (cs.map (fun c => listSum c.toList)).sum := by
  have : cs.map Node.aug_val = cs.map (fun c => listSum c.toList) :=
    List.map_congr_left (fun c hm => Node.augOk_sum c (hc c hm))
  rw [this]

/-! #### Reductions of the `SumAugment` callbacks -/

@[simp]
theorem SumAugment_initial_value :
    (SumAugment K V).initial_value = 0 := rfl

@[simp]
theorem SumAugment_initial_output :
    (SumAugment K V).initial_output = 0 := rfl

@[simp]
theorem SumAugment_inserted_sub_tree (k : K) (v : V) (old : V) :
    (SumAugment K V).inserted_sub_tree k v old = old + v := rfl

@[simp]
theorem SumAugment_deleted_sub_tree (k : K) (v : V) (old : V) :
    (SumAugment K V).deleted_sub_tree k v old = old - v := rfl

theorem SumAugment_split (lk rk : List (K × V)) (m : K × V) (lcs rcs : List V)
    (old : V) :
    (SumAugment K V).split lk rk m lcs rcs old
      = (listSum lk + lcs.sum, old - m.2 - (listSum lk + lcs.sum)) := by
  rw [SumAugment]
  dsimp only
  rw [foldl_add_eq, foldl_add_eq]
  rw [listSum]
  simp [zero_add]

@[simp]
theorem SumAugment_split_root (m : K × V) (l r : V) :
    (SumAugment K V).split_root m l r = m.2 + l + r := rfl

@[simp]
theorem SumAugment_merge (m : K × V) (l r : V) :
    (SumAugment K V).merge m l r = l + r + m.2 := rfl

theorem SumAugment_steal_some (pp vp : (K × V)) (c : V) (thief victim : V) :
    (SumAugment K V).steal pp vp (some c) thief victim
      = (thief + pp.2 + c, victim - vp.2 - c) := rfl

theorem SumAugment_steal_none (pp vp : (K × V)) (thief victim : V) :
    (SumAugment K V).steal pp vp none thief victim
      = (thief + pp.2, victim - vp.2) := rfl

/-! #### Summary preservation through the node primitives -/

/-- `Node::split` with the prefix-sum augmentation: both halves carry the
sum of their own subtree. -/
theorem split_aug {nd : Node K V V} (ha : nd.augOk)
    (hfull : nd.keys.length = 2 * MIN_DEGREE - 1) :
    (nd.split (SumAugment K V)).2.1.augOk ∧
    (nd.split (SumAugment K V)).2.2.augOk := by
  have hMD : MIN_DEGREE = 6 := rfl
  obtain ⟨ks, cs, a⟩ := nd
  simp only [Node.keys_mk] at hfull
  obtain ⟨hsum, hch⟩ := (Node.augOk_mk ks cs a).1 ha
  have hmemL : ∀ c ∈ (if cs.isEmpty then cs else cs.take MIN_DEGREE), c ∈ cs := by
    intro c hc
    by_cases hemp : cs.isEmpty
    · rwa [if_pos hemp] at hc
    · rw [if_neg hemp] at hc
      exact List.take_subset _ _ hc
  have hmemR : ∀ c ∈ (if cs.isEmpty then [] else cs.drop MIN_DEGREE), c ∈ cs := by
    intro c hc
    by_cases hemp : cs.isEmpty
    · rw [if_pos hemp] at hc
      simp at hc
    · rw [if_neg hemp] at hc
      exact List.drop_subset _ _ hc
  have hkdec : listSum ks = listSum (ks.take (MIN_DEGREE - 1))
      + (ks.getD (MIN_DEGREE - 1) default).2 + listSum (ks.drop MIN_DEGREE) := by
    conv_lhs => rw [← take_getD_drop (l := ks) (i := MIN_DEGREE - 1) default (by omega)]
    have : MIN_DEGREE - 1 + 1 = MIN_DEGREE := by omega
    rw [this, listSum_append, listSum_cons]
    abel
  have hcdec : ((if cs.isEmpty then cs else cs.take MIN_DEGREE).map
        (fun c => listSum c.toList)).sum
      + ((if cs.isEmpty then [] else cs.drop MIN_DEGREE).map
        (fun c => listSum c.toList)).sum
      = (cs.map (fun c => listSum c.toList)).sum := by
    by_cases hemp : cs.isEmpty
    · rw [if_pos hemp, if_pos hemp]
      simp
    · rw [if_neg hemp, if_neg hemp]
      exact sumMap_take_add_drop _ _ _
  rw [Node.split]
  dsimp only
  rw [SumAugment_split]
  constructor
  · rw [Node.augOk_mk]
    refine ⟨?_, fun c hc => hch c (hmemL c hc)⟩
    rw [listSum_toListAux, sumAugs_eq (fun c hc => hch c (hmemL c hc))]
    abel
  · rw [Node.augOk_mk]
    refine ⟨?_, fun c hc => hch c (hmemR c hc)⟩
    rw [listSum_toListAux, sumAugs_eq (fun c hc => hch c (hmemL c hc))]
    dsimp only
    rw [hsum, listSum_toListAux, hkdec, ← hcdec]
    abel

/-- `Node::split_child` with the prefix-sum augmentation preserves the
summary invariant. -/
theorem split_child_aug {lb h : Nat} {lo hi : Option K} {ks : List (K × V)}
    {cs : List (Node K V V)} {a : V}
    (hg : Good lb (h + 1) lo hi (Node.mk ks cs a)) (i : Nat) (hile : i ≤ ks.length)
    (hsz : ks.length ≤ 2 * MIN_DEGREE - 2)
    (hfull : (cs.getD i default).keys.length = 2 * MIN_DEGREE - 1)
    (ha : (Node.mk ks cs a).augOk) :
    (Node.split_child (SumAugment K V) i (Node.mk ks cs a)).augOk := by
  obtain ⟨hg', htl, hkeq, hceq, haug⟩ :=
    Good.split_child_spec (SumAugment K V) hg i hile hsz hfull
  obtain ⟨hsum, hch⟩ := (Node.augOk_mk ks cs a).1 ha
  have hclen := hg.children_len
  simp only [Node.children_mk, Node.keys_mk] at hclen
  have hilt : i < cs.length := by omega
  have hcho : (cs.getD i default).augOk := hch _ (getD_mem default hilt)
  obtain ⟨hL, hR⟩ := split_aug hcho hfull
  rw [Node.augOk_iff]
  constructor
  · rw [haug, htl]
    exact hsum
  · rw [hceq]
    intro c hc
    rcases mem_insertIdx_cases hc with hc1 | hc1
    · rw [hc1]
      exact hR
    · rcases List.mem_or_eq_of_mem_set hc1 with hc2 | hc2
      · exact hch c hc2
      · rw [hc2]
        exact hL

/-- `Node::merge_children` with the prefix-sum augmentation preserves the
summary invariant. -/
theorem merge_children_aug {lb h : Nat} {lo hi : Option K} {ks : List (K × V)}
    {cs : List (Node K V V)} {a : V} {j : Nat}
    (hg : Good lb (h + 1) lo hi (Node.mk ks cs a)) (hj : j < ks.length)
    (hminL : (cs.getD j default).keys.length = MIN_DEGREE - 1)
    (hminR : (cs.getD (j + 1) default).keys.length = MIN_DEGREE - 1)
    (ha : (Node.mk ks cs a).augOk) :
    (Node.merge_children (SumAugment K V) j (Node.mk ks cs a)).augOk := by
  have hMD : MIN_DEGREE = 6 := rfl
  obtain ⟨hsum, hch⟩ := (Node.augOk_mk ks cs a).1 ha
  have hseq := hg.toSeq
  have hlen := hseq.length_eq
  have hjlt : j + 1 < cs.length := by omega
  have hcL := hseq.child j (by omega)
  have hcR := hseq.child (j + 1) hjlt
  obtain ⟨hsepL, hsepR⟩ := sorted_sep_bounds hg.toSeq.sortedKeys hj
  have hbLR : boundL lo ks (j + 1) = some (ks.getD j default).1 := by
    simp [boundL]
  have hbRj : boundR hi ks j = some (ks.getD j default).1 := by
    unfold boundR
    rw [if_neg (by omega)]
  rw [hbLR] at hcR
  rw [hbRj] at hcL
  obtain ⟨hgM, hlM, hkM⟩ := Good.merge_node
    ((SumAugment K V).merge (ks.getD j default) (cs.getD j default).aug_val
      (cs.getD (j + 1) default).aug_val)
    hcL hcR hsepL hsepR hminL hminR
  have hshape : Node.merge_children (SumAugment K V) j (Node.mk ks cs a)
      = Node.mk (ks.eraseIdx j) ((cs.eraseIdx (j + 1)).set j
          (Node.mk ((cs.getD j default).keys.take (MIN_DEGREE - 1) ++
            (ks.getD j default) ::
              (cs.getD (j + 1) default).keys.take (MIN_DEGREE - 1))
          (if (cs.getD j default).children.isEmpty then
            (cs.getD j default).children
          else (cs.getD j default).children ++ (cs.getD (j + 1) default).children)
          ((SumAugment K V).merge (ks.getD j default) (cs.getD j default).aug_val
            (cs.getD (j + 1) default).aug_val))) a := by
    rw [Node.merge_children]
    rw [if_pos ⟨by omega, hj⟩]
  have hokL : (cs.getD j default).augOk := hch _ (getD_mem default (by omega))
  have hokR : (cs.getD (j + 1) default).augOk := hch _ (getD_mem default hjlt)
  have hMsum : listSum (Node.mk ((cs.getD j default).keys.take (MIN_DEGREE - 1) ++
        (ks.getD j default) ::
          (cs.getD (j + 1) default).keys.take (MIN_DEGREE - 1))
      (if (cs.getD j default).children.isEmpty then
        (cs.getD j default).children
      else (cs.getD j default).children ++ (cs.getD (j + 1) default).children)
      ((SumAugment K V).merge (ks.getD j default) (cs.getD j default).aug_val
        (cs.getD (j + 1) default).aug_val)).toList
      = listSum (cs.getD j default).toList + (ks.getD j default).2
        + listSum (cs.getD (j + 1) default).toList := by
    rw [hlM, listSum_append, listSum_cons]
    abel
  have hMok : (Node.mk ((cs.getD j default).keys.take (MIN_DEGREE - 1) ++
        (ks.getD j default) ::
          (cs.getD (j + 1) default).keys.take (MIN_DEGREE - 1))
      (if (cs.getD j default).children.isEmpty then
        (cs.getD j default).children
      else (cs.getD j default).children ++ (cs.getD (j + 1) default).children)
      ((SumAugment K V).merge (ks.getD j default) (cs.getD j default).aug_val
        (cs.getD (j + 1) default).aug_val)).augOk := by
    rw [Node.augOk_mk]
    constructor
    · rw [← Node.toList_mk ((cs.getD j default).keys.take (MIN_DEGREE - 1) ++
        (ks.getD j default) ::
          (cs.getD (j + 1) default).keys.take (MIN_DEGREE - 1)) _
        ((SumAugment K V).merge (ks.getD j default) (cs.getD j default).aug_val
          (cs.getD (j + 1) default).aug_val), hMsum]
      rw [SumAugment_merge, Node.augOk_sum _ hokL, Node.augOk_sum _ hokR]
      abel
    · intro c hc
      by_cases hemp : (cs.getD j default).children.isEmpty
      · rw [if_pos hemp] at hc
        exact Node.augOk_children hokL c hc
      · rw [if_neg hemp] at hc
        rcases List.mem_append.1 hc with hc1 | hc1
        · exact Node.augOk_children hokL c hc1
        · exact Node.augOk_children hokR c hc1
  rw [hshape, Node.augOk_mk]
  constructor
  · have hj' : j < (cs.eraseIdx (j + 1)).length := by
      rw [List.length_eraseIdx_of_lt hjlt]
      omega
    rw [listSum_toListAux,
      sumMap_set (fun c => listSum c.toList) default hj' _,
      sumMap_eraseIdx (fun c => listSum c.toList) default hjlt,
      getD_eraseIdx_lt default (by omega),
      listSum_eraseIdx default hj, hMsum]
    rw [hsum, listSum_toListAux]
    abel
  · intro c hc
    rcases List.mem_or_eq_of_mem_set hc with hc1 | hc1
    · exact hch c (List.eraseIdx_subset _ _ hc1)
    · rw [hc1]
      exact hMok

theorem listSum_set (d : K × V) {l : List (K × V)} {i : Nat} (h : i < l.length)
    (p : K × V) : listSum (l.set i p) = listSum l - (l.getD i d).2 + p.2 :=
  sumMap_set Prod.snd d h p

/-- Rebuilding a parent after a steal: if the two rebuilt children are
summary-correct and the sums balance, the parent is summary-correct. -/
theorem steal_rebuild_augOk {ks : List (K × V)} {cs : List (Node K V V)} {a : V}
    {p q r : Nat} (hpq : p ≠ q) (hp : p < cs.length) (hq : q < cs.length)
    (hr : r < ks.length)
    (hsum : a = listSum (toListAux cs ks)) (hch : ∀ c ∈ cs, c.augOk)
    {X Y : Node K V V} (sp : K × V)
    (hX : X.augOk) (hY : Y.augOk)
    (hbal : listSum X.toList + listSum Y.toList + sp.2
      = listSum (cs.getD p default).toList + listSum (cs.getD q default).toList
        + (ks.getD r default).2) :
    (Node.mk (ks.set r sp) ((cs.set p X).set q Y) a).augOk := by
  have hYs : listSum Y.toList
      = listSum (cs.getD p default).toList + listSum (cs.getD q default).toList
        + (ks.getD r default).2 - listSum X.toList - sp.2 := by
    rw [← hbal]
    abel
  rw [Node.augOk_mk]
  constructor
  · rw [listSum_toListAux,
      sumMap_set (fun c => listSum c.toList) default (by simpa using hq) Y,
      getD_set_ne default X hpq,
      sumMap_set (fun c => listSum c.toList) default hp X,
      listSum_set default hr sp,
      hYs, hsum, listSum_toListAux]
    abel
  · intro c hc
    rcases List.mem_or_eq_of_mem_set hc with hc1 | hc1
    · rcases List.mem_or_eq_of_mem_set hc1 with hc2 | hc2
      · exact hch c hc2
      · rw [hc2]
        exact hX
    · rw [hc1]
      exact hY

/-- `Node::make_space` with the prefix-sum augmentation preserves the
summary invariant. -/
theorem make_space_aug {lb h : Nat} {lo hi : Option K} {ks : List (K × V)}
    {cs : List (Node K V V)} {a : V} {idx : Nat}
    (hg : Good lb (h + 1) lo hi (Node.mk ks cs a)) (hks1 : 1 ≤ ks.length)
    (hile : idx ≤ ks.length)
    (hmin : (cs.getD idx default).keys.length = MIN_DEGREE - 1)
    (ha : (Node.mk ks cs a).augOk) :
    (Node.make_space (SumAugment K V) idx (Node.mk ks cs a)).2.augOk := by
  have hMD : MIN_DEGREE = 6 := rfl
  obtain ⟨hsum, hch⟩ := (Node.augOk_mk ks cs a).1 ha
  have hlen := hg.children_len
  simp only [Node.children_mk, Node.keys_mk] at hlen
  have hseq := hg.toSeq
  rw [Node.make_space]
  by_cases hc1 : 0 < idx ∧ ¬(cs.getD (idx - 1) default).is_min = true
  · -- steal a key from the left sibling
    have h0 := hc1.1
    have hvlen6 : MIN_DEGREE ≤ (cs.getD (idx - 1) default).keys.length := by
      have h5 := hc1.2
      simp only [Node.is_min, decide_eq_true_eq] at h5
      have := (hseq.child (idx - 1) (by omega)).size_le.1
      omega
    have hvm : idx - 1 < cs.length := by omega
    have htm : idx < cs.length := by omega
    have hvok : (cs.getD (idx - 1) default).augOk := hch _ (getD_mem default hvm)
    have htok : (cs.getD idx default).augOk := hch _ (getD_mem default htm)
    obtain ⟨hvsum, hvch⟩ := (Node.augOk_iff _).1 hvok
    obtain ⟨htsum, htch⟩ := (Node.augOk_iff _).1 htok
    rw [Node.toList_eq, listSum_toListAux] at hvsum htsum
    rw [if_pos hc1]
    dsimp only
    simp only [Node.remove_pair_keys, Node.remove_pair_children,
      Node.remove_pair_aug, Node.remove_pair_fst]
    by_cases hemp : (cs.getD (idx - 1) default).children.isEmpty
    · rw [if_pos hemp]
      dsimp only
      try simp only [Option.map_none']
      rw [SumAugment_steal_none]
      dsimp only
      try simp only [Node.insert_pair, Node.insert_pair_keys,
        Node.insert_pair_children, Node.insert_pair_aug, Node.remove_pair_keys,
        Node.remove_pair_children, Node.remove_pair_aug, Node.keys_mk,
        Node.children_mk, Node.aug_val_mk, List.insertIdx_zero]
      have hXok : (Node.mk
          ((cs.getD (idx - 1) default).keys.eraseIdx
            ((cs.getD (idx - 1) default).keys.length - 1))
          (cs.getD (idx - 1) default).children
          ((cs.getD (idx - 1) default).aug_val
            - ((cs.getD (idx - 1) default).keys.getD
              ((cs.getD (idx - 1) default).keys.length - 1) default).2)).augOk := by
        rw [Node.augOk_mk]
        refine ⟨?_, hvch⟩
        rw [listSum_toListAux, listSum_eraseIdx default (by omega), hvsum]
        abel
      have hYok : (Node.mk
          ((ks.getD (idx - 1) default) :: (cs.getD idx default).keys)
          (cs.getD idx default).children
          ((cs.getD idx default).aug_val + (ks.getD (idx - 1) default).2)).augOk := by
        rw [Node.augOk_mk]
        refine ⟨?_, htch⟩
        rw [listSum_toListAux, listSum_cons, htsum]
        abel
      refine steal_rebuild_augOk (by omega) hvm htm (by omega) hsum hch _ hXok hYok ?_
      rw [← Node.augOk_sum _ hXok, ← Node.augOk_sum _ hYok,
        ← Node.augOk_sum _ hvok, ← Node.augOk_sum _ htok]
      simp only [Node.aug_val_mk]
      abel
    · rw [if_neg hemp]
      dsimp only
      try simp only [Option.map_some']
      rw [SumAugment_steal_some]
      dsimp only
      try simp only [Node.insert_pair, Node.insert_pair_keys,
        Node.insert_pair_children, Node.insert_pair_aug, Node.remove_pair_keys,
        Node.remove_pair_children, Node.remove_pair_aug, Node.keys_mk,
        Node.children_mk, Node.aug_val_mk, List.insertIdx_zero]
      have hvcne : (cs.getD (idx - 1) default).children ≠ [] := by
        simpa [List.isEmpty_iff] using hemp
      have hcmem : (cs.getD (idx - 1) default).children.getD
          ((cs.getD (idx - 1) default).children.length - 1) default
          ∈ (cs.getD (idx - 1) default).children :=
        getD_mem default (by have := List.length_pos.2 hvcne; omega)
      have hcok := hvch _ hcmem
      have hXok : (Node.mk
          ((cs.getD (idx - 1) default).keys.eraseIdx
            ((cs.getD (idx - 1) default).keys.length - 1))
          (cs.getD (idx - 1) default).children.dropLast
          ((cs.getD (idx - 1) default).aug_val
            - ((cs.getD (idx - 1) default).keys.getD
              ((cs.getD (idx - 1) default).keys.length - 1) default).2
            - ((cs.getD (idx - 1) default).children.getD
              ((cs.getD (idx - 1) default).children.length - 1) default).aug_val)).augOk := by
        rw [Node.augOk_mk]
        refine ⟨?_, fun c hc => hvch c (List.dropLast_subset _ hc)⟩
        rw [listSum_toListAux, listSum_eraseIdx default (by omega),
          sumMap_dropLast (fun c => listSum c.toList) default hvcne, hvsum,
          Node.augOk_sum _ hcok]
        abel
      have hYok : (Node.mk
          ((ks.getD (idx - 1) default) :: (cs.getD idx default).keys)
          ((cs.getD (idx - 1) default).children.getD
            ((cs.getD (idx - 1) default).children.length - 1) default
            :: (cs.getD idx default).children)
          ((cs.getD idx default).aug_val + (ks.getD (idx - 1) default).2
            + ((cs.getD (idx - 1) default).children.getD
              ((cs.getD (idx - 1) default).children.length - 1) default).aug_val)).augOk := by
        rw [Node.augOk_mk]
        constructor
        · rw [listSum_toListAux]
          simp only [List.map_cons, List.sum_cons]
          rw [listSum_cons, htsum, Node.augOk_sum _ hcok]
          abel
        · intro c hc
          rcases List.mem_cons.1 hc with rfl | hc1
          · exact hcok
          · exact htch c hc1
      refine steal_rebuild_augOk (by omega) hvm htm (by omega) hsum hch _ hXok hYok ?_
      rw [← Node.augOk_sum _ hXok, ← Node.augOk_sum _ hYok,
        ← Node.augOk_sum _ hvok, ← Node.augOk_sum _ htok]
      simp only [Node.aug_val_mk]
      abel
  · rw [if_neg hc1]
    by_cases hc2 : idx < ks.length ∧ ¬(cs.getD (idx + 1) default).is_min = true
    · -- steal a key from the right sibling
      have hvlen6 : MIN_DEGREE ≤ (cs.getD (idx + 1) default).keys.length := by
        have h5 := hc2.2
        simp only [Node.is_min, decide_eq_true_eq] at h5
        have := (hseq.child (idx + 1) (by omega)).size_le.1
        omega
      have hvm : idx + 1 < cs.length := by omega
      have htm : idx < cs.length := by omega
      have hvok : (cs.getD (idx + 1) default).augOk := hch _ (getD_mem default hvm)
      have htok : (cs.getD idx default).augOk := hch _ (getD_mem default htm)
      obtain ⟨hvsum, hvch⟩ := (Node.augOk_iff _).1 hvok
      obtain ⟨htsum, htch⟩ := (Node.augOk_iff _).1 htok
      rw [Node.toList_eq, listSum_toListAux] at hvsum htsum
      rw [if_pos hc2]
      dsimp only
      simp only [Node.remove_pair_keys, Node.remove_pair_children,
        Node.remove_pair_aug, Node.remove_pair_fst]
      by_cases hemp : (cs.getD (idx + 1) default).children.isEmpty
      · rw [if_pos hemp]
        dsimp only
        try simp only [Option.map_none']
        rw [SumAugment_steal_none]
        dsimp only
        try simp only [Node.insert_pair, Node.insert_pair_keys,
          Node.insert_pair_children, Node.insert_pair_aug, Node.remove_pair_keys,
          Node.remove_pair_children, Node.remove_pair_aug, Node.keys_mk,
          Node.children_mk, Node.aug_val_mk, List.insertIdx_zero]
        have hXok : (Node.mk
            ((cs.getD (idx + 1) default).keys.eraseIdx 0)
            (cs.getD (idx + 1) default).children
            ((cs.getD (idx + 1) default).aug_val
              - ((cs.getD (idx + 1) default).keys.getD 0 default).2)).augOk := by
          rw [Node.augOk_mk]
          refine ⟨?_, hvch⟩
          rw [listSum_toListAux, listSum_eraseIdx default (by omega), hvsum]
          abel
        have hYok : (Node.mk
            ((cs.getD idx default).keys.insertIdx
              (cs.getD idx default).keys.length (ks.getD idx default))
            (cs.getD idx default).children
            ((cs.getD idx default).aug_val + (ks.getD idx default).2)).augOk := by
          rw [Node.augOk_mk]
          refine ⟨?_, htch⟩
          rw [listSum_toListAux, listSum_insertIdx _ (le_refl _), htsum]
          abel
        refine steal_rebuild_augOk (by omega) hvm htm (by omega) hsum hch _ hXok hYok ?_
        rw [← Node.augOk_sum _ hXok, ← Node.augOk_sum _ hYok,
          ← Node.augOk_sum _ hvok, ← Node.augOk_sum _ htok]
        simp only [Node.aug_val_mk]
        abel
      · rw [if_neg hemp]
        dsimp only
        try simp only [Option.map_some']
        rw [SumAugment_steal_some]
        dsimp only
        try simp only [Node.insert_pair, Node.insert_pair_keys,
          Node.insert_pair_children, Node.insert_pair_aug, Node.remove_pair_keys,
          Node.remove_pair_children, Node.remove_pair_aug, Node.keys_mk,
          Node.children_mk, Node.aug_val_mk, List.insertIdx_zero]
        have hvcne : (cs.getD (idx + 1) default).children ≠ [] := by
          simpa [List.isEmpty_iff] using hemp
        have hcmem : (cs.getD (idx + 1) default).children.getD 0 default
            ∈ (cs.getD (idx + 1) default).children :=
          getD_mem default (List.length_pos.2 hvcne)
        have hcok := hvch _ hcmem
        have hXok : (Node.mk
            ((cs.getD (idx + 1) default).keys.eraseIdx 0)
            ((cs.getD (idx + 1) default).children.drop 1)
            ((cs.getD (idx + 1) default).aug_val
              - ((cs.getD (idx + 1) default).keys.getD 0 default).2
              - ((cs.getD (idx + 1) default).children.getD 0 default).aug_val)).augOk := by
          rw [Node.augOk_mk]
          refine ⟨?_, fun c hc => hvch c (List.drop_subset _ _ hc)⟩
          rw [listSum_toListAux, listSum_eraseIdx default (by omega),
            sumMap_drop_one (fun c => listSum c.toList) default hvcne, hvsum,
            Node.augOk_sum _ hcok]
          abel
        have hYok : (Node.mk
            ((cs.getD idx default).keys.insertIdx
              (cs.getD idx default).keys.length (ks.getD idx default))
            ((cs.getD idx default).children
              ++ [(cs.getD (idx + 1) default).children.getD 0 default])
            ((cs.getD idx default).aug_val + (ks.getD idx default).2
              + ((cs.getD (idx + 1) default).children.getD 0 default).aug_val)).augOk := by
          rw [Node.augOk_mk]
          constructor
          · rw [listSum_toListAux]
            simp only [List.map_append, List.sum_append, List.map_cons,
              List.sum_cons, List.map_nil, List.sum_nil]
            rw [listSum_insertIdx _ (le_refl _), htsum, Node.augOk_sum _ hcok]
            abel
          · intro c hc
            rcases List.mem_append.1 hc with hc1 | hc1
            · exact htch c hc1
            · rw [List.mem_singleton.1 hc1]
              exact hcok
        refine steal_rebuild_augOk (by omega) hvm htm (by omega) hsum hch _ hXok hYok ?_
        rw [← Node.augOk_sum _ hXok, ← Node.augOk_sum _ hYok,
          ← Node.augOk_sum _ hvok, ← Node.augOk_sum _ htok]
        simp only [Node.aug_val_mk]
        abel
    · rw [if_neg hc2]
      by_cases h0 : 0 < idx
      · -- merge with the left sibling
        rw [if_pos h0]
        dsimp only
        have hminL : (cs.getD (idx - 1) default).keys.length = MIN_DEGREE - 1 := by
          have hnm : (cs.getD (idx - 1) default).is_min = true := by
            by_contra hx
            exact hc1 ⟨h0, hx⟩
          simp only [Node.is_min, decide_eq_true_eq] at hnm
          have := (hseq.child (idx - 1) (by omega)).size_le.1
          omega
        have hidx1 : idx - 1 + 1 = idx := by omega
        refine merge_children_aug hg (by omega) hminL ?_ ha
        rw [hidx1]
        exact hmin
      · -- merge with the right sibling
        rw [if_neg h0]
        dsimp only
        have hidx0 : idx = 0 := by omega
        subst hidx0
        have hminR : (cs.getD (0 + 1) default).keys.length = MIN_DEGREE - 1 := by
          have hnm : (cs.getD (0 + 1) default).is_min = true := by
            by_contra hx
            exact hc2 ⟨by omega, hx⟩
          simp only [Node.is_min, decide_eq_true_eq] at hnm
          have h7 : (cs.getD (0 + 1) default).keys.length < MIN_DEGREE := hnm
          have h8 := (hseq.child 1 (by omega)).size_le.1
          have h9 : (cs.getD (0 + 1) default).keys.length
              = (cs.getD 1 default).keys.length := by norm_num
          omega
        exact merge_children_aug hg (by omega) hmin hminR ha

/-- Rebuilding a node around a recursively updated child: the tentative
`inserted_sub_tree` summary is consistent iff the child sum grew by the
inserted value (or was corrected back on a duplicate). -/
theorem insert_child_rebuild_aug {ks : List (K × V)} {cs : List (Node K V V)}
    {a a' : V} {i1 : Nat} (hi1 : i1 < cs.length)
    (hsum : a = listSum (toListAux cs ks)) (hch : ∀ c ∈ cs, c.augOk)
    {c' : Node K V V} (hc' : c'.augOk) {d : V} (ha' : a' = a + d)
    (hdelta : listSum c'.toList = listSum ((cs.getD i1 default)).toList + d) :
    (Node.mk ks (cs.set i1 c') a').augOk ∧
    listSum (Node.mk ks (cs.set i1 c') a').toList
      = listSum (toListAux cs ks) + d := by
  have hmain : listSum (toListAux (cs.set i1 c') ks)
      = listSum (toListAux cs ks) + d := by
    rw [listSum_toListAux, sumMap_set (fun c => listSum c.toList) default hi1 c',
      hdelta, listSum_toListAux]
    abel
  refine ⟨?_, by simpa using hmain⟩
  rw [Node.augOk_mk]
  refine ⟨by rw [hmain, ha', hsum], ?_⟩
  intro c hc
  rcases List.mem_or_eq_of_mem_set hc with hc1 | hc1
  · exact hch c hc1
  · rw [hc1]
    exact hc'

/-- `Node::insert_non_full` with the prefix-sum augmentation: the summary
invariant is preserved and the subtree sum grows by the inserted value
exactly when the insert succeeds. -/
theorem insert_non_full_aug :
    ∀ {h lb : Nat} {lo hi : Option K} {nd : Node K V V} {k : K} (v : V),
    Good lb h lo hi nd → nd.keys.length ≤ 2 * MIN_DEGREE - 2 → nd.augOk →
    (nd.insert_non_full (SumAugment K V) k v).1.augOk ∧
    listSum (nd.insert_non_full (SumAugment K V) k v).1.toList
      = listSum nd.toList
        + (if (nd.insert_non_full (SumAugment K V) k v).2 = true then v else 0) := by
  intro h
  induction h with
  | zero =>
    intro lb lo hi nd k v hg hsz ha
    obtain ⟨ks, cs, a⟩ := nd
    obtain ⟨hsum, hch⟩ := (Node.augOk_mk ks cs a).1 ha
    cases hg with
    | leaf h1 h2 hs =>
      rw [Node.insert_non_full]
      cases hidx : keyIdx k ks with
      | ok i =>
        refine ⟨ha, ?_⟩
        simp
      | error i =>
        obtain ⟨hile, _, _⟩ := keyIdx_err_spec hidx
        simp only [List.isEmpty_nil, dite_true]
        refine ⟨?_, ?_⟩
        · rw [Node.augOk_mk]
          refine ⟨?_, by simp⟩
          rw [toListAux_nil, listSum_insertIdx _ hile, hsum]
          simp
        · simp only [Node.toList_mk, toListAux_nil]
          rw [listSum_insertIdx _ hile]
          simp
  | succ h ih =>
    intro lb lo hi nd k v hg hsz ha
    obtain ⟨ks, cs, a⟩ := nd
    simp only [Node.keys_mk] at hsz
    obtain ⟨hsum, hch⟩ := (Node.augOk_mk ks cs a).1 ha
    have hseq := hg.toSeq
    have hcsne : ¬cs.isEmpty = true := by
      simpa [List.isEmpty_iff] using hseq.ne_nil
    rw [Node.insert_non_full]
    cases hidx : keyIdx k ks with
    | ok i =>
      refine ⟨ha, ?_⟩
      simp
    | error i =>
      obtain ⟨hile, _, _⟩ := keyIdx_err_spec hidx
      have hlt : i < cs.length := by rw [hseq.length_eq]; omega
      by_cases hfull : (cs.getD i default).is_full = true
      · have hfull' : (cs.getD i default).keys.length = 2 * MIN_DEGREE - 1 := by
          simpa [Node.is_full] using hfull
        obtain ⟨hg1, hlist1, hks1, hcs1, ha1aug⟩ :=
          Good.split_child_spec (SumAugment K V) hg i hile hsz hfull'
        have ha1 := split_child_aug hg i hile hsz hfull' ha
        have hchild := hseq.child i hlt
        obtain ⟨hgL, hloM, hhiM, hgR, hdecC, hszL, hszR, _⟩ :=
          Good.split_spec (SumAugment K V) hchild hfull'
        have hnd1 : Node.split_child (SumAugment K V) i (⟨ks, cs, a⟩ : Node K V V)
            = ⟨ks.insertIdx i ((cs.getD i default).split (SumAugment K V)).1,
              (cs.set i ((cs.getD i default).split (SumAugment K V)).2.1).insertIdx
                (i + 1) ((cs.getD i default).split (SumAugment K V)).2.2, a⟩ := by
          rw [Node.split_child]
          simp [Node.insert_pair, Node.insert_child]
        rw [hnd1] at hg1 hlist1 ha1
        simp only [Node.toList_mk] at hlist1
        obtain ⟨hsum1, hch1⟩ := (Node.augOk_mk _ _ _).1 ha1
        have hMget : (ks.insertIdx i
              ((cs.getD i default).split (SumAugment K V)).1).getD i default
            = ((cs.getD i default).split (SumAugment K V)).1 :=
          getD_insertIdx_self _ _ hile
        simp only [dif_neg hcsne, hfull, if_true, hnd1, Node.keys_mk,
          Node.children_mk, Node.aug_val_mk, hMget]
        by_cases hkeq : k = ((cs.getD i default).split (SumAugment K V)).1.1
        · rw [if_pos hkeq]
          refine ⟨ha1, ?_⟩
          simp only [Node.toList_mk, hlist1]
          simp
        · rw [if_neg hkeq]
          have hlen1 : ((cs.set i ((cs.getD i default).split (SumAugment K V)).2.1).insertIdx
              (i + 1) ((cs.getD i default).split (SumAugment K V)).2.2).length
              = cs.length + 1 := by
            rw [List.length_insertIdx _ _ (by simp; omega)]
            simp
          obtain ⟨j, hjeq, hjlt, hchsz⟩ :
              ∃ j, (if ((cs.getD i default).split (SumAugment K V)).1.1 < k
                  then i + 1 else i) = j ∧
                j < ((cs.set i ((cs.getD i default).split (SumAugment K V)).2.1).insertIdx
                  (i + 1) ((cs.getD i default).split (SumAugment K V)).2.2).length ∧
                (((cs.set i ((cs.getD i default).split (SumAugment K V)).2.1).insertIdx
                  (i + 1) ((cs.getD i default).split (SumAugment K V)).2.2).getD j
                    default).keys.length ≤ 2 * MIN_DEGREE - 2 := by
            have hMD : MIN_DEGREE = 6 := rfl
            by_cases hck : ((cs.getD i default).split (SumAugment K V)).1.1 < k
            · refine ⟨i + 1, if_pos hck, by rw [hlen1]; omega, ?_⟩
              rw [getD_insertIdx_self _ _ (by simpa using hlt), hszR]
              omega
            · refine ⟨i, if_neg hck, by rw [hlen1]; omega, ?_⟩
              rw [getD_insertIdx_lt _ _ (Nat.lt_succ_self i),
                getD_set_self _ _ (by simpa using hlt), hszL]
              omega
          rw [hjeq]
          have hchild1 := hg1.toSeq.child j hjlt
          obtain ⟨hihA, hihD⟩ := ih v hchild1 hchsz (hch1 _ (getD_mem default hjlt))
          cases hres : ((((cs.set i ((cs.getD i default).split (SumAugment K V)).2.1).insertIdx
              (i + 1) ((cs.getD i default).split (SumAugment K V)).2.2).getD j
                default).insert_non_full (SumAugment K V) k v).2 with
          | true =>
            rw [if_pos rfl]
            rw [hres] at hihD
            obtain ⟨hok, hdelta2⟩ := insert_child_rebuild_aug hjlt hsum1 hch1 hihA
              (show (SumAugment K V).inserted_sub_tree k v a = a + v by simp)
              (by simpa using hihD)
            refine ⟨hok, ?_⟩
            simp only [Node.toList_mk] at hdelta2 ⊢
            rw [hdelta2, hlist1]
            simp
          | false =>
            rw [if_neg (by simp)]
            rw [hres] at hihD
            obtain ⟨hok, hdelta2⟩ := insert_child_rebuild_aug hjlt hsum1 hch1 hihA
              (show (SumAugment K V).deleted_sub_tree k v
                ((SumAugment K V).inserted_sub_tree k v a) = a + 0 by simp)
              (by simpa using hihD)
            refine ⟨hok, ?_⟩
            simp only [Node.toList_mk] at hdelta2 ⊢
            rw [hdelta2, hlist1]
            simp
      · simp only [dif_neg hcsne, hfull, Bool.false_eq_true, if_false]
        have hchild := hseq.child i hlt
        have hchsz : (cs.getD i default).keys.length ≤ 2 * MIN_DEGREE - 2 := by
          have h2 := (hchild.size_le).2
          have hne : ¬(cs.getD i default).keys.length = 2 * MIN_DEGREE - 1 := by
            simpa [Node.is_full] using hfull
          omega
        obtain ⟨hihA, hihD⟩ := ih v hchild hchsz (hch _ (getD_mem default hlt))
        cases hres : ((cs.getD i default).insert_non_full (SumAugment K V) k v).2 with
        | true =>
          rw [if_pos rfl]
          rw [hres] at hihD
          obtain ⟨hok, hdelta2⟩ := insert_child_rebuild_aug hlt hsum hch hihA
            (show (SumAugment K V).inserted_sub_tree k v a = a + v by simp)
            (by simpa using hihD)
          refine ⟨hok, ?_⟩
          simp only [Node.toList_mk] at hdelta2 ⊢
          rw [hdelta2]
          simp
        | false =>
          rw [if_neg (by simp)]
          rw [hres] at hihD
          obtain ⟨hok, hdelta2⟩ := insert_child_rebuild_aug hlt hsum hch hihA
            (show (SumAugment K V).deleted_sub_tree k v
              ((SumAugment K V).inserted_sub_tree k v a) = a + 0 by simp)
            (by simpa using hihD)
          refine ⟨hok, ?_⟩
          simp only [Node.toList_mk] at hdelta2 ⊢
          rw [hdelta2]
          simp

/-- `BTree::insert` with the prefix-sum augmentation preserves the summary
invariant (including through the preemptive root split). -/
theorem BTree.insert_aug {h : Nat} {t : BTree K V V} {k : K} (v : V)
    (hg : Good 0 h none none t.root) (ha : t.root.augOk) :
    (t.insert (SumAugment K V) k v).1.root.augOk := by
  have hMD : MIN_DEGREE = 6 := rfl
  rw [BTree.insert]
  by_cases hfull : t.root.is_full = true
  · have hfull' : t.root.keys.length = 2 * MIN_DEGREE - 1 := by
      simpa [Node.is_full] using hfull
    obtain ⟨hgL, hloM, hhiM, hgR, hdecC, hszL, hszR, _⟩ :=
      Good.split_spec (SumAugment K V) hg hfull'
    obtain ⟨haL, haR⟩ := split_aug ha hfull'
    have hseqNew : Seq (Good (MIN_DEGREE - 1) h) none none
        [(t.root.split (SumAugment K V)).2.1, (t.root.split (SumAugment K V)).2.2]
        [(t.root.split (SumAugment K V)).1] :=
      .cons hgL hloM hhiM (.single hgR)
    have hgNew : Good 0 (h + 1) none none
        (⟨[(t.root.split (SumAugment K V)).1],
          [(t.root.split (SumAugment K V)).2.1, (t.root.split (SumAugment K V)).2.2],
          (SumAugment K V).split_root (t.root.split (SumAugment K V)).1
            (t.root.split (SumAugment K V)).2.1.aug_val
            (t.root.split (SumAugment K V)).2.2.aug_val⟩ : Node K V V) :=
      Good.ofSeq (by simp) (by simp; omega) hseqNew
    have haNew : (⟨[(t.root.split (SumAugment K V)).1],
        [(t.root.split (SumAugment K V)).2.1, (t.root.split (SumAugment K V)).2.2],
        (SumAugment K V).split_root (t.root.split (SumAugment K V)).1
          (t.root.split (SumAugment K V)).2.1.aug_val
          (t.root.split (SumAugment K V)).2.2.aug_val⟩ : Node K V V).augOk := by
      rw [Node.augOk_mk]
      constructor
      · rw [SumAugment_split_root, toListAux_cons_cons, toListAux_cons_nil,
          toListAux_nil, listSum_append, listSum_cons, listSum_append, listSum_nil,
          Node.augOk_sum _ haL, Node.augOk_sum _ haR]
        abel
      · intro c hc
        rcases List.mem_cons.1 hc with rfl | hc1
        · exact haL
        · rcases List.mem_cons.1 hc1 with rfl | hc2
          · exact haR
          · cases hc2
    obtain ⟨hiA, _⟩ := insert_non_full_aug v hgNew (by simp; omega) haNew
    rw [if_pos hfull]
    exact hiA
  · have hsz : t.root.keys.length ≤ 2 * MIN_DEGREE - 2 := by
      have h2 := hg.size_le.2
      have hne : ¬t.root.keys.length = 2 * MIN_DEGREE - 1 := by
        simpa [Node.is_full] using hfull
      omega
    obtain ⟨hiA, _⟩ := insert_non_full_aug v hg hsz ha
    rw [if_neg hfull]
    exact hiA

/-- `Node::delete_max` with the prefix-sum augmentation preserves the
summary invariant. -/
theorem delete_max_aug :
    ∀ {h lb : Nat} {lo hi : Option K} {nd : Node K V V},
    Good lb h lo hi nd → lb + 1 ≤ nd.keys.length → nd.augOk →
    (nd.delete_max (SumAugment K V)).2.augOk := by
  intro h
  induction h with
  | zero =>
    intro lb lo hi nd hg hsp ha
    obtain ⟨ks, cs, a⟩ := nd
    simp only [Node.keys_mk] at hsp
    obtain ⟨hsum, hch⟩ := (Node.augOk_mk ks cs a).1 ha
    cases hg with
    | leaf h1 h2 hs =>
      rw [Node.delete_max, dif_pos (by simp)]
      dsimp only
      simp only [Node.remove_pair_keys, Node.remove_pair_children,
        Node.remove_pair_fst, Node.keys_mk, Node.children_mk]
      rw [Node.augOk_mk]
      refine ⟨?_, by simp⟩
      rw [toListAux_nil, listSum_eraseIdx default (by omega),
        SumAugment_deleted_sub_tree, hsum, toListAux_nil]
  | succ h ih =>
    intro lb lo hi nd hg hsp ha
    obtain ⟨ks, cs, a⟩ := nd
    simp only [Node.keys_mk] at hsp
    have hMD : MIN_DEGREE = 6 := rfl
    obtain ⟨hsum, hch⟩ := (Node.augOk_mk ks cs a).1 ha
    have hseq := hg.toSeq
    have hlen := hseq.length_eq
    have hcsne : ¬cs.isEmpty = true := by
      simpa [List.isEmpty_iff] using hseq.ne_nil
    have hmain : ∀ (ks' : List (K × V)) (cs' : List (Node K V V)) (b : V),
        Seq (Good (MIN_DEGREE - 1) h) lo hi cs' ks' →
        MIN_DEGREE ≤ (cs'.getD ks'.length default).keys.length →
        b = listSum (toListAux cs' ks') → (∀ c ∈ cs', c.augOk) →
        (Node.mk ks'
          (cs'.set ks'.length
            ((cs'.getD ks'.length default).delete_max (SumAugment K V)).2)
          ((SumAugment K V).deleted_sub_tree
            ((cs'.getD ks'.length default).delete_max (SumAugment K V)).1.1
            ((cs'.getD ks'.length default).delete_max (SumAugment K V)).1.2
            b)).augOk := by
      intro ks' cs' b hseq' hch6 hbsum hch'
      have hlen' := hseq'.length_eq
      have hllt : ks'.length < cs'.length := by omega
      have hchild := hseq'.child ks'.length hllt
      have hbRlast : boundR hi ks' ks'.length = hi := by
        unfold boundR
        rw [if_pos rfl]
      rw [hbRlast] at hchild
      have hchA := ih hchild (by omega) (hch' _ (getD_mem default hllt))
      obtain ⟨_, happ⟩ := Node.delete_max_spec (SumAugment K V) hchild (by omega)
      have hcsum : listSum
          ((cs'.getD ks'.length default).delete_max (SumAugment K V)).2.toList
          = listSum (cs'.getD ks'.length default).toList
            - ((cs'.getD ks'.length default).delete_max (SumAugment K V)).1.2 := by
        have h9 := congrArg listSum happ
        rw [listSum_append, listSum_cons, listSum_nil] at h9
        rw [← h9]
        abel
      rw [Node.augOk_mk]
      constructor
      · rw [listSum_toListAux,
          sumMap_set (fun c => listSum c.toList) default hllt _,
          hcsum, SumAugment_deleted_sub_tree, hbsum, listSum_toListAux]
        abel
      · intro c hc
        rcases List.mem_or_eq_of_mem_set hc with hc1 | hc1
        · exact hch' c hc1
        · rw [hc1]
          exact hchA
    rw [Node.delete_max, dif_neg hcsne]
    by_cases hmincond : (cs.getD ks.length default).is_min = true
    · have hmin5 : (cs.getD ks.length default).keys.length = MIN_DEGREE - 1 := by
        have h5 := (hseq.child ks.length (by omega)).size_le.1
        simp only [Node.is_min, decide_eq_true_eq] at hmincond
        omega
      obtain ⟨hmsG, hmsL, hms3, hms4, hms5, hms6, hms7, _, _⟩ :=
        Good.make_space_spec (SumAugment K V) hg (by omega) (le_refl _) hmin5
      rw [if_pos hmincond]
      have hmsA := make_space_aug hg (by omega) (le_refl _) hmin5 ha
      have hmsSeq : Seq (Good (MIN_DEGREE - 1) h) lo hi
          (Node.make_space (SumAugment K V) ks.length (Node.mk ks cs a)).2.children
          (Node.make_space (SumAugment K V) ks.length (Node.mk ks cs a)).2.keys := by
        have h9 := hmsG
        rw [← Node.mk_keys_children_aug ((Node.make_space (SumAugment K V) ks.length
          (Node.mk ks cs a)).2)] at h9
        exact h9.toSeq
      have hch' := hms6
      rw [hms7 rfl] at hch'
      obtain ⟨hmsSum, hmsCh⟩ := (Node.augOk_iff _).1 hmsA
      refine hmain _ _ _ hmsSeq hch' ?_ hmsCh
      rw [← Node.toList_eq]
      exact hmsSum
    · rw [if_neg hmincond]
      have hch6 : MIN_DEGREE ≤ (cs.getD ks.length default).keys.length := by
        have h5 := (hseq.child ks.length (by omega)).size_le.1
        simp only [Node.is_min, decide_eq_true_eq] at hmincond
        omega
      exact hmain ks cs _ hseq hch6 hsum hch

/-- `Node::delete_min` with the prefix-sum augmentation preserves the
summary invariant. -/
theorem delete_min_aug :
    ∀ {h lb : Nat} {lo hi : Option K} {nd : Node K V V},
    Good lb h lo hi nd → lb + 1 ≤ nd.keys.length → nd.augOk →
    (nd.delete_min (SumAugment K V)).2.augOk := by
  intro h
  induction h with
  | zero =>
    intro lb lo hi nd hg hsp ha
    obtain ⟨ks, cs, a⟩ := nd
    simp only [Node.keys_mk] at hsp
    obtain ⟨hsum, hch⟩ := (Node.augOk_mk ks cs a).1 ha
    cases hg with
    | leaf h1 h2 hs =>
      rw [Node.delete_min, dif_pos (by simp)]
      dsimp only
      simp only [Node.remove_pair_keys, Node.remove_pair_children,
        Node.remove_pair_fst, Node.keys_mk, Node.children_mk]
      rw [Node.augOk_mk]
      refine ⟨?_, by simp⟩
      rw [toListAux_nil, listSum_eraseIdx default (by omega),
        SumAugment_deleted_sub_tree, hsum, toListAux_nil]
  | succ h ih =>
    intro lb lo hi nd hg hsp ha
    obtain ⟨ks, cs, a⟩ := nd
    simp only [Node.keys_mk] at hsp
    have hMD : MIN_DEGREE = 6 := rfl
    obtain ⟨hsum, hch⟩ := (Node.augOk_mk ks cs a).1 ha
    have hseq := hg.toSeq
    have hlen := hseq.length_eq
    have hcsne : ¬cs.isEmpty = true := by
      simpa [List.isEmpty_iff] using hseq.ne_nil
    have hmain : ∀ (ks' : List (K × V)) (cs' : List (Node K V V)) (b : V),
        Seq (Good (MIN_DEGREE - 1) h) lo hi cs' ks' →
        MIN_DEGREE ≤ (cs'.getD 0 default).keys.length →
        b = listSum (toListAux cs' ks') → (∀ c ∈ cs', c.augOk) →
        (Node.mk ks'
          (cs'.set 0 ((cs'.getD 0 default).delete_min (SumAugment K V)).2)
          ((SumAugment K V).deleted_sub_tree
            ((cs'.getD 0 default).delete_min (SumAugment K V)).1.1
            ((cs'.getD 0 default).delete_min (SumAugment K V)).1.2 b)).augOk := by
      intro ks' cs' b hseq' hch6 hbsum hch'
      have hlen' := hseq'.length_eq
      have hllt : 0 < cs'.length := by omega
      have hchild := hseq'.child 0 hllt
      have hchA := ih hchild (by omega) (hch' _ (getD_mem default hllt))
      obtain ⟨_, happ⟩ := Node.delete_min_spec (SumAugment K V) hchild (by omega)
      have hcsum : listSum
          ((cs'.getD 0 default).delete_min (SumAugment K V)).2.toList
          = listSum (cs'.getD 0 default).toList
            - ((cs'.getD 0 default).delete_min (SumAugment K V)).1.2 := by
        have h9 := congrArg listSum happ
        rw [listSum_cons] at h9
        rw [← h9]
        abel
      rw [Node.augOk_mk]
      constructor
      · rw [listSum_toListAux,
          sumMap_set (fun c => listSum c.toList) default hllt _,
          hcsum, SumAugment_deleted_sub_tree, hbsum, listSum_toListAux]
        abel
      · intro c hc
        rcases List.mem_or_eq_of_mem_set hc with hc1 | hc1
        · exact hch' c hc1
        · rw [hc1]
          exact hchA
    rw [Node.delete_min, dif_neg hcsne]
    by_cases hmincond : (cs.getD 0 default).is_min = true
    · have hmin5 : (cs.getD 0 default).keys.length = MIN_DEGREE - 1 := by
        have h5 := (hseq.child 0 (by omega)).size_le.1
        simp only [Node.is_min, decide_eq_true_eq] at hmincond
        omega
      obtain ⟨hmsG, hmsL, hms3, hms4, hms5, hms6, hms7, hms8, _⟩ :=
        Good.make_space_spec (SumAugment K V) hg (by omega) (by omega) hmin5
      rw [if_pos hmincond]
      have hmsA := make_space_aug hg (by omega) (by omega) hmin5 ha
      have hmsSeq : Seq (Good (MIN_DEGREE - 1) h) lo hi
          (Node.make_space (SumAugment K V) 0 (Node.mk ks cs a)).2.children
          (Node.make_space (SumAugment K V) 0 (Node.mk ks cs a)).2.keys := by
        have h9 := hmsG
        rw [← Node.mk_keys_children_aug ((Node.make_space (SumAugment K V) 0
          (Node.mk ks cs a)).2)] at h9
        exact h9.toSeq
      have hch' := hms6
      rw [hms8 rfl] at hch'
      obtain ⟨hmsSum, hmsCh⟩ := (Node.augOk_iff _).1 hmsA
      refine hmain _ _ _ hmsSeq hch' ?_ hmsCh
      rw [← Node.toList_eq]
      exact hmsSum
    · rw [if_neg hmincond]
      have hch6 : MIN_DEGREE ≤ (cs.getD 0 default).keys.length := by
        have h5 := (hseq.child 0 (by omega)).size_le.1
        simp only [Node.is_min, decide_eq_true_eq] at hmincond
        omega
      exact hmain ks cs _ hseq hch6 hsum hch

/-- `Node::delete_own` with the prefix-sum augmentation preserves the
summary invariant. -/
theorem delete_own_aug :
    ∀ {h lb : Nat} {lo hi : Option K} {nd : Node K V V} {key : K} {idx : Nat},
    Good lb h lo hi nd → lb + 1 ≤ nd.keys.length → idx < nd.keys.length →
    (nd.keys.getD idx default).1 = key → nd.augOk →
    (nd.delete_own (SumAugment K V) key idx).2.augOk := by
  intro h
  induction h with
  | zero =>
    intro lb lo hi nd key idx hg hsp hidx hkey ha
    obtain ⟨ks, cs, a⟩ := nd
    simp only [Node.keys_mk] at hsp hidx hkey
    obtain ⟨hsum, hch⟩ := (Node.augOk_mk ks cs a).1 ha
    cases hg with
    | leaf h1 h2 hs =>
      rw [Node.delete_own, dif_pos (by simp)]
      dsimp only
      simp only [Node.remove_pair_keys, Node.remove_pair_children,
        Node.remove_pair_fst, Node.keys_mk, Node.children_mk]
      rw [Node.augOk_mk]
      refine ⟨?_, by simp⟩
      rw [toListAux_nil, listSum_eraseIdx default hidx,
        SumAugment_deleted_sub_tree, hsum, toListAux_nil]
  | succ h ih =>
    intro lb lo hi nd key idx hg hsp hidx hkey ha
    obtain ⟨ks, cs, a⟩ := nd
    simp only [Node.keys_mk] at hsp hidx hkey
    have hMD : MIN_DEGREE = 6 := rfl
    obtain ⟨hsum, hch⟩ := (Node.augOk_mk ks cs a).1 ha
    have hseq := hg.toSeq
    have hlen := hseq.length_eq
    have hcsne : ¬cs.isEmpty = true := by
      simpa [List.isEmpty_iff] using hseq.ne_nil
    have hidxc : idx < cs.length := by omega
    have hidx1c : idx + 1 < cs.length := by omega
    have hchildL := hseq.child idx hidxc
    have hchildR := hseq.child (idx + 1) hidx1c
    rw [Node.delete_own, dif_neg hcsne]
    by_cases hAmin : (cs.getD idx default).is_min = true
    · by_cases hBmin : (cs.getD (idx + 1) default).is_min = true
      · -- both adjacent children minimal: merge, then recurse into the merge
        rw [if_neg (by simpa using hAmin), if_neg (by simpa using hBmin)]
        dsimp only
        have hminL : (cs.getD idx default).keys.length = MIN_DEGREE - 1 := by
          have h5 := hchildL.size_le.1
          simp only [Node.is_min, decide_eq_true_eq] at hAmin
          omega
        have hminR : (cs.getD (idx + 1) default).keys.length = MIN_DEGREE - 1 := by
          have h5 := hchildR.size_le.1
          simp only [Node.is_min, decide_eq_true_eq] at hBmin
          omega
        have hmA := merge_children_aug hg hidx hminL hminR ha
        obtain ⟨M, A, B, hmeq, hgM, hMlen, hMtl, hMget, hdec2, hA, hB, hList', hSeq'⟩ :=
          Good.merge_children_spec (SumAugment K V) hg hidx hminL hminR
        rw [hmeq] at hmA ⊢
        simp only [Node.keys_mk, Node.children_mk, Node.aug_val_mk]
        have hltE : idx < ((cs.eraseIdx (idx + 1))).length := by
          rw [List.length_eraseIdx_of_lt hidx1c]
          omega
        have hgetM : ((cs.eraseIdx (idx + 1)).set idx M).getD idx default = M :=
          getD_set_self _ _ (by simpa using hltE)
        rw [hgetM]
        obtain ⟨hsumM, hchM⟩ := (Node.augOk_mk _ _ _).1 hmA
        have hMok : M.augOk := by
          have hMmem := getD_mem (l := (cs.eraseIdx (idx + 1)).set idx M) default
            (by simpa using hltE)
          rw [hgetM] at hMmem
          exact hchM M hMmem
        have hkeyM : (M.keys.getD (MIN_DEGREE - 1) default).1 = key := by
          rw [hMget]
          exact hkey
        have hrA := ih hgM (by omega) (by omega) hkeyM hMok
        obtain ⟨_, hrL, hrV⟩ :=
          Node.delete_own_spec (SumAugment K V) hgM (by omega) (by omega) hkeyM
        have hdelta : listSum
            ((M.delete_own (SumAugment K V) key (MIN_DEGREE - 1)).2.toList)
            = listSum M.toList
              + (-(M.delete_own (SumAugment K V) key (MIN_DEGREE - 1)).1) := by
          rw [hrL, listSum_eraseKey_some hrV]
          abel
        obtain ⟨hok, _⟩ := insert_child_rebuild_aug (by simpa using hltE)
          hsumM hchM hrA
          (show (SumAugment K V).deleted_sub_tree key
            (M.delete_own (SumAugment K V) key (MIN_DEGREE - 1)).1 a
            = a + (-(M.delete_own (SumAugment K V) key (MIN_DEGREE - 1)).1) by
              simp [sub_eq_add_neg])
          (by rw [hgetM]; exact hdelta)
        rw [List.set_set] at hok
        rw [List.set_set]
        exact hok
      · -- the right sibling of the key has a key to spare
        rw [if_neg (by simpa using hAmin), if_pos (by simpa using hBmin)]
        dsimp only
        have hch6 : MIN_DEGREE ≤ (cs.getD (idx + 1) default).keys.length := by
          have h5 := hchildR.size_le.1
          simp only [Node.is_min, decide_eq_true_eq] at hBmin
          omega
        have hdmA := delete_min_aug hchildR (by omega)
          (hch _ (getD_mem default hidx1c))
        obtain ⟨_, hcons⟩ := Node.delete_min_spec (SumAugment K V) hchildR (by omega)
        have hcsum : listSum
            ((cs.getD (idx + 1) default).delete_min (SumAugment K V)).2.toList
            = listSum (cs.getD (idx + 1) default).toList
              - ((cs.getD (idx + 1) default).delete_min (SumAugment K V)).1.2 := by
          have h9 := congrArg listSum hcons
          rw [listSum_cons] at h9
          rw [← h9]
          abel
        rw [Node.augOk_mk]
        constructor
        · rw [listSum_toListAux,
            sumMap_set (fun c => listSum c.toList) default hidx1c _,
            hcsum, listSum_set default hidx _, SumAugment_deleted_sub_tree, hsum,
            listSum_toListAux]
          abel
        · intro c hc
          rcases List.mem_or_eq_of_mem_set hc with hc1 | hc1
          · exact hch c hc1
          · rw [hc1]
            exact hdmA
    · -- the left child of the key has a key to spare
      rw [if_pos (by simpa using hAmin)]
      dsimp only
      have hch6 : MIN_DEGREE ≤ (cs.getD idx default).keys.length := by
        have h5 := hchildL.size_le.1
        simp only [Node.is_min, decide_eq_true_eq] at hAmin
        omega
      have hdmA := delete_max_aug hchildL (by omega)
        (hch _ (getD_mem default hidxc))
      obtain ⟨_, happ⟩ := Node.delete_max_spec (SumAugment K V) hchildL (by omega)
      have hcsum : listSum
          ((cs.getD idx default).delete_max (SumAugment K V)).2.toList
          = listSum (cs.getD idx default).toList
            - ((cs.getD idx default).delete_max (SumAugment K V)).1.2 := by
        have h9 := congrArg listSum happ
        rw [listSum_append, listSum_cons, listSum_nil] at h9
        rw [← h9]
        abel
      rw [Node.augOk_mk]
      constructor
      · rw [listSum_toListAux,
          sumMap_set (fun c => listSum c.toList) default hidxc _,
          hcsum, listSum_set default hidx _, SumAugment_deleted_sub_tree, hsum,
          listSum_toListAux]
        abel
      · intro c hc
        rcases List.mem_or_eq_of_mem_set hc with hc1 | hc1
        · exact hch c hc1
        · rw [hc1]
          exact hdmA

/-- `Node::delete` with the prefix-sum augmentation preserves the summary
invariant. -/
theorem Node.delete_aug :
    ∀ {h lb : Nat} {lo hi : Option K} {nd : Node K V V} {key : K},
    Good lb h lo hi nd → lb + 1 ≤ nd.keys.length →
    loLt lo key → ltHi key hi → nd.augOk →
    (nd.delete (SumAugment K V) key).2.augOk := by
  intro h
  induction h with
  | zero =>
    intro lb lo hi nd key hg hsp hklo hkhi ha
    obtain ⟨ks, cs, a⟩ := nd
    simp only [Node.keys_mk] at hsp
    have hcs0 : cs = [] := hg.children_zero
    subst hcs0
    rw [Node.delete]
    split
    · rename_i i hidx
      obtain ⟨hilt, hkey, _⟩ := keyIdx_ok_spec hidx
      exact delete_own_aug hg hsp hilt hkey ha
    · rename_i i hidx
      rw [dif_pos (by simp)]
      exact ha
  | succ h ih =>
    intro lb lo hi nd key hg hsp hklo hkhi ha
    obtain ⟨ks, cs, a⟩ := nd
    simp only [Node.keys_mk] at hsp
    have hMD : MIN_DEGREE = 6 := rfl
    obtain ⟨hsum, hch⟩ := (Node.augOk_mk ks cs a).1 ha
    have hseq := hg.toSeq
    have hlen := hseq.length_eq
    have hcsne : ¬cs.isEmpty = true := by
      simpa [List.isEmpty_iff] using hseq.ne_nil
    rw [Node.delete]
    split
    · rename_i i hidx
      obtain ⟨hilt, hkey, _⟩ := keyIdx_ok_spec hidx
      exact delete_own_aug hg (by simpa using hsp) (by simpa using hilt)
        (by simpa using hkey) ha
    · rename_i i hidx
      obtain ⟨hile, _, _⟩ := keyIdx_err_spec hidx
      obtain ⟨hbl, hbr⟩ := keyIdx_err_bounds hidx hklo hkhi
      rw [dif_neg hcsne]
      have hmain : ∀ (j : Nat) (ks' : List (K × V)) (cs' : List (Node K V V)),
          Seq (Good (MIN_DEGREE - 1) h) lo hi cs' ks' → j ≤ ks'.length →
          MIN_DEGREE ≤ (cs'.getD j default).keys.length →
          loLt (boundL lo ks' j) key → ltHi key (boundR hi ks' j) →
          (∀ c ∈ cs', c.augOk) →
          ((cs'.getD j default).delete (SumAugment K V) key).2.augOk ∧
          ((cs'.getD j default).delete (SumAugment K V) key).2.toList
            = eraseKey key (cs'.getD j default).toList ∧
          ((cs'.getD j default).delete (SumAugment K V) key).1
            = lookupL key (cs'.getD j default).toList := by
        intro j ks' cs' hseq' hjle hch6 hbj1 hbj2 hch'
        have hlen' := hseq'.length_eq
        have hchild := hseq'.child j (by omega)
        obtain ⟨_, hdL, hdV⟩ :=
          Node.delete_spec (SumAugment K V) hchild (by omega) hbj1 hbj2
        exact ⟨ih hchild (by omega) hbj1 hbj2
          (hch' _ (getD_mem default (by omega))), hdL, hdV⟩
      by_cases hmincond : (cs.getD i default).is_min = true
      · rw [if_pos hmincond]
        dsimp only
        have hmin5 : (cs.getD i default).keys.length = MIN_DEGREE - 1 := by
          have h5 := (hseq.child i (by omega)).size_le.1
          simp only [Node.is_min, decide_eq_true_eq] at hmincond
          omega
        obtain ⟨hmsG, hmsL, hms3, hms4, hms5, hms6, hms7, hms8, hms9⟩ :=
          Good.make_space_spec (SumAugment K V) hg (by omega) hile hmin5
        obtain ⟨hbj1, hbj2⟩ := hms9 key hklo hkhi hbl hbr
        have hmsSeq : Seq (Good (MIN_DEGREE - 1) h) lo hi
            (Node.make_space (SumAugment K V) i (Node.mk ks cs a)).2.children
            (Node.make_space (SumAugment K V) i (Node.mk ks cs a)).2.keys := by
          have h9 := hmsG
          rw [← Node.mk_keys_children_aug ((Node.make_space (SumAugment K V) i
            (Node.mk ks cs a)).2)] at h9
          exact h9.toSeq
        have hmsA := make_space_aug hg (by omega) hile hmin5 ha
        obtain ⟨hmsSum, hmsCh⟩ := (Node.augOk_iff _).1 hmsA
        rw [Node.toList_eq] at hmsSum
        have hjlt : (Node.make_space (SumAugment K V) i (Node.mk ks cs a)).1
            < (Node.make_space (SumAugment K V) i (Node.mk ks cs a)).2.children.length := by
          have h9 := hmsG.children_len
          omega
        obtain ⟨hchA, hdL', hdV'⟩ := hmain
          (Node.make_space (SumAugment K V) i (Node.mk ks cs a)).1
          (Node.make_space (SumAugment K V) i (Node.mk ks cs a)).2.keys
          (Node.make_space (SumAugment K V) i (Node.mk ks cs a)).2.children
          hmsSeq hms5 hms6 hbj1 hbj2 hmsCh
        cases hres : (((Node.make_space (SumAugment K V) i
            (Node.mk ks cs a)).2.children.getD
              (Node.make_space (SumAugment K V) i (Node.mk ks cs a)).1
              default).delete (SumAugment K V) key).1 with
        | some v =>
          dsimp only
          have hlook : lookupL key
              ((Node.make_space (SumAugment K V) i (Node.mk ks cs a)).2.children.getD
                (Node.make_space (SumAugment K V) i (Node.mk ks cs a)).1
                default).toList = some v := by
            rw [← hdV', hres]
          obtain ⟨hok, _⟩ := insert_child_rebuild_aug hjlt hmsSum hmsCh hchA
            (show (SumAugment K V).deleted_sub_tree key v
              (Node.make_space (SumAugment K V) i (Node.mk ks cs a)).2.aug_val
              = (Node.make_space (SumAugment K V) i (Node.mk ks cs a)).2.aug_val
                + (-v) by simp [sub_eq_add_neg])
            (by rw [hdL', listSum_eraseKey_some hlook]; abel)
          exact hok
        | none =>
          dsimp only
          have hlook : lookupL key
              ((Node.make_space (SumAugment K V) i (Node.mk ks cs a)).2.children.getD
                (Node.make_space (SumAugment K V) i (Node.mk ks cs a)).1
                default).toList = none := by
            rw [← hdV', hres]
          obtain ⟨hok, _⟩ := insert_child_rebuild_aug hjlt hmsSum hmsCh hchA
            (show (Node.make_space (SumAugment K V) i (Node.mk ks cs a)).2.aug_val
              = (Node.make_space (SumAugment K V) i (Node.mk ks cs a)).2.aug_val
                + 0 by simp)
            (by rw [hdL', eraseKey_eq_self_of_none hlook]; simp)
          exact hok
      · rw [if_neg hmincond]
        dsimp only
        simp only [Node.keys_mk, Node.children_mk, Node.aug_val_mk]
        have hch6 : MIN_DEGREE ≤ (cs.getD i default).keys.length := by
          have h5 := (hseq.child i (by omega)).size_le.1
          simp only [Node.is_min, decide_eq_true_eq] at hmincond
          omega
        have hilt : i < cs.length := by omega
        obtain ⟨hchA, hdL', hdV'⟩ := hmain i ks cs hseq hile hch6 hbl hbr hch
        cases hres : ((cs.getD i default).delete (SumAugment K V) key).1 with
        | some v =>
          try dsimp only
          have hlook : lookupL key (cs.getD i default).toList = some v := by
            rw [← hdV', hres]
          obtain ⟨hok, _⟩ := insert_child_rebuild_aug hilt hsum hch hchA
            (show (SumAugment K V).deleted_sub_tree key v a = a + (-v) by
              simp [sub_eq_add_neg])
            (by rw [hdL', listSum_eraseKey_some hlook]; abel)
          exact hok
        | none =>
          try dsimp only
          have hlook : lookupL key (cs.getD i default).toList = none := by
            rw [← hdV', hres]
          obtain ⟨hok, _⟩ := insert_child_rebuild_aug hilt hsum hch hchA
            (show a = a + 0 by simp)
            (by rw [hdL', eraseKey_eq_self_of_none hlook]; simp)
          exact hok

/-- `BTree::delete` with the prefix-sum augmentation preserves the summary
invariant (including through the root shrink). -/
theorem BTree.delete_preserves_aug {h : Nat} {t : BTree K V V} {key : K}
    (hg : Good 0 h none none t.root)
    (hnz : t.root.children ≠ [] → 1 ≤ t.root.keys.length)
    (ha : t.root.augOk) :
    (t.delete (SumAugment K V) key).1.root.augOk := by
  by_cases hk0 : t.root.keys.length = 0
  · have hc0 : t.root.children = [] := by
      by_contra hc
      have := hnz hc
      omega
    obtain ⟨root⟩ := t
    obtain ⟨ks, cs, a⟩ := root
    simp only [Node.keys_mk] at hk0
    simp only [Node.children_mk] at hc0
    have hks : ks = [] := List.length_eq_zero.1 hk0
    subst hks
    subst hc0
    rw [BTree.delete, Node.delete]
    have hki : keyIdx key ([] : List (K × V)) = .error 0 := rfl
    simp only [hki, List.isEmpty_nil, dite_true]
    simp only [Node.children_mk, List.length_nil]
    rw [if_neg (by omega)]
    exact ha
  · have hsp : 0 + 1 ≤ t.root.keys.length := by omega
    have hdA := Node.delete_aug hg hsp (loLt_none key) (ltHi_none key) ha
    rw [BTree.delete]
    by_cases hshrink : (t.root.delete (SumAugment K V) key).2.children.length = 1
    · rw [if_pos hshrink]
      exact Node.augOk_children hdA _ (getD_mem default (by omega))
    · rw [if_neg hshrink]
      exact hdA

/-- One public operation with the prefix-sum augmentation keeps the summary
invariant. -/
theorem BTree.applyOp_aug {t : BTree K V V} (op : Op K V)
    (hwf : TreeWF t) (ha : t.root.augOk) :
    (t.applyOp (SumAugment K V) op).root.augOk := by
  obtain ⟨h, hg, hnz⟩ := hwf
  cases op with
  | ins k v => exact BTree.insert_aug v hg ha
  | del k => exact BTree.delete_preserves_aug hg hnz ha

/-- The summary invariant of the freshly created tree. -/
theorem new_root_aug : (BTree.new (SumAugment K V)).root.augOk := by
  rw [BTree.new, Node.new_root]
  rw [Node.augOk_mk]
  refine ⟨?_, by simp⟩
  simp

/-- Every tree reachable from the empty tree by public operations keeps the
prefix-sum summary invariant. -/
theorem runOps_aug (ops : List (Op K V)) :
    (runOps (SumAugment K V) ops).root.augOk := by
  rw [runOps]
  have hgen : ∀ (l : List (Op K V)) (t : BTree K V V),
      TreeWF t → t.root.augOk →
      (l.foldl (BTree.applyOp (SumAugment K V)) t).root.augOk := by
    intro l
    induction l with
    | nil =>
      intro t _ ha
      exact ha
    | cons op rest ihl =>
      intro t hwf ha
      exact ihl _ (BTree.applyOp_wf (SumAugment K V) op hwf).1
        (BTree.applyOp_aug op hwf ha)
  refine hgen ops _ ?_ new_root_aug
  exact ⟨0, .leaf (le_refl _) (by simp) .nil, by simp [BTree.new, Node.new_root]⟩

/-! #### The prefix-sum query -/

/-- The model of `augment_search` for the prefix-sum augmentation: the sum
of the values of all live pairs with keys less than or equal to the query. -/
def prefixSum (key : K) (l : List (K × V)) : V :=
  listSum (l.filter (fun p => p.1 ≤ key))

theorem listSum_def (l : List (K × V)) : listSum l = (l.map Prod.snd).sum := rfl

theorem prefixSum_all {key : K} {l : List (K × V)}
    (h : ∀ p ∈ l, p.1 ≤ key) : prefixSum key l = listSum l := by
  rw [prefixSum, List.filter_eq_self.2]
  intro a ha
  simpa using h a ha

theorem prefixSum_none {key : K} {l : List (K × V)}
    (h : ∀ p ∈ l, key < p.1) : prefixSum key l = 0 := by
  rw [prefixSum, List.filter_eq_nil_iff.mpr, listSum_nil]
  intro a ha
  simpa using not_le.2 (h a ha)

theorem prefixSum_append (key : K) (A B : List (K × V)) :
    prefixSum key (A ++ B) = prefixSum key A + prefixSum key B := by
  rw [prefixSum, List.filter_append, listSum_append, prefixSum, prefixSum]

theorem mem_take_lt {key : K} {ks : List (K × V)} :
    ∀ {i : Nat}, (∀ j, j < i → (ks.getD j default).1 < key) →
    ∀ p ∈ ks.take i, p.1 < key := by
  induction ks with
  | nil => intro i _ p hp; simp at hp
  | cons k ks' ih =>
    intro i hj p hp
    cases i with
    | zero => simp at hp
    | succ m =>
      rw [List.take_succ_cons] at hp
      rcases List.mem_cons.1 hp with rfl | hp'
      · simpa using hj 0 (by omega)
      · exact ih (fun j hjm => by simpa using hj (j + 1) (by omega)) p hp'

/-- Every pair in the flattening of a prefix of a separated sequence whose
separator keys are below `key` is itself below `key`. -/
theorem seqTake_lt {P : Option K → Option K → Node K V β → Prop} {key : K}
    (hP : ∀ (lo' hi' : Option K) (c : Node K V β), P lo' hi' c →
      SortedB lo' hi' c.toList) :
    ∀ {i : Nat} {lo hi : Option K} {cs : List (Node K V β)} {ks : List (K × V)},
    Seq P lo hi cs ks → i ≤ ks.length →
    (∀ j, j < i → (ks.getD j default).1 < key) →
    ∀ p ∈ toListAux (cs.take i) (ks.take i), p.1 < key := by
  intro i
  induction i with
  | zero =>
    intro lo hi cs ks _ _ _ p hp
    simp [toListAux] at hp
  | succ m ih =>
    intro lo hi cs ks hs hile hj p hp
    match cs, ks, hs with
    | [c], [], .single hc => simp at hile
    | c :: cs', k :: ks', .cons hc hlo hhi htail =>
      rw [List.take_succ_cons, List.take_succ_cons, toListAux_cons_cons] at hp
      have hk : k.1 < key := by simpa using hj 0 (by omega)
      rcases List.mem_append.1 hp with hp1 | hp1
      · obtain ⟨_, h2⟩ := (hP _ _ _ hc).mem_bounds p hp1
        exact lt_trans (by simpa using h2) hk
      · rcases List.mem_cons.1 hp1 with rfl | hp2
        · exact hk
        · exact ih htail (by simpa using hile)
            (fun j hjm => by simpa using hj (j + 1) (by omega)) p hp2

/-- Decomposition of the flattening at an interior child slot. -/
theorem toListAux_slot_lt :
    ∀ (i : Nat) {cs : List (Node K V β)} {ks : List (K × V)},
    cs.length = ks.length + 1 → i < ks.length →
    toListAux cs ks = toListAux (cs.take i) (ks.take i)
      ++ (cs.getD i default).toList
      ++ ks.getD i default :: toListAux (cs.drop (i + 1)) (ks.drop (i + 1)) := by
  intro i
  induction i with
  | zero =>
    intro cs ks hlen hi
    match cs, ks with
    | c :: cs', k :: ks' => simp
    | [c], [] => simp at hi
  | succ m ih =>
    intro cs ks hlen hi
    match cs, ks with
    | c :: cs', k :: ks' =>
      have := ih (show cs'.length = ks'.length + 1 from by simpa using hlen)
        (show m < ks'.length from by simpa using hi)
      simp only [List.take_succ_cons, List.getD_cons_succ, List.drop_succ_cons,
        toListAux_cons_cons]
      rw [this]
      simp
    | [c], [] => simp at hi

/-- Decomposition of the flattening at the last child slot. -/
theorem toListAux_slot_last :
    ∀ {cs : List (Node K V β)} {ks : List (K × V)},
    cs.length = ks.length + 1 →
    toListAux cs ks = toListAux (cs.take ks.length) (ks.take ks.length)
      ++ (cs.getD ks.length default).toList := by
  intro cs ks
  induction ks generalizing cs with
  | nil =>
    intro hlen
    match cs with
    | [c] => simp
  | cons k ks' ih =>
    intro hlen
    match cs with
    | c :: cs' =>
      simp only [List.length_cons, List.take_succ_cons, List.getD_cons_succ,
        toListAux_cons_cons]
      rw [ih (by simpa using hlen)]
      simp

/-- The `SumAugment` visit callback on a hit. -/
theorem SumAugment_visit_true (idx : Nat) (keys : List (K × V))
    (childSums : List V) (aval acc : V) :
    (SumAugment K V).visit true idx keys childSums aval acc
      = acc + listSum (keys.take idx) + (keys.getD idx default).2
        + (childSums.take (idx + 1)).sum := by
  rw [SumAugment]
  dsimp only
  rw [if_pos rfl]
  dsimp only
  rw [foldl_add_eq, foldl_add_eq, listSum_def]
  try abel

/-- The `SumAugment` visit callback on a miss. -/
theorem SumAugment_visit_false (idx : Nat) (keys : List (K × V))
    (childSums : List V) (aval acc : V) :
    (SumAugment K V).visit false idx keys childSums aval acc
      = acc + listSum (keys.take idx) + (childSums.take idx).sum := by
  rw [SumAugment]
  dsimp only
  rw [if_neg (by simp)]
  dsimp only
  rw [foldl_add_eq, foldl_add_eq, listSum_def]
  try abel

/-- `Node::search` with the prefix-sum augmentation folds the accumulator
to the sum of all values at keys less than or equal to the query. -/
theorem Node.search_acc_spec :
    ∀ {h lb : Nat} {lo hi : Option K} {nd : Node K V V} {key : K},
    Good lb h lo hi nd → loLt lo key → ltHi key hi → nd.augOk →
    ∀ acc : V, (nd.search (SumAugment K V) key acc).2
      = acc + prefixSum key nd.toList := by
  intro h
  induction h with
  | zero =>
    intro lb lo hi nd key hg hklo hkhi ha acc
    obtain ⟨ks, cs, a⟩ := nd
    cases hg with
    | leaf h1 h2 hs =>
      rw [Node.search]
      cases hidx : keyIdx key ks with
      | ok i =>
        dsimp only
        rw [if_pos rfl]
        dsimp only
        obtain ⟨hilt, hkey, hjlt⟩ := keyIdx_ok_spec hidx
        rw [SumAugment_visit_true]
        have hdecomp := take_getD_drop (l := ks) default hilt
        have hs2 : SortedB lo hi (ks.take i ++ ks.getD i default ::
            ks.drop (i + 1)) := by rwa [hdecomp]
        obtain ⟨hsA, hslo, hshi, hsB⟩ := SortedB.append_decomp hs2
        have hm1 : prefixSum key (ks.take i) = listSum (ks.take i) :=
          prefixSum_all (fun p hp => le_of_lt
            (by rw [← hkey]; simpa using (hsA.mem_bounds p hp).2))
        have hm2 : prefixSum key [ks.getD i default] = (ks.getD i default).2 := by
          rw [prefixSum_all (by
            intro p hp
            rw [List.mem_singleton.1 hp, hkey])]
          simp
        have hm3 : prefixSum key (ks.drop (i + 1)) = 0 :=
          prefixSum_none (fun p hp =>
            by rw [← hkey]; simpa using (hsB.mem_bounds p hp).1)
        have hps : prefixSum key (toListAux ([] : List (Node K V V)) ks)
            = listSum (ks.take i) + (ks.getD i default).2 := by
          rw [toListAux_nil]
          conv_lhs => rw [← hdecomp]
          rw [prefixSum_append, ← List.singleton_append, prefixSum_append,
            hm1, hm2, hm3]
          abel
        rw [Node.toList_mk, hps]
        simp
        abel
      | error i =>
        dsimp only
        rw [if_neg (by simp), dif_pos (by simp)]
        dsimp only
        obtain ⟨hile, hjlt, hgt⟩ := keyIdx_err_spec hidx
        rw [SumAugment_visit_false]
        have hps : prefixSum key (toListAux ([] : List (Node K V V)) ks)
            = listSum (ks.take i) := by
          rw [toListAux_nil]
          have hm1 : prefixSum key (ks.take i) = listSum (ks.take i) :=
            prefixSum_all (fun p hp => le_of_lt (mem_take_lt hjlt p hp))
          by_cases hlen : i < ks.length
          · have hdecomp := take_getD_drop (l := ks) default hlen
            have hs2 : SortedB lo hi (ks.take i ++ ks.getD i default ::
                ks.drop (i + 1)) := by rwa [hdecomp]
            obtain ⟨hsA, hslo, hshi, hsB⟩ := SortedB.append_decomp hs2
            have hm2 : prefixSum key (ks.getD i default :: ks.drop (i + 1))
                = 0 := by
              refine prefixSum_none ?_
              intro p hp
              rcases List.mem_cons.1 hp with rfl | hp1
              · exact hgt hlen
              · exact lt_trans (hgt hlen)
                  (by simpa using (hsB.mem_bounds p hp1).1)
            conv_lhs => rw [← hdecomp]
            rw [prefixSum_append, hm1, hm2]
            abel
          · have hieq : i = ks.length := by omega
            subst hieq
            rw [List.take_length] at hm1 ⊢
            exact hm1
        rw [Node.toList_mk, hps]
        simp
  | succ h ih =>
    intro lb lo hi nd key hg hklo hkhi ha acc
    obtain ⟨ks, cs, a⟩ := nd
    obtain ⟨hsum, hch⟩ := (Node.augOk_mk ks cs a).1 ha
    have hseq := hg.toSeq
    have hlen := hseq.length_eq
    have hcsne : ¬cs.isEmpty = true := by
      simpa [List.isEmpty_iff] using hseq.ne_nil
    rw [Node.search]
    cases hidx : keyIdx key ks with
    | ok i =>
      dsimp only
      rw [if_pos rfl]
      dsimp only
      obtain ⟨hilt, hkey, hjlt⟩ := keyIdx_ok_spec hidx
      rw [SumAugment_visit_true]
      obtain ⟨hseqL, hloM, hhiM, hseqR, hdec⟩ := seqSplitAt i hseq hilt
      have hsumL : ((cs.map Node.aug_val).take (i + 1)).sum
          = (List.map (fun c => listSum c.toList) (cs.take (i + 1))).sum := by
        rw [← List.map_take]
        exact sumAugs_eq (fun c hc => hch c (List.take_subset _ _ hc))
      have hsortL := Seq.sorted (fun lo' hi' c hc => Good.toList_sorted hc) hseqL
      have hsortR := Seq.sorted (fun lo' hi' c hc => Good.toList_sorted hc) hseqR
      have hm1 : prefixSum key (toListAux (cs.take (i + 1)) (ks.take i))
          = listSum (toListAux (cs.take (i + 1)) (ks.take i)) :=
        prefixSum_all (fun p hp => le_of_lt
          (by rw [← hkey]; simpa using (hsortL.mem_bounds p hp).2))
      have hmR : prefixSum key
          (toListAux (cs.drop (i + 1)) (ks.drop (i + 1))) = 0 :=
        prefixSum_none (fun p hp =>
          by rw [← hkey]; simpa using (hsortR.mem_bounds p hp).1)
      have hm2 : prefixSum key [ks.getD i default] = (ks.getD i default).2 := by
        rw [prefixSum_all (by
          intro p hp
          rw [List.mem_singleton.1 hp, hkey])]
        simp
      have hps : prefixSum key (toListAux cs ks)
          = listSum (toListAux (cs.take (i + 1)) (ks.take i))
            + (ks.getD i default).2 := by
        rw [hdec, prefixSum_append, ← List.singleton_append, prefixSum_append,
          hm1, hm2, hmR]
        abel
      rw [Node.toList_mk, hps, hsumL, listSum_toListAux]
      simp
      abel
    | error i =>
      dsimp only
      rw [if_neg (by simp), dif_neg hcsne]
      try dsimp only
      obtain ⟨hile, hjlt, hgt⟩ := keyIdx_err_spec hidx
      obtain ⟨hbl, hbr⟩ := keyIdx_err_bounds hidx hklo hkhi
      have hilt : i < cs.length := by omega
      have hchild := hseq.child i hilt
      have hchA : (cs.getD i default).augOk := hch _ (getD_mem default hilt)
      have hrec := ih hchild hbl hbr hchA
      rw [SumAugment_visit_false, hrec]
      have hsumL : ((cs.map Node.aug_val).take i).sum
          = (List.map (fun c => listSum c.toList) (cs.take i)).sum := by
        rw [← List.map_take]
        exact sumAugs_eq (fun c hc => hch c (List.take_subset _ _ hc))
      have hleft : ∀ p ∈ toListAux (cs.take i) (ks.take i), p.1 < key :=
        seqTake_lt (fun lo' hi' c hc => Good.toList_sorted hc) hseq hile hjlt
      have hm1 : prefixSum key (toListAux (cs.take i) (ks.take i))
          = listSum (toListAux (cs.take i) (ks.take i)) :=
        prefixSum_all (fun p hp => le_of_lt (hleft p hp))
      have hps : prefixSum key (toListAux cs ks)
          = listSum (toListAux (cs.take i) (ks.take i))
            + prefixSum key (cs.getD i default).toList := by
        by_cases hlen2 : i < ks.length
        · obtain ⟨_, _, _, hseqR, _⟩ := seqSplitAt i hseq hlen2
          have hsortR := Seq.sorted
            (fun lo' hi' c hc => Good.toList_sorted hc) hseqR
          have hm2 : prefixSum key (ks.getD i default ::
              toListAux (cs.drop (i + 1)) (ks.drop (i + 1))) = 0 := by
            refine prefixSum_none ?_
            intro p hp
            rcases List.mem_cons.1 hp with rfl | hp1
            · exact hgt hlen2
            · exact lt_trans (hgt hlen2)
                (by simpa using (hsortR.mem_bounds p hp1).1)
          rw [toListAux_slot_lt i hlen hlen2, prefixSum_append, prefixSum_append,
            hm1, hm2]
          abel
        · have hieq : i = ks.length := by omega
          subst hieq
          rw [toListAux_slot_last hlen, prefixSum_append, hm1]
      rw [Node.toList_mk, hps, hsumL, listSum_toListAux]
      abel

/-! ### The structural invariant in the shape stated by the specification -/

/-- Strictly sorted keys, as a pairwise ordering on the pair list. -/
theorem SortedB.pairwise : ∀ {lo hi : Option K} {l : List (K × V)},
    SortedB lo hi l → List.Pairwise (fun p q : K × V => p.1 < q.1) l := by
  intro lo hi l hs
  induction hs with
  | nil => exact List.Pairwise.nil
  | cons hlo hhi hrest ih =>
    rename_i lo' hi' k ks'
    refine List.Pairwise.cons ?_ ih
    intro q hq
    exact (hrest.mem_bounds q hq).1 _ rfl

/-- Every node of a forest, paired with its depth below the forest roots. -/
def allNodesL : List (Node K V β) → Nat → List (Node K V β × Nat)
  | [], _ => []
  | ⟨ks, cs, a⟩ :: rest, d =>
    (⟨ks, cs, a⟩, d) :: (allNodesL cs (d + 1) ++ allNodesL rest d)
termination_by cs _ => nsizeL cs
decreasing_by
  all_goals simp [nsizeL]
  all_goals omega

@[simp]
theorem allNodesL_nil (d : Nat) :
    allNodesL ([] : List (Node K V β)) d = [] := by
  rw [allNodesL]

theorem allNodesL_cons (c : Node K V β) (rest : List (Node K V β)) (d : Nat) :
    allNodesL (c :: rest) d
      = (c, d) :: (allNodesL c.children (d + 1) ++ allNodesL rest d) := by
  obtain ⟨ks, cs, a⟩ := c
  rw [allNodesL]
  simp

theorem mem_allNodesL_cases {q : Node K V β × Nat} :
    ∀ {cs : List (Node K V β)} {d : Nat}, q ∈ allNodesL cs d →
    ∃ c ∈ cs, q ∈ allNodesL [c] d := by
  intro cs
  induction cs with
  | nil =>
    intro d hq
    simp at hq
  | cons c rest ih =>
    intro d hq
    rw [allNodesL_cons] at hq
    rcases List.mem_cons.1 hq with rfl | hq1
    · exact ⟨c, by simp, by rw [allNodesL_cons]; simp⟩
    · rcases List.mem_append.1 hq1 with hq2 | hq2
      · refine ⟨c, by simp, ?_⟩
        rw [allNodesL_cons]
        simp only [List.mem_cons, List.mem_append]
        right
        left
        simpa using hq2
      · obtain ⟨c', hc', hq3⟩ := ih hq2
        exact ⟨c', by simp [hc'], hq3⟩

/-- The per-node clauses of the structural invariant, as the specification
states them: child count, strictly sorted keys, and every key of child
`cᵢ` strictly between the adjacent separator keys. -/
def NodeLocal (nd : Node K V β) : Prop :=
  (nd.children ≠ [] → nd.children.length = nd.keys.length + 1) ∧
  List.Pairwise (fun p q : K × V => p.1 < q.1) nd.keys ∧
  ∀ i, i < nd.children.length →
    ∀ p ∈ (nd.children.getD i default).toList,
      (0 < i → (nd.keys.getD (i - 1) default).1 < p.1) ∧
      (i < nd.keys.length → p.1 < (nd.keys.getD i default).1)

/-- The whole-tree structural invariant as the specification states it:
root key-count bounds, non-root key-count bounds, per-node local clauses,
and all leaves at one common depth. -/
def Shape (root : Node K V β) : Prop :=
  root.keys.length ≤ 2 * MIN_DEGREE - 1 ∧
  (∀ q ∈ allNodesL root.children 1,
    MIN_DEGREE - 1 ≤ q.1.keys.length ∧ q.1.keys.length ≤ 2 * MIN_DEGREE - 1) ∧
  (∀ q ∈ allNodesL [root] 0, NodeLocal q.1) ∧
  ∃ D : Nat, ∀ q ∈ allNodesL [root] 0, q.1.children = [] → q.2 = D

/-- A well-formed node satisfies the local clauses. -/
theorem Good.nodeLocal {lb h : Nat} {lo hi : Option K} {nd : Node K V β}
    (hg : Good lb h lo hi nd) : NodeLocal nd := by
  obtain ⟨ks, cs, a⟩ := nd
  cases hg with
  | leaf h1 h2 hs =>
    refine ⟨by simp, by simpa using hs.pairwise, ?_⟩
    intro i hi
    simp at hi
  | node h1 h2 hlen hsort hchild =>
    refine ⟨fun _ => by simpa using hlen, by simpa using hsort.pairwise, ?_⟩
    intro i hilt p hp
    simp only [Node.children_mk] at hilt hp
    have hgc := hchild i (by simpa using hilt)
    obtain ⟨hp1, hp2⟩ := hgc.toList_sorted.mem_bounds p hp
    try simp only [Node.children_mk, Node.keys_mk] at hilt ⊢
    have hilen : i ≤ ks.length := by omega
    constructor
    · intro h0
      have hb : boundL lo ks i = some (ks.getD (i - 1) default).1 := by
        unfold boundL
        rw [if_neg (by omega)]
      rw [hb] at hp1
      simpa using hp1
    · intro hiks
      have hb : boundR hi ks i = some (ks.getD i default).1 := by
        unfold boundR
        rw [if_neg (by omega)]
      rw [hb] at hp2
      simpa using hp2

/-- All nodes of a well-formed subtree: local clauses hold, leaves sit at
depth `d + h`, and key counts are bounded. -/
theorem Good.shape_nodes :
    ∀ {h lb : Nat} {lo hi : Option K} {nd : Node K V β},
    Good lb h lo hi nd → ∀ (d : Nat), ∀ q ∈ allNodesL [nd] d,
    NodeLocal q.1 ∧ (q.1.children = [] → q.2 = d + h) ∧
    q.1.keys.length ≤ 2 * MIN_DEGREE - 1 ∧
    (min lb (MIN_DEGREE - 1) ≤ q.1.keys.length) := by
  intro h
  induction h with
  | zero =>
    intro lb lo hi nd hg d q hq
    obtain ⟨ks, cs, a⟩ := nd
    have hcs0 : cs = [] := hg.children_zero
    subst hcs0
    rw [allNodesL_cons] at hq
    simp only [Node.children_mk, allNodesL_nil, List.nil_append,
      List.mem_cons, List.mem_singleton] at hq
    rcases hq with rfl | hq1
    · refine ⟨hg.nodeLocal, by simp, hg.size_le.2, ?_⟩
      have := hg.size_le.1
      simp only [Node.keys_mk] at this ⊢
      omega
    · cases hq1
  | succ h ih =>
    intro lb lo hi nd hg d q hq
    obtain ⟨ks, cs, a⟩ := nd
    rw [allNodesL_cons] at hq
    simp only [Node.children_mk, List.mem_cons] at hq
    rcases hq with rfl | hq1
    · refine ⟨hg.nodeLocal, ?_, hg.size_le.2, ?_⟩
      · intro hleaf
        have h9 := hg.children_len
        rw [hleaf] at h9
        simp at h9
      · have := hg.size_le.1
        simp only [Node.keys_mk] at this ⊢
        omega
    · rcases List.mem_append.1 hq1 with hq2 | hq2
      · obtain ⟨c, hc, hq3⟩ := mem_allNodesL_cases hq2
        obtain ⟨j, hj, hceq⟩ := List.mem_iff_getElem.1 hc
        cases hg with
        | node h1 h2 hlen hsort hchild =>
          have hcg := hchild j (by simpa using hj)
          have hcd : cs.getD j default = c := by
            rw [List.getD_eq_getElem _ _ (by simpa using hj)]
            exact hceq
          rw [hcd] at hcg
          obtain ⟨ha1, ha2, ha3, ha4⟩ := ih hcg (d + 1) q hq3
          refine ⟨ha1, ?_, ha3, ?_⟩
          · intro hleaf
            rw [ha2 hleaf]
            omega
          · have : min (MIN_DEGREE - 1) (MIN_DEGREE - 1) ≤ q.1.keys.length := ha4
            omega
      · simp at hq2

/-- A well-formed root (with no lower key bound) has the specification's
whole-tree shape. -/
theorem Good.shape {h : Nat} {root : Node K V β}
    (hg : Good 0 h none none root) : Shape root := by
  refine ⟨hg.size_le.2, ?_, ?_, h, ?_⟩
  · intro q hq
    obtain ⟨c, hc, hq3⟩ := mem_allNodesL_cases hq
    obtain ⟨j, hj, hceq⟩ := List.mem_iff_getElem.1 hc
    obtain ⟨root1, hroot1⟩ : ∃ root1 : Node K V β, root = root1 := ⟨root, rfl⟩
    obtain ⟨ks, cs, a⟩ := root1
    subst hroot1
    cases hg with
    | leaf h1 h2 hs =>
      simp only [Node.children_mk] at hj
      simp at hj
    | node h1 h2 hlen hsort hchild =>
      simp only [Node.children_mk] at hj hceq
      have hcg := hchild j (by simpa using hj)
      have hcd : cs.getD j default = c := by
        rw [List.getD_eq_getElem _ _ (by simpa using hj)]
        exact hceq
      rw [hcd] at hcg
      obtain ⟨_, _, ha3, ha4⟩ := hcg.shape_nodes 1 q hq3
      have hMD : MIN_DEGREE = 6 := rfl
      constructor
      · omega
      · exact ha3
  · intro q hq
    exact (hg.shape_nodes 0 q hq).1
  · intro q hq hleaf
    have := (hg.shape_nodes 0 q hq).2.1 hleaf
    omega

/-! ### Search soundness over operation sequences -/

/-- The specification's description of the live binding of key `k` after a
sequence of operations: the value of the last insert of `k` that was
accepted (the key was absent at the time of the call, so the insert
returned true) and was not followed by a delete of `k`. -/
def specLive (k : K) : List (Op K V) → Option V → Option V
  | [], st => st
  | .ins k' v :: rest, st =>
    specLive k rest (match st with
      | none => if k' = k then some v else none
      | some w => some w)
  | .del k' :: rest, st => specLive k rest (if k' = k then none else st)

theorem SortedB.eraseKey_sorted {k : K} :
    ∀ {lo hi : Option K} {l : List (K × V)}, SortedB lo hi l →
    SortedB lo hi (eraseKey k l) := by
  intro lo hi l hs
  induction hs with
  | nil => exact .nil
  | cons hlo hhi hrest ih =>
    rename_i lo' hi' p ps
    rw [eraseKey]
    by_cases hpk : p.1 = k
    · rw [if_pos hpk]
      refine hrest.weaken_lo ?_
      intro k' hk' m hm
      exact lt_trans (hlo m hm) (hk' _ rfl)
    · rw [if_neg hpk]
      exact .cons hlo hhi ih

theorem lookupL_eraseKey_self {k : K} :
    ∀ {lo hi : Option K} {l : List (K × V)}, SortedB lo hi l →
    lookupL k (eraseKey k l) = none := by
  intro lo hi l hs
  induction hs with
  | nil => rfl
  | cons hlo hhi hrest ih =>
    rename_i lo' hi' p ps
    rw [eraseKey]
    by_cases hpk : p.1 = k
    · rw [if_pos hpk]
      refine lookupL_eq_none_of_forall ?_
      intro q hq he
      have := (hrest.mem_bounds q hq).1
      rw [he, ← hpk] at this
      exact absurd (this _ rfl) (lt_irrefl _)
    · rw [if_neg hpk]
      rw [lookupL, if_neg hpk]
      exact ih

theorem lookupL_eraseKey_ne {k k' : K} (hne : k' ≠ k) :
    ∀ (l : List (K × V)), lookupL k (eraseKey k' l) = lookupL k l := by
  intro l
  induction l with
  | nil => rfl
  | cons p ps ih =>
    rw [eraseKey]
    by_cases hpk : p.1 = k'
    · rw [if_pos hpk]
      rw [lookupL, if_neg (by rw [hpk]; exact hne)]
    · rw [if_neg hpk]
      rw [lookupL, lookupL]
      by_cases hpk2 : p.1 = k
      · rw [if_pos hpk2, if_pos hpk2]
      · rw [if_neg hpk2, if_neg hpk2]
        exact ih

theorem lookupL_insertSorted_ne {k k' : K} (v : V) (hne : k' ≠ k) :
    ∀ (l : List (K × V)), lookupL k (insertSorted k' v l) = lookupL k l := by
  intro l
  induction l with
  | nil =>
    simp [insertSorted, lookupL, hne]
  | cons p ps ih =>
    rw [insertSorted]
    by_cases h1 : k' < p.1
    · rw [if_pos h1, lookupL, if_neg hne]
    · rw [if_neg h1]
      by_cases h2 : k' = p.1
      · rw [if_pos h2]
      · rw [if_neg h2, lookupL, lookupL]
        by_cases h3 : p.1 = k
        · rw [if_pos h3, if_pos h3]
        · rw [if_neg h3, if_neg h3]
          exact ih

theorem lookupL_insertSorted_self_none {k : K} (v : V) :
    ∀ {l : List (K × V)}, lookupL k l = none →
    lookupL k (insertSorted k v l) = some v := by
  intro l
  induction l with
  | nil =>
    intro _
    rw [insertSorted, lookupL, if_pos rfl]
  | cons p ps ih =>
    intro h
    rw [lookupL] at h
    by_cases h1 : p.1 = k
    · rw [if_pos h1] at h
      cases h
    · rw [if_neg h1] at h
      rw [insertSorted]
      by_cases h2 : k < p.1
      · rw [if_pos h2, lookupL, if_pos rfl]
      · rw [if_neg h2, if_neg (fun he => h1 he.symm), lookupL, if_neg h1]
        exact ih h

/-- The specification's live-binding tracker agrees with the sorted
association-list model. -/
theorem specLive_model (k : K) :
    ∀ (ops : List (Op K V)) (l : List (K × V)),
    SortedB (none : Option K) (none : Option K) l →
    specLive k ops (lookupL k l) = lookupL k (ops.foldl modelOp l) := by
  intro ops
  induction ops with
  | nil =>
    intro l _
    rw [specLive, List.foldl_nil]
  | cons op rest ih =>
    intro l hs
    cases op with
    | ins k' v =>
      simp only [specLive, List.foldl_cons]
      have hstep : (match lookupL k l with
          | none => if k' = k then some v else none
          | some w => some w) = lookupL k (insertSorted k' v l) := by
        cases hlk : lookupL k l with
        | none =>
          by_cases hke : k' = k
          · subst hke
            rw [if_pos rfl, lookupL_insertSorted_self_none v hlk]
          · rw [if_neg hke, lookupL_insertSorted_ne v hke, hlk]
        | some w =>
          by_cases hke : k' = k
          · subst hke
            rw [insertSorted_eq_self_of_some v hs (by rw [hlk]; simp), hlk]
          · rw [lookupL_insertSorted_ne v hke, hlk]
      rw [hstep]
      exact ih (insertSorted k' v l)
        (SortedB.insertSorted_sorted v hs (loLt_none k') (ltHi_none k'))
    | del k' =>
      simp only [specLive, List.foldl_cons]
      have hstep : (if k' = k then none else lookupL k l)
          = lookupL k (eraseKey k' l) := by
        by_cases hke : k' = k
        · subst hke
          rw [if_pos rfl, lookupL_eraseKey_self hs]
        · rw [if_neg hke, lookupL_eraseKey_ne hke]
      rw [hstep]
      exact ih (eraseKey k' l) hs.eraseKey_sorted

/-! ### Remaining support: summaries of all nodes, round-trip emptiness -/

/-- Summary correctness propagates to every node of a forest. -/
theorem augOk_nodes :
    ∀ (n : Nat) {cs : List (Node K V V)} {d : Nat}, nsizeL cs ≤ n →
    (∀ c ∈ cs, c.augOk) → ∀ q ∈ allNodesL cs d,
    q.1.aug_val = listSum q.1.toList := by
  intro n
  induction n with
  | zero =>
    intro cs d hle hch q hq
    cases cs with
    | nil => simp at hq
    | cons c rest =>
      have h1 := Node.nsize_pos c
      rw [nsizeL_cons] at hle
      omega
  | succ n ihn =>
    intro cs d hle hch q hq
    cases cs with
    | nil => simp at hq
    | cons c rest =>
      rw [nsizeL_cons] at hle
      have hcpos := Node.nsize_pos c
      have hchl := nsizeL_children_lt c
      rw [allNodesL_cons] at hq
      rcases List.mem_cons.1 hq with rfl | hq1
      · exact Node.augOk_sum c (hch c (by simp))
      · rcases List.mem_append.1 hq1 with hq2 | hq2
        · exact ihn (by omega)
            (Node.augOk_children (hch c (by simp))) q hq2
        · exact ihn (by omega) (fun c' hc' => hch c' (by simp [hc'])) q hq2

theorem mem_insertSorted {p : K × V} {k : K} {v : V} :
    ∀ {l : List (K × V)}, p ∈ insertSorted k v l → p = (k, v) ∨ p ∈ l := by
  intro l
  induction l with
  | nil =>
    intro h
    simpa [insertSorted] using h
  | cons q qs ih =>
    intro h
    rw [insertSorted] at h
    by_cases h1 : k < q.1
    · rw [if_pos h1] at h
      rcases List.mem_cons.1 h with rfl | h2
      · exact Or.inl rfl
      · exact Or.inr h2
    · rw [if_neg h1] at h
      by_cases h2 : k = q.1
      · rw [if_pos h2] at h
        exact Or.inr h
      · rw [if_neg h2] at h
        rcases List.mem_cons.1 h with rfl | h3
        · exact Or.inr (by simp)
        · rcases ih h3 with h4 | h4
          · exact Or.inl h4
          · exact Or.inr (by simp [h4])

theorem mem_eraseKey {p : K × V} {k : K} :
    ∀ {l : List (K × V)}, p ∈ eraseKey k l → p ∈ l := by
  intro l
  induction l with
  | nil =>
    intro h
    simpa [eraseKey] using h
  | cons q qs ih =>
    intro h
    rw [eraseKey] at h
    by_cases h1 : q.1 = k
    · rw [if_pos h1] at h
      exact List.mem_cons_of_mem _ h
    · rw [if_neg h1] at h
      rcases List.mem_cons.1 h with rfl | h2
      · simp
      · exact List.mem_cons_of_mem _ (ih h2)

theorem modelOp_sorted {l : List (K × V)}
    (hs : SortedB (none : Option K) (none : Option K) l) (op : Op K V) :
    SortedB (none : Option K) (none : Option K) (modelOp l op) := by
  cases op with
  | ins k v => exact SortedB.insertSorted_sorted v hs (loLt_none k) (ltHi_none k)
  | del k => exact hs.eraseKey_sorted

theorem foldl_modelOp_sorted :
    ∀ (ops : List (Op K V)) {l : List (K × V)},
    SortedB (none : Option K) (none : Option K) l →
    SortedB (none : Option K) (none : Option K) (ops.foldl modelOp l) := by
  intro ops
  induction ops with
  | nil =>
    intro l hs
    simpa using hs
  | cons op rest ih =>
    intro l hs
    rw [List.foldl_cons]
    exact ih (modelOp_sorted hs op)

theorem model_inserts_keys (vf : K → V) :
    ∀ (l1 : List K) (m : List (K × V)),
    ∀ p ∈ (l1.map (fun k => Op.ins k (vf k))).foldl modelOp m,
      p.1 ∈ l1 ∨ p ∈ m := by
  intro l1
  induction l1 with
  | nil =>
    intro m p hp
    exact Or.inr (by simpa using hp)
  | cons k l1' ih =>
    intro m p hp
    rw [List.map_cons, List.foldl_cons] at hp
    rcases ih _ p hp with h1 | h1
    · exact Or.inl (by simp [h1])
    · rcases mem_insertSorted h1 with rfl | h2
      · exact Or.inl (by simp)
      · exact Or.inr h2

theorem model_deletes_all :
    ∀ (l2 : List K) {m : List (K × V)},
    SortedB (none : Option K) (none : Option K) m →
    (∀ p ∈ m, p.1 ∈ l2) →
    (l2.map (fun k => (Op.del k : Op K V))).foldl modelOp m = [] := by
  intro l2
  induction l2 with
  | nil =>
    intro m _ hsub
    rw [List.map_nil, List.foldl_nil]
    refine List.eq_nil_iff_forall_not_mem.2 ?_
    intro p hp
    simpa using hsub p hp
  | cons k l2' ih =>
    intro m hs hsub
    rw [List.map_cons, List.foldl_cons]
    refine ih hs.eraseKey_sorted ?_
    intro p hp
    have hpm : p ∈ m := mem_eraseKey hp
    rcases List.mem_cons.1 (hsub p hpm) with h1 | h1
    · exfalso
      have h2 := lookupL_of_mem_sorted hs.eraseKey_sorted hp
      rw [h1] at h2
      rw [lookupL_eraseKey_self hs] at h2
      cases h2
    · exact h1

/-! ### The claims -/

/-- C1: Search soundness: after any sequence of insert and delete
operations starting from the empty tree, `search(&k)` returns `Some(v)`
iff `(k, v)` was inserted by an insert call that returned true (the key
was absent at that time) and `k` was not deleted afterwards; otherwise it
returns `None`.  The right-hand side `specLive` is exactly that
live-binding tracker read off the operation sequence. -/
theorem claim_search_soundness (au : Aug K V β γ) (ops : List (Op K V)) (k : K) :
    BTree.search au k (runOps au ops) = specLive k ops none := by
  obtain ⟨⟨h, hg, _⟩, hlist⟩ := runOps_wf au ops
  rw [BTree.search, Node.search_val_spec au hg (loLt_none k) (ltHi_none k)
    au.initial_output, hlist]
  have h2 := specLive_model k ops [] .nil
  rw [lookupL] at h2
  exact h2.symm

/-- C2: Augmented-search correctness for the prefix-sum augmentation: on
any tree built by a sequence of inserts and deletes with `SumAugment`,
`augment_search(&k)` is the sum of the values of all currently live pairs
whose keys are at most `k` (the strictly smaller keys plus `k` itself when
present) — the prefix sum of the live model. -/
theorem claim_prefix_sum_query (ops : List (Op K V)) (k : K) :
    BTree.augment_search (SumAugment K V) k (runOps (SumAugment K V) ops)
      = prefixSum k (modelList ops) := by
  obtain ⟨⟨h, hg, _⟩, hlist⟩ := runOps_wf (SumAugment K V) ops
  rw [BTree.augment_search, Node.search_acc_spec hg (loLt_none k)
    (ltHi_none k) (runOps_aug ops) ((SumAugment K V).initial_output), hlist,
    modelList]
  simp

/-- C3: The B-tree structural invariant (with minimum degree t = 6) holds
after every operation sequence from the empty tree: the root holds at most
2t−1 keys, every other node holds between t−1 and 2t−1 keys, every
internal node with n keys has exactly n+1 children, all leaves lie at one
common depth, keys within each node are strictly sorted, and every key in
child cᵢ lies strictly between the adjacent separator keys. -/
theorem claim_structural_invariant (au : Aug K V β γ) (ops : List (Op K V)) :
    Shape (runOps au ops).root := by
  obtain ⟨⟨h, hg, _⟩, _⟩ := runOps_wf au ops
  exact hg.shape

/-- C4: Augmentation summary invariant for the prefix-sum augmentation:
after every operation sequence from the empty tree, every node's cached
`aug_val` equals the fold of the augmentation over the key/value pairs in
its subtree, recomputed from scratch (for `SumAugment`: the sum of all
values in the subtree). -/
theorem claim_summary_invariant (ops : List (Op K V)) :
    ∀ q ∈ allNodesL [(runOps (SumAugment K V) ops).root] 0,
      q.1.aug_val = listSum q.1.toList := by
  refine augOk_nodes (nsizeL [(runOps (SumAugment K V) ops).root])
    (le_refl _) ?_
  intro c hc
  rw [List.mem_singleton.1 hc]
  exact runOps_aug ops

/-- C4 witness: the single-node tree built by inserting (0, 1). -/
theorem claim_summary_invariant_witness :
    (Node.mk [((0 : ℤ), (1 : ℤ))] [] 1, 0) ∈
      allNodesL [(runOps (SumAugment ℤ ℤ) [Op.ins 0 1]).root] 0 ∧
    (Node.mk [((0 : ℤ), (1 : ℤ))] [] 1, 0).1.aug_val
      = listSum (Node.mk [((0 : ℤ), (1 : ℤ))] [] (1 : ℤ), 0).1.toList := by
  have hmem : (Node.mk [((0 : ℤ), (1 : ℤ))] [] 1, 0) ∈
      allNodesL [(runOps (SumAugment ℤ ℤ) [Op.ins 0 1]).root] 0 := by
    simp [runOps, BTree.applyOp, BTree.new, Node.new_root, BTree.insert,
      Node.insert_non_full, Node.is_full, Node.is_leaf, keyIdx, MIN_DEGREE,
      Node.insert_pair, SumAugment, allNodesL_cons, allNodesL_nil]
  exact ⟨hmem, claim_summary_invariant [Op.ins 0 1] _ hmem⟩

/-- C9: Delete returns the stored value: on a well-formed tree in which
key `k` is bound to value `v`, `delete(&k)` returns `Some(v)` — the exact
stored value — and afterwards `k` is absent from the tree. -/
theorem claim_delete_returns_value (au : Aug K V β γ) {t : BTree K V β}
    {k : K} {v : V} (hwf : TreeWF t)
    (hlk : lookupL k t.root.toList = some v) :
    (t.delete au k).2 = some v ∧
    lookupL k (t.delete au k).1.root.toList = none := by
  obtain ⟨h, hg, hnz⟩ := hwf
  obtain ⟨_, hdL, hdV⟩ := BTree.delete_model au hg hnz
  refine ⟨by rw [hdV, hlk], ?_⟩
  rw [hdL]
  exact lookupL_eraseKey_self hg.toList_sorted

/-- C9 witness: a one-pair tree, deleting its key. -/
theorem claim_delete_returns_value_witness :
    (TreeWF (⟨Node.mk [((0 : ℤ), (5 : ℤ))] [] ()⟩ : BTree ℤ ℤ Unit) ∧
      lookupL (0 : ℤ)
        ((⟨Node.mk [((0 : ℤ), (5 : ℤ))] [] ()⟩ : BTree ℤ ℤ Unit)).root.toList
        = some 5) ∧
    ((⟨Node.mk [((0 : ℤ), (5 : ℤ))] [] ()⟩ : BTree ℤ ℤ Unit).delete
      (UnitAugment ℤ ℤ) 0).2 = some 5 ∧
    lookupL (0 : ℤ) ((⟨Node.mk [((0 : ℤ), (5 : ℤ))] [] ()⟩ :
      BTree ℤ ℤ Unit).delete (UnitAugment ℤ ℤ) 0).1.root.toList = none := by
  have hTW : TreeWF (⟨Node.mk [((0 : ℤ), (5 : ℤ))] [] ()⟩ : BTree ℤ ℤ Unit) :=
    ⟨0, .leaf (Nat.zero_le _) (by decide) (.cons (loLt_none 0) (ltHi_none 0)
      .nil), fun hc => absurd rfl hc⟩
  have hlk : lookupL (0 : ℤ)
      ((⟨Node.mk [((0 : ℤ), (5 : ℤ))] [] ()⟩ : BTree ℤ ℤ Unit)).root.toList
      = some 5 := by
    simp [lookupL]
  exact ⟨⟨hTW, hlk⟩, claim_delete_returns_value (UnitAugment ℤ ℤ) hTW hlk⟩

/-- C10: Empty-tree behavior at the public interface: on a freshly created
tree, every `search` returns `None`, `delete` returns `None` and leaves
the tree unchanged (the empty root), and — for the prefix-sum
augmentation — `augment_search` returns exactly `initial_output()`. -/
theorem claim_empty_tree (au : Aug K V β γ) (k : K) :
    BTree.search au k (BTree.new au) = none ∧
    (BTree.new au).delete au k = (BTree.new au, none) ∧
    BTree.augment_search (SumAugment K V) k (BTree.new (SumAugment K V))
      = (SumAugment K V).initial_output := by
  have hg : Good 0 0 (none : Option K) (none : Option K) (BTree.new au).root :=
    .leaf (Nat.zero_le _) (by simp) .nil
  have hgS : Good 0 0 (none : Option K) (none : Option K)
      (BTree.new (SumAugment K V)).root :=
    .leaf (Nat.zero_le _) (by simp) .nil
  refine ⟨?_, ?_, ?_⟩
  · rw [BTree.search, Node.search_val_spec au hg (loLt_none k) (ltHi_none k)
      au.initial_output]
    simp [BTree.new, Node.new_root]
  · rw [BTree.delete, BTree.new, Node.new_root, Node.delete]
    have hki : keyIdx k ([] : List (K × V)) = .error 0 := rfl
    simp only [hki, List.isEmpty_nil, dite_true]
    simp only [Node.children_mk, List.length_nil]
    rw [if_neg (by omega)]
  · rw [BTree.augment_search, Node.search_acc_spec hgS (loLt_none k)
      (ltHi_none k) new_root_aug ((SumAugment K V).initial_output)]
    simp [BTree.new, Node.new_root, prefixSum]

/-- C5: Round-trip to empty: inserting n pairs with distinct keys (in any
order) and then deleting those same n keys (in any order, here any
permutation `l2` of the insertion keys `l1`) returns the tree to the empty
state: the root has no keys and no children under any augmentation, and
with the prefix-sum augmentation the root is literally the fresh root with
`aug_val = initial_value()`. -/
theorem claim_round_trip (au : Aug K V β γ) (l1 l2 : List K) (vf : K → V)
    (hperm : l1.Perm l2) (hnd : l1.Nodup) :
    (runOps au (l1.map (fun k => Op.ins k (vf k)) ++
      l2.map (fun k => (Op.del k : Op K V)))).root.keys = [] ∧
    (runOps au (l1.map (fun k => Op.ins k (vf k)) ++
      l2.map (fun k => (Op.del k : Op K V)))).root.children = [] ∧
    (runOps (SumAugment K V) (l1.map (fun k => Op.ins k (vf k)) ++
      l2.map (fun k => (Op.del k : Op K V)))).root
      = Node.mk [] [] ((SumAugment K V).initial_value) := by
  have hmodel : ((l1.map (fun k => Op.ins k (vf k)) ++
      l2.map (fun k => (Op.del k : Op K V))).foldl modelOp
        ([] : List (K × V))) = [] := by
    rw [List.foldl_append]
    refine model_deletes_all l2 ?_ ?_
    · exact foldl_modelOp_sorted (l1.map (fun k => Op.ins k (vf k))) .nil
    · intro p hp
      rcases model_inserts_keys vf l1 [] p hp with h1 | h1
      · exact hperm.mem_iff.1 h1
      · simp at h1
  have hkeys : ∀ {β2 γ2 : Type} [Inhabited β2] (au2 : Aug K V β2 γ2),
      (runOps au2 (l1.map (fun k => Op.ins k (vf k)) ++
        l2.map (fun k => (Op.del k : Op K V)))).root.keys = [] := by
    intro β2 γ2 hβ2 au2
    obtain ⟨⟨h, hg, hnz⟩, hlist⟩ := runOps_wf au2 (l1.map (fun k =>
      Op.ins k (vf k)) ++ l2.map (fun k => (Op.del k : Op K V)))
    rw [hmodel] at hlist
    cases hks : (runOps au2 (l1.map (fun k => Op.ins k (vf k)) ++
        l2.map (fun k => (Op.del k : Op K V)))).root.keys with
    | nil => rfl
    | cons p ps =>
      exfalso
      have hp : p ∈ (runOps au2 (l1.map (fun k => Op.ins k (vf k)) ++
          l2.map (fun k => (Op.del k : Op K V)))).root.toList := by
        rw [Node.toList_eq]
        exact mem_toListAux (by rw [hks]; simp)
      rw [hlist] at hp
      simp at hp
  have hchildren : ∀ {β2 γ2 : Type} [Inhabited β2] (au2 : Aug K V β2 γ2),
      (runOps au2 (l1.map (fun k => Op.ins k (vf k)) ++
        l2.map (fun k => (Op.del k : Op K V)))).root.children = [] := by
    intro β2 γ2 hβ2 au2
    obtain ⟨⟨h, hg, hnz⟩, hlist⟩ := runOps_wf au2 (l1.map (fun k =>
      Op.ins k (vf k)) ++ l2.map (fun k => (Op.del k : Op K V)))
    by_contra hcne
    have h1 := hnz hcne
    rw [hkeys au2] at h1
    simp at h1
  refine ⟨hkeys au, hchildren au, ?_⟩
  have haug := runOps_aug (K := K) (V := V) (l1.map (fun k =>
    Op.ins k (vf k)) ++ l2.map (fun k => (Op.del k : Op K V)))
  have hsum := Node.augOk_sum _ haug
  obtain ⟨⟨h, hg, hnz⟩, hlist⟩ := runOps_wf (SumAugment K V) (l1.map (fun k =>
    Op.ins k (vf k)) ++ l2.map (fun k => (Op.del k : Op K V)))
  rw [hmodel] at hlist
  have hav : (runOps (SumAugment K V) (l1.map (fun k => Op.ins k (vf k)) ++
      l2.map (fun k => (Op.del k : Op K V)))).root.aug_val = 0 := by
    rw [hsum, hlist]
    simp [listSum]
  conv_lhs => rw [← Node.mk_keys_children_aug (runOps (SumAugment K V)
    (l1.map (fun k => Op.ins k (vf k)) ++
      l2.map (fun k => (Op.del k : Op K V)))).root]
  rw [hkeys (SumAugment K V), hchildren (SumAugment K V), hav]
  rfl

/-- C5 witness: keys 1, 2 inserted in order, deleted in reverse order. -/
theorem claim_round_trip_witness :
    (([(1 : ℤ), 2].Perm [2, 1] ∧ ([(1 : ℤ), 2]).Nodup) ∧
    (runOps (UnitAugment ℤ ℤ) ([(1 : ℤ), 2].map (fun k =>
      Op.ins k ((fun _ => (1 : ℤ)) k)) ++
      [(2 : ℤ), 1].map (fun k => (Op.del k : Op ℤ ℤ)))).root.keys = [] ∧
    (runOps (UnitAugment ℤ ℤ) ([(1 : ℤ), 2].map (fun k =>
      Op.ins k ((fun _ => (1 : ℤ)) k)) ++
      [(2 : ℤ), 1].map (fun k => (Op.del k : Op ℤ ℤ)))).root.children = [] ∧
    (runOps (SumAugment ℤ ℤ) ([(1 : ℤ), 2].map (fun k =>
      Op.ins k ((fun _ => (1 : ℤ)) k)) ++
      [(2 : ℤ), 1].map (fun k => (Op.del k : Op ℤ ℤ)))).root
      = Node.mk [] [] ((SumAugment ℤ ℤ).initial_value)) :=
  ⟨⟨by decide, by decide⟩, claim_round_trip (UnitAugment ℤ ℤ) [(1 : ℤ), 2]
    [2, 1] (fun _ => (1 : ℤ)) (by decide) (by decide)⟩

/-- C6 (amended): inserting the same key/value pair twice is idempotent at
the level of contents and of the returned flag: on a well-formed tree the
second insert returns false and leaves the stored key/value sequence
unchanged.  (The claim's stronger reading — that the tree itself is
completely unchanged — is false: a duplicate insert into a tree with a
full root still performs the preemptive root split, changing the node
structure; see the counterexample.) -/
theorem claim_insert_idempotent (au : Aug K V β γ) {t : BTree K V β}
    (hwf : TreeWF t) (k : K) (v : V) :
    ((t.insert au k v).1.insert au k v).2 = false ∧
    ((t.insert au k v).1.insert au k v).1.root.toList
      = (t.insert au k v).1.root.toList := by
  obtain ⟨hwf1, hlist1, _⟩ := BTree.insert_wf au k v hwf
  obtain ⟨h1, hg1, _⟩ := hwf1
  obtain ⟨_, hlist2, hflag2⟩ := BTree.insert_spec au v hg1
  have hlk : lookupL k (t.insert au k v).1.root.toList ≠ none := by
    rw [hlist1]
    cases hlk0 : lookupL k t.root.toList with
    | none => rw [lookupL_insertSorted_self_none v hlk0]; simp
    | some w =>
      obtain ⟨h0, hg0, _⟩ := hwf
      rw [insertSorted_eq_self_of_some v hg0.toList_sorted
        (by rw [hlk0]; simp), hlk0]
      simp
  refine ⟨?_, ?_⟩
  · cases hb : ((t.insert au k v).1.insert au k v).2 with
    | false => rfl
    | true => exact absurd (hflag2.1 hb) hlk
  · rw [hlist2]
    exact insertSorted_eq_self_of_some v hg1.toList_sorted hlk

/-- C6 witness: double insert of (1, 2) into the empty tree. -/
theorem claim_insert_idempotent_witness :
    TreeWF (BTree.new (UnitAugment ℤ ℤ)) ∧
    (((BTree.new (UnitAugment ℤ ℤ)).insert (UnitAugment ℤ ℤ) 1 2).1.insert
      (UnitAugment ℤ ℤ) 1 2).2 = false ∧
    (((BTree.new (UnitAugment ℤ ℤ)).insert (UnitAugment ℤ ℤ) 1 2).1.insert
      (UnitAugment ℤ ℤ) 1 2).1.root.toList
      = ((BTree.new (UnitAugment ℤ ℤ)).insert
          (UnitAugment ℤ ℤ) 1 2).1.root.toList := by
  have hTW : TreeWF (BTree.new (UnitAugment ℤ ℤ)) :=
    ⟨0, .leaf (Nat.zero_le _) (by decide) .nil, fun hc => absurd rfl hc⟩
  exact ⟨hTW, claim_insert_idempotent (UnitAugment ℤ ℤ) hTW 1 2⟩

/-- C7 (amended): deleting an absent key returns None and leaves the
stored key/value sequence unchanged, and the result is still well-formed.
(The claim's stronger reading — that the tree itself is completely
unchanged — is false: the top-down descent restructures nodes via
`make_space` before discovering the key is absent; see the
counterexample.) -/
theorem claim_delete_absent (au : Aug K V β γ) {t : BTree K V β} {k : K}
    (hwf : TreeWF t) (hlk : lookupL k t.root.toList = none) :
    (t.delete au k).2 = none ∧
    (t.delete au k).1.root.toList = t.root.toList ∧
    TreeWF (t.delete au k).1 := by
  obtain ⟨h, hg, hnz⟩ := hwf
  obtain ⟨hwf', hdL, hdV⟩ := BTree.delete_model au hg hnz
  refine ⟨by rw [hdV, hlk], ?_, hwf'⟩
  rw [hdL]
  exact eraseKey_eq_self_of_none hlk

/-- C7 witness: deleting key 0 from the empty tree. -/
theorem claim_delete_absent_witness :
    (TreeWF (BTree.new (UnitAugment ℤ ℤ)) ∧
      lookupL (0 : ℤ) (BTree.new (UnitAugment ℤ ℤ)).root.toList = none) ∧
    ((BTree.new (UnitAugment ℤ ℤ)).delete (UnitAugment ℤ ℤ) 0).2 = none ∧
    ((BTree.new (UnitAugment ℤ ℤ)).delete
      (UnitAugment ℤ ℤ) 0).1.root.toList
      = (BTree.new (UnitAugment ℤ ℤ)).root.toList ∧
    TreeWF ((BTree.new (UnitAugment ℤ ℤ)).delete (UnitAugment ℤ ℤ) 0).1 := by
  have hTW : TreeWF (BTree.new (UnitAugment ℤ ℤ)) :=
    ⟨0, .leaf (Nat.zero_le _) (by decide) .nil, fun hc => absurd rfl hc⟩
  have hlk : lookupL (0 : ℤ) (BTree.new (UnitAugment ℤ ℤ)).root.toList
      = none := by
    simp [BTree.new, Node.new_root, lookupL]
  exact ⟨⟨hTW, hlk⟩, claim_delete_absent (UnitAugment ℤ ℤ) hTW hlk⟩

/-- C8 (amended): inserting a key `k` that is already present (bound to
`v0`) with a new value `v1` returns false and leaves the stored key/value
sequence — in particular the binding of `k` to the ORIGINAL value `v0` —
unchanged.  (The claim's further assertion that no augmentation summary
changes is false: a duplicate insert into a tree with a full root splits
the root and creates fresh summary values; see the counterexample.) -/
theorem claim_duplicate_insert (au : Aug K V β γ) {t : BTree K V β} {k : K}
    {v0 : V} (hwf : TreeWF t) (hlk : lookupL k t.root.toList = some v0)
    (v1 : V) :
    (t.insert au k v1).2 = false ∧
    (t.insert au k v1).1.root.toList = t.root.toList ∧
    lookupL k (t.insert au k v1).1.root.toList = some v0 := by
  obtain ⟨h, hg, hnz⟩ := hwf
  obtain ⟨_, hlist, hflag⟩ := BTree.insert_spec au v1 hg
  have hlkne : lookupL k t.root.toList ≠ none := by rw [hlk]; simp
  have hsame : (t.insert au k v1).1.root.toList = t.root.toList := by
    rw [hlist]
    exact insertSorted_eq_self_of_some v1 hg.toList_sorted hlkne
  refine ⟨?_, hsame, by rw [hsame, hlk]⟩
  cases hb : (t.insert au k v1).2 with
  | false => rfl
  | true => exact absurd (hflag.1 hb) hlkne

/-- C8 witness: re-inserting key 0 with value 7 into a one-pair tree that
binds 0 to 5. -/
theorem claim_duplicate_insert_witness :
    (TreeWF (⟨Node.mk [((0 : ℤ), (5 : ℤ))] [] ()⟩ : BTree ℤ ℤ Unit) ∧
      lookupL (0 : ℤ)
        ((⟨Node.mk [((0 : ℤ), (5 : ℤ))] [] ()⟩ :
          BTree ℤ ℤ Unit)).root.toList = some 5) ∧
    ((⟨Node.mk [((0 : ℤ), (5 : ℤ))] [] ()⟩ : BTree ℤ ℤ Unit).insert
      (UnitAugment ℤ ℤ) 0 7).2 = false ∧
    ((⟨Node.mk [((0 : ℤ), (5 : ℤ))] [] ()⟩ : BTree ℤ ℤ Unit).insert
      (UnitAugment ℤ ℤ) 0 7).1.root.toList
      = ((⟨Node.mk [((0 : ℤ), (5 : ℤ))] [] ()⟩ :
          BTree ℤ ℤ Unit)).root.toList ∧
    lookupL (0 : ℤ) ((⟨Node.mk [((0 : ℤ), (5 : ℤ))] [] ()⟩ :
      BTree ℤ ℤ Unit).insert (UnitAugment ℤ ℤ) 0 7).1.root.toList
      = some 5 := by
  have hTW : TreeWF (⟨Node.mk [((0 : ℤ), (5 : ℤ))] [] ()⟩ :
      BTree ℤ ℤ Unit) :=
    ⟨0, .leaf (Nat.zero_le _) (by decide) (.cons (loLt_none 0) (ltHi_none 0)
      .nil), fun hc => absurd rfl hc⟩
  have hlk : lookupL (0 : ℤ) ((⟨Node.mk [((0 : ℤ), (5 : ℤ))] [] ()⟩ :
      BTree ℤ ℤ Unit)).root.toList = some 5 := by
    simp [lookupL]
  exact ⟨⟨hTW, hlk⟩, claim_duplicate_insert (UnitAugment ℤ ℤ) hTW hlk 7⟩

/-- C6 counterexample: after inserting keys 0..9 and then (10, 0), the
root is full (11 keys); re-inserting the very same pair (10, 0) triggers
the preemptive root split, so the tree after the second insert differs
from the tree after the first — the duplicate insert is NOT a complete
no-op on the tree. -/
theorem claim_insert_idempotent_cex :
    ((((runOps (UnitAugment ℤ ℤ) [Op.ins 0 0, Op.ins 1 0, Op.ins 2 0,
        Op.ins 3 0, Op.ins 4 0, Op.ins 5 0, Op.ins 6 0, Op.ins 7 0,
        Op.ins 8 0, Op.ins 9 0]).insert (UnitAugment ℤ ℤ) 10 0).1.insert
          (UnitAugment ℤ ℤ) 10 0).2 = false) ∧
    (((runOps (UnitAugment ℤ ℤ) [Op.ins 0 0, Op.ins 1 0, Op.ins 2 0,
        Op.ins 3 0, Op.ins 4 0, Op.ins 5 0, Op.ins 6 0, Op.ins 7 0,
        Op.ins 8 0, Op.ins 9 0]).insert (UnitAugment ℤ ℤ) 10 0).1.insert
          (UnitAugment ℤ ℤ) 10 0).1
      ≠ ((runOps (UnitAugment ℤ ℤ) [Op.ins 0 0, Op.ins 1 0, Op.ins 2 0,
        Op.ins 3 0, Op.ins 4 0, Op.ins 5 0, Op.ins 6 0, Op.ins 7 0,
        Op.ins 8 0, Op.ins 9 0]).insert (UnitAugment ℤ ℤ) 10 0).1 := by
  constructor
  · simp [runOps, BTree.applyOp, BTree.new, Node.new_root, BTree.insert,
      Node.insert_non_full, Node.is_full, Node.is_leaf, keyIdx, MIN_DEGREE,
      Node.split, Node.split_child, Node.insert_pair, Node.insert_child,
      UnitAugment]
  · apply ne_of_apply_ne (fun u : BTree ℤ ℤ Unit => u.root.keys.length)
    simp [runOps, BTree.applyOp, BTree.new, Node.new_root, BTree.insert,
      Node.insert_non_full, Node.is_full, Node.is_leaf, keyIdx, MIN_DEGREE,
      Node.split, Node.split_child, Node.insert_pair, Node.insert_child,
      UnitAugment]

/-- C7 counterexample: insert keys 0..11 (the root splits, leaving
separator key 5 in the root), then delete the absent key −1: the delete
returns None, but the descent's `make_space` steals from the right
sibling and rotates key 5 down, replacing the root separator by 6 — the
tree is NOT left unchanged. -/
theorem claim_delete_absent_cex :
    ((runOps (UnitAugment ℤ ℤ) [Op.ins 0 0, Op.ins 1 0, Op.ins 2 0,
        Op.ins 3 0, Op.ins 4 0, Op.ins 5 0, Op.ins 6 0, Op.ins 7 0,
        Op.ins 8 0, Op.ins 9 0, Op.ins 10 0, Op.ins 11 0]).delete
          (UnitAugment ℤ ℤ) (-1)).2 = none ∧
    ((runOps (UnitAugment ℤ ℤ) [Op.ins 0 0, Op.ins 1 0, Op.ins 2 0,
        Op.ins 3 0, Op.ins 4 0, Op.ins 5 0, Op.ins 6 0, Op.ins 7 0,
        Op.ins 8 0, Op.ins 9 0, Op.ins 10 0, Op.ins 11 0]).delete
          (UnitAugment ℤ ℤ) (-1)).1
      ≠ runOps (UnitAugment ℤ ℤ) [Op.ins 0 0, Op.ins 1 0, Op.ins 2 0,
        Op.ins 3 0, Op.ins 4 0, Op.ins 5 0, Op.ins 6 0, Op.ins 7 0,
        Op.ins 8 0, Op.ins 9 0, Op.ins 10 0, Op.ins 11 0] := by
  constructor
  · simp [runOps, BTree.applyOp, BTree.new, Node.new_root, BTree.insert,
      Node.insert_non_full, Node.is_full, Node.is_leaf, keyIdx, MIN_DEGREE,
      Node.split, Node.split_child, Node.insert_pair, Node.insert_child,
      UnitAugment, BTree.delete, Node.delete, Node.delete_own,
      Node.make_space, Node.merge_children, Node.remove_pair, Node.is_min,
      Node.delete_max, Node.delete_min]
  · apply ne_of_apply_ne (fun u : BTree ℤ ℤ Unit => u.root.keys)
    simp [runOps, BTree.applyOp, BTree.new, Node.new_root, BTree.insert,
      Node.insert_non_full, Node.is_full, Node.is_leaf, keyIdx, MIN_DEGREE,
      Node.split, Node.split_child, Node.insert_pair, Node.insert_child,
      UnitAugment, BTree.delete, Node.delete, Node.delete_own,
      Node.make_space, Node.merge_children, Node.remove_pair, Node.is_min,
      Node.delete_max, Node.delete_min]

/-- C8 counterexample (for the prefix-sum augmentation): insert keys
0..10 with value 1 (the root is then full, holding 11 keys, with a single
summary value 11), then insert key 5 — already present — with value 99:
the insert returns false and no stored value changes, but the preemptive
root split replaces the one-node tree by a three-node tree, so the
multiset of cached summary values DOES change. -/
theorem claim_duplicate_insert_cex :
    ((runOps (SumAugment ℤ ℤ) [Op.ins 0 1, Op.ins 1 1, Op.ins 2 1,
        Op.ins 3 1, Op.ins 4 1, Op.ins 5 1, Op.ins 6 1, Op.ins 7 1,
        Op.ins 8 1, Op.ins 9 1, Op.ins 10 1]).insert
          (SumAugment ℤ ℤ) 5 99).2 = false ∧
    (allNodesL [((runOps (SumAugment ℤ ℤ) [Op.ins 0 1, Op.ins 1 1,
        Op.ins 2 1, Op.ins 3 1, Op.ins 4 1, Op.ins 5 1, Op.ins 6 1,
        Op.ins 7 1, Op.ins 8 1, Op.ins 9 1, Op.ins 10 1]).insert
          (SumAugment ℤ ℤ) 5 99).1.root] 0).map (fun q => q.1.aug_val)
      ≠ (allNodesL [(runOps (SumAugment ℤ ℤ) [Op.ins 0 1, Op.ins 1 1,
        Op.ins 2 1, Op.ins 3 1, Op.ins 4 1, Op.ins 5 1, Op.ins 6 1,
        Op.ins 7 1, Op.ins 8 1, Op.ins 9 1, Op.ins 10 1]).root] 0).map
          (fun q => q.1.aug_val) := by
  constructor
  · simp [runOps, BTree.applyOp, BTree.new, Node.new_root, BTree.insert,
      Node.insert_non_full, Node.is_full, Node.is_leaf, keyIdx, MIN_DEGREE,
      Node.split, Node.split_child, Node.insert_pair, Node.insert_child,
      SumAugment]
  · apply ne_of_apply_ne List.length
    simp [runOps, BTree.applyOp, BTree.new, Node.new_root, BTree.insert,
      Node.insert_non_full, Node.is_full, Node.is_leaf, keyIdx, MIN_DEGREE,
      Node.split, Node.split_child, Node.insert_pair, Node.insert_child,
      SumAugment, allNodesL_cons, allNodesL_nil]

end BT
